import Mathlib

/-!
Verification of the crawl frontier subsystem of `scripts/1_crawl.py`:
URL canonicalization, the SQLite-backed frontier store (claim / fail /
upsert / normalize / quarantine), relevance ranking, the condition-coverage
source filter and the directory-page detector, shallowly embedded in Lean.

Strings are modelled as Lean `String` / `List Char`; SQL timestamps as
integers (seconds); the Python standard-library URL helpers (`urlparse`,
`urlunparse`, `parse_qsl`, `urlencode`, `quote_plus`, `unquote`) are
modelled on `List Char` following CPython's implementations, with
`str.lower` / `str.strip` modelled on ASCII (URLs handled by this program
are ASCII).
-/

namespace Crawl

/-- Python `str.isspace` characters relevant here (ASCII whitespace). -/
def isSpaceChar (c : Char) : Bool :=
  c = ' ' || c = '\t' || c = '\n' || c = '\r' || c = '\x0b' || c = '\x0c'

/-- Python `str.strip()` (ASCII whitespace model). -/
def pyStrip (l : List Char) : List Char :=
  ((l.dropWhile isSpaceChar).reverse.dropWhile isSpaceChar).reverse

/-- ASCII lower-casing of one character (model of `str.lower` per char). -/
def lowerChar (c : Char) : Char :=
  if 65 ≤ c.toNat ∧ c.toNat ≤ 90 then Char.ofNat (c.toNat + 32) else c

/-- Model of Python `str.lower()` (ASCII). -/
def toLowerList (l : List Char) : List Char := l.map lowerChar

/-- `spanNot p l = (a, b)` where `a` is the longest leading run with `p = false`
and `b` the rest (so `b` is empty or starts with a `p`-character). -/
def spanNot (p : Char → Bool) : List Char → List Char × List Char
  | [] => ([], [])
  | c :: rest =>
    if p c then ([], c :: rest)
    else
      let s := spanNot p rest
      (c :: s.1, s.2)

/-- Split at the first occurrence of `sep`: returns the part before it and the
part after it (the rest is empty when `sep` does not occur), like Python's
`s.split(sep, 1)` with a missing-separator fallback. -/
def splitAtFirst (sep : Char) (l : List Char) : List Char × List Char :=
  let s := spanNot (fun c => c = sep) l
  match s.2 with
  | [] => (s.1, [])
  | _ :: t => (s.1, t)

/-- Whether `sep` occurs in `l` (to distinguish "no separator" from "empty rest"). -/
def hasChar (sep : Char) (l : List Char) : Bool := l.any (fun c => c = sep)

/-- Python `s.split(sep)`: always returns at least one chunk. -/
def splitOnSep (sep : Char) : List Char → List (List Char)
  | [] => [[]]
  | c :: rest =>
    if c = sep then [] :: splitOnSep sep rest
    else
      match splitOnSep sep rest with
      | [] => [[c]]
      | h :: t => (c :: h) :: t

/-- `startsWithL pat l`: does `l` start with `pat`? -/
def startsWithL : List Char → List Char → Bool
  | [], _ => true
  | _ :: _, [] => false
  | a :: as, b :: bs => a = b && startsWithL as bs

/-- Python's substring test `pat in l`. -/
def containsSub (pat : List Char) : List Char → Bool
  | [] => startsWithL pat []
  | c :: rest => startsWithL pat (c :: rest) || containsSub pat (c :: rest).tail

/-- Python `s.rstrip('/')`. -/
def rstripSlash (l : List Char) : List Char :=
  (l.reverse.dropWhile (fun c => c = '/')).reverse

/-- `first-occurrence` dedup, like Python `dict.fromkeys` (worker carrying
the set of keys already emitted). -/
def dedupFirstAux [DecidableEq α] (seen : List α) : List α → List α
  | [] => []
  | a :: rest =>
    if a ∈ seen then dedupFirstAux seen rest
    else a :: dedupFirstAux (a :: seen) rest

/-- `first-occurrence` dedup, like Python `dict.fromkeys`. -/
def dedupFirst [DecidableEq α] (l : List α) : List α := dedupFirstAux [] l

/-- Concatenation of the images of `f` (Python generator flattening). -/
def catMap (f : α → List β) : List α → List β
  | [] => []
  | a :: rest => f a ++ catMap f rest

/-! ### Percent-encoding: models of `urllib.parse.quote_plus`, `unquote`,
`parse_qsl(…, keep_blank_values=True)` and `urlencode(…, doseq=True)`.

UTF-8 is modelled exactly for encoding; the decoder's handling of *invalid*
byte sequences is simplified (one replacement character per bad byte) —
that path is never exercised when decoding an encoder output. -/

def hexVal (c : Char) : Option Nat :=
  if 48 ≤ c.toNat ∧ c.toNat ≤ 57 then some (c.toNat - 48)
  else if 65 ≤ c.toNat ∧ c.toNat ≤ 70 then some (c.toNat - 55)
  else if 97 ≤ c.toNat ∧ c.toNat ≤ 102 then some (c.toNat - 87)
  else none

def utf8Encode (c : Char) : List Nat :=
  let v := c.toNat
  if v < 128 then [v]
  else if v < 2048 then [192 + v / 64, 128 + v % 64]
  else if v < 65536 then [224 + v / 4096, 128 + v / 64 % 64, 128 + v % 64]
  else [240 + v / 262144, 128 + v / 4096 % 64, 128 + v / 64 % 64, 128 + v % 64]

/-- U+FFFD, the replacement character used by `errors='replace'`. -/
def replChar : Char := Char.ofNat 65533

def utf8Decode : List Nat → List Char
  | [] => []
  | [b] =>
    if b < 128 then [Char.ofNat b] else [replChar]
  | [b, b2] =>
    if b < 128 then Char.ofNat b :: utf8Decode [b2]
    else if 194 ≤ b ∧ b < 224 ∧ 128 ≤ b2 ∧ b2 < 192 then
      [Char.ofNat ((b - 192) * 64 + (b2 - 128))]
    else replChar :: utf8Decode [b2]
  | [b, b2, b3] =>
    if b < 128 then Char.ofNat b :: utf8Decode [b2, b3]
    else if 194 ≤ b ∧ b < 224 ∧ 128 ≤ b2 ∧ b2 < 192 then
      Char.ofNat ((b - 192) * 64 + (b2 - 128)) :: utf8Decode [b3]
    else if 224 ≤ b ∧ b < 240 ∧ 128 ≤ b2 ∧ b2 < 192 ∧ 128 ≤ b3 ∧ b3 < 192 then
      [Char.ofNat ((b - 224) * 4096 + (b2 - 128) * 64 + (b3 - 128))]
    else replChar :: utf8Decode [b2, b3]
  | b :: b2 :: b3 :: b4 :: rest =>
    if b < 128 then Char.ofNat b :: utf8Decode (b2 :: b3 :: b4 :: rest)
    else if 194 ≤ b ∧ b < 224 ∧ 128 ≤ b2 ∧ b2 < 192 then
      Char.ofNat ((b - 192) * 64 + (b2 - 128)) :: utf8Decode (b3 :: b4 :: rest)
    else if 224 ≤ b ∧ b < 240 ∧ 128 ≤ b2 ∧ b2 < 192 ∧ 128 ≤ b3 ∧ b3 < 192 then
      Char.ofNat ((b - 224) * 4096 + (b2 - 128) * 64 + (b3 - 128)) :: utf8Decode (b4 :: rest)
    else if 240 ≤ b ∧ b < 245 ∧ 128 ≤ b2 ∧ b2 < 192 ∧ 128 ≤ b3 ∧ b3 < 192
        ∧ 128 ≤ b4 ∧ b4 < 192 then
      Char.ofNat ((b - 240) * 262144 + (b2 - 128) * 4096 + (b3 - 128) * 64 + (b4 - 128)) ::
        utf8Decode rest
    else replChar :: utf8Decode (b2 :: b3 :: b4 :: rest)

/-- Characters `quote` never escapes (`ALWAYS_SAFE`: alphanumerics and `_.-~`). -/
def isSafeChar (c : Char) : Bool :=
  c.isAlphanum || c == '_' || c == '.' || c == '-' || c == '~'

def hexDigitUpper (n : Nat) : Char :=
  if n < 10 then Char.ofNat (48 + n) else Char.ofNat (55 + n)

def pctEncByte (b : Nat) : List Char := ['%', hexDigitUpper (b / 16), hexDigitUpper (b % 16)]

/-- `urllib.parse.quote_plus(s, safe='')`: safe characters kept, space
becomes `+`, everything else percent-encoded per UTF-8 byte. -/
def quote_plus (s : List Char) : List Char :=
  catMap
    (fun c =>
      if isSafeChar c then [c]
      else if c = ' ' then ['+']
      else catMap pctEncByte (utf8Encode c))
    s

/-- Worker for `unquote`: accumulates percent-decoded bytes (in reverse) for
the current ASCII run, flushes through the UTF-8 decoder at a non-ASCII
character or at the end. -/
def unquoteAux : List Char → List Nat → List Char
  | [], acc => utf8Decode acc.reverse
  | c :: rest, acc =>
    if c = '%' then
      match rest with
      | c1 :: c2 :: rest2 =>
        match hexVal c1, hexVal c2 with
        | some h1, some h2 => unquoteAux rest2 ((16 * h1 + h2) :: acc)
        | _, _ => unquoteAux (c1 :: c2 :: rest2) (37 :: acc)
      | other => unquoteAux other (37 :: acc)
    else if c.toNat < 128 then unquoteAux rest (c.toNat :: acc)
    else utf8Decode acc.reverse ++ c :: unquoteAux rest []

/-- `urllib.parse.unquote(s, errors='replace')`. -/
def unquote (s : List Char) : List Char := unquoteAux s []

/-- `s.replace('+', ' ')`, applied by `parse_qsl` before unquoting. -/
def plusToSpace (s : List Char) : List Char := s.map (fun c => if c = '+' then ' ' else c)

/-- `name_value.split('=', 1)` with the missing-separator fallback to an
empty value (`keep_blank_values=True`). -/
def splitEq : List Char → List Char × List Char
  | [] => ([], [])
  | c :: rest =>
    if c = '=' then ([], rest)
    else
      let s := splitEq rest
      (c :: s.1, s.2)

/-- `urllib.parse.parse_qsl(qs, keep_blank_values=True)` (separator `&`). -/
def parse_qsl (qs : List Char) : List (List Char × List Char) :=
  (splitOnSep '&' qs).filterMap fun chunk =>
    if chunk = [] then none
    else
      let nv := splitEq chunk
      some (unquote (plusToSpace nv.1), unquote (plusToSpace nv.2))

/-- `urllib.parse.urlencode(pairs, doseq=True)` for string pairs. -/
def urlencode : List (List Char × List Char) → List Char
  | [] => []
  | [kv] => quote_plus kv.1 ++ '=' :: quote_plus kv.2
  | kv :: kv2 :: rest => quote_plus kv.1 ++ '=' :: quote_plus kv.2 ++ '&' :: urlencode (kv2 :: rest)

/-! ### `urllib.parse.urlsplit` / `urlparse` / `urlunparse` on `List Char` -/

structure SplitResult where
  scheme : List Char
  netloc : List Char
  path : List Char
  query : List Char
  fragment : List Char
deriving DecidableEq, Repr

structure ParseResult where
  scheme : List Char
  netloc : List Char
  path : List Char
  params : List Char
  query : List Char
  fragment : List Char
deriving DecidableEq, Repr

/-- `_UNSAFE_URL_BYTES_TO_REMOVE`: tab, CR and LF are deleted anywhere. -/
def removeUnsafe (l : List Char) : List Char :=
  l.filter fun c => !(c == '\t' || c == '\r' || c == '\n')

def isSchemeChar (c : Char) : Bool := c.isAlphanum || c == '+' || c == '-' || c == '.'

/-- Scheme detection of `urlsplit`: a valid scheme name before the first `:`
is split off and lower-cased, otherwise the URL is left whole. -/
def splitScheme (l : List Char) : List Char × List Char :=
  let s := spanNot (fun c => c = ':') l
  match s.2 with
  | [] => ([], l)
  | _ :: afterColon =>
    match s.1 with
    | [] => ([], l)
    | c0 :: restName =>
      if c0.isAlpha && restName.all isSchemeChar then (toLowerList s.1, afterColon)
      else ([], l)

def isNetlocStop (c : Char) : Bool := c == '/' || c == '?' || c == '#'

def urlsplit (url : List Char) : SplitResult :=
  let url2 := removeUnsafe url
  let sr := splitScheme url2
  let nr :=
    if startsWithL "//".toList sr.2 then
      let s := spanNot isNetlocStop (sr.2.drop 2)
      (s.1, s.2)
    else ([], sr.2)
  let fr := splitAtFirst '#' nr.2
  let qr := splitAtFirst '?' fr.1
  ⟨sr.1, nr.1, qr.1, qr.2, fr.2⟩

/-- `_splitparams`: split `;params` off the *last* path segment. -/
def splitParams (p : List Char) : List Char × List Char :=
  if hasChar '/' p then
    let s := spanNot (fun c => c = '/') p.reverse
    let seg := s.1.reverse
    let t := spanNot (fun c => c = ';') seg
    match t.2 with
    | [] => (p, [])
    | _ :: aft => (s.2.reverse ++ t.1, aft)
  else
    let t := spanNot (fun c => c = ';') p
    match t.2 with
    | [] => (p, [])
    | _ :: aft => (t.1, aft)

/-- `uses_params` membership, restricted to the schemes this program can
reach (`''`, `http`, `https`; all other schemes are rejected by
`_canonicalize_url` before the result is ever used). -/
def usesParams (scheme : List Char) : Bool :=
  scheme == [] || scheme == "http".toList || scheme == "https".toList

def urlparse (url : List Char) : ParseResult :=
  let s := urlsplit url
  let pp :=
    if usesParams s.scheme && hasChar ';' s.path then splitParams s.path
    else (s.path, [])
  ⟨s.scheme, s.netloc, pp.1, pp.2, s.query, s.fragment⟩

/-- `urllib.parse.urlunparse` (via `urlunsplit`). -/
def urlunparse (r : ParseResult) : List Char :=
  let u0 := if r.params ≠ [] then r.path ++ ';' :: r.params else r.path
  let u1 :=
    if r.netloc ≠ [] ∨ (u0 ≠ [] ∧ startsWithL "//".toList u0) then
      '/' :: '/' :: (r.netloc ++ (if u0 ≠ [] ∧ ¬ startsWithL "/".toList u0 then '/' :: u0 else u0))
    else u0
  let u2 := if r.scheme ≠ [] then r.scheme ++ ':' :: u1 else u1
  let u3 := if r.query ≠ [] then u2 ++ '?' :: r.query else u2
  if r.fragment ≠ [] then u3 ++ '#' :: r.fragment else u3

/-! ### `_canonicalize_url` -/

def TRACKING_QUERY_KEYS : List (List Char) :=
  ["utm_source", "utm_medium", "utm_campaign", "utm_term", "utm_content",
   "fbclid", "gclid", "ref", "source"].map String.toList

def isTrackingKey (k : List Char) : Bool := TRACKING_QUERY_KEYS.contains (toLowerList k)

/-- `re.sub(lit + r"\d+/?$", "", p)` for a literal such as `/post-`. -/
def subSuffixLitDigits (lit : List Char) (p : List Char) : List Char :=
  let r := p.reverse
  let r1 := if startsWithL "/".toList r then r.tail else r
  let s := spanNot (fun c => !c.isDigit) r1
  if s.1 ≠ [] ∧ startsWithL lit.reverse s.2 then (s.2.drop lit.length).reverse else p

/-- `re.sub(lit + r"/?$", "", p)` for a literal such as `/latest`. -/
def subSuffixLit (lit : List Char) (p : List Char) : List Char :=
  let r := p.reverse
  let r1 := if startsWithL "/".toList r then r.tail else r
  if startsWithL lit.reverse r1 then (r1.drop lit.length).reverse else p

def subPostSuffix (p : List Char) : List Char := subSuffixLitDigits "/post-".toList p
def subLatestSuffix (p : List Char) : List Char := subSuffixLit "/latest".toList p
def subPageDashSuffix (p : List Char) : List Char := subSuffixLitDigits "/page-".toList p
def subPageSlashSuffix (p : List Char) : List Char := subSuffixLitDigits "/page/".toList p

def threadsPathCond (p : List Char) : Bool :=
  containsSub "/threads/".toList p || containsSub "/topic/".toList p ||
    containsSub "/topics/".toList p

def isPageKey (k : List Char) : Bool :=
  toLowerList k == "page".toList || toLowerList k == "p".toList

/-- The body of `_canonicalize_url` after the strip/empty check. -/
def canonCore (candidate : List Char) : List Char :=
  let parsed := urlparse candidate
  if ¬ (toLowerList parsed.scheme = "http".toList ∨ toLowerList parsed.scheme = "https".toList)
      ∨ parsed.netloc = [] then []
  else
    let p1 := subPostSuffix parsed.path
    let p2 := subLatestSuffix p1
    let p3 := subPageDashSuffix p2
    let p4 := subPageSlashSuffix p3
    let queryPairs := parse_qsl parsed.query
    let kept1 := queryPairs.filter fun kv => ! isTrackingKey kv.1
    let kept2 :=
      if threadsPathCond p4 then kept1.filter (fun kv => ! isPageKey kv.1) else kept1
    let kept3 :=
      if kept2.any (fun kv => toLowerList kv.1 == "m".toList) then
        kept2.filter (fun kv => ! isPageKey kv.1)
      else kept2
    let p5 := if p4 ≠ [] ∧ p4 ≠ "/".toList then rstripSlash p4 else p4
    urlunparse ⟨toLowerList parsed.scheme, toLowerList parsed.netloc, p5, parsed.params,
                urlencode kept3, []⟩

/-- `_canonicalize_url` on character lists. -/
def canonList (url : List Char) : List Char :=
  let candidate := pyStrip url
  if candidate = [] then [] else canonCore candidate

/-- `_canonicalize_url(url)`. -/
def canonicalize_url (url : String) : String := String.mk (canonList url.toList)

/-! ### Configuration constants (environment-variable defaults of `1_crawl.py`) -/

/-- `MAX_RETRIES = int(os.environ.get("CRAWL_MAX_RETRIES", "3"))` — default. -/
def MAX_RETRIES : Nat := 3

/-- `PROCESSING_STALE_HOURS` — default 2. -/
def PROCESSING_STALE_HOURS : Nat := 2

/-- `MIN_RELEVANCE_SCORE` — default 6. -/
def MIN_RELEVANCE_SCORE : Int := 6

/-! ### Frontier store data model

One row of the `urls` table.  Timestamps are modelled as integer seconds
(SQLite stores `YYYY-MM-DD HH:MM:SS` strings whose lexicographic order is
chronological); `processed_at` is nullable, `discovered_at` has a
`DEFAULT CURRENT_TIMESTAMP` and is modelled non-null.  `status` is one of
the four schema values. -/

inductive Status where
  | pending
  | processing
  | completed
  | failed
deriving DecidableEq, Repr

structure UrlRow where
  url : String
  source_name : String
  status : Status
  discovered_at : Int
  processed_at : Option Int
  retry_count : Nat
  priority : Int
deriving DecidableEq, Repr

/-- The stale-recovery cutoff used by `get_pending_chunk`'s SQL:
`datetime(processed_at) < datetime('now', '-2 hour')`. -/
def staleCutoff (now : Int) : Int := now - (PROCESSING_STALE_HOURS : Int) * 3600

/-- The `WHERE` clause of `get_pending_chunk`'s `SELECT`:
`(status = 'PENDING' OR (status = 'PROCESSING' AND datetime(processed_at) <
datetime('now','-2 hour'))) AND retry_count < MAX_RETRIES`.
A `NULL` `processed_at` compares as unknown, hence is not selected. -/
def isClaimable (now : Int) (r : UrlRow) : Bool :=
  (r.status = Status.pending ||
    (r.status = Status.processing &&
      match r.processed_at with
      | some t => t < staleCutoff now
      | none => false)) &&
  r.retry_count < MAX_RETRIES

/-- `ORDER BY priority DESC, discovered_at ASC` as a total relation on rows. -/
def claimOrder (a b : UrlRow) : Prop :=
  b.priority < a.priority ∨ (a.priority = b.priority ∧ a.discovered_at ≤ b.discovered_at)

instance : DecidableRel claimOrder := fun a b => by unfold claimOrder; infer_instance

instance : IsTotal UrlRow claimOrder where
  total a b := by
    unfold claimOrder
    rcases lt_trichotomy a.priority b.priority with h | h | h
    · exact Or.inr (Or.inl h)
    · rcases le_total a.discovered_at b.discovered_at with h2 | h2
      · exact Or.inl (Or.inr ⟨h, h2⟩)
      · exact Or.inr (Or.inr ⟨h.symm, h2⟩)
    · exact Or.inl (Or.inl h)

instance : IsTrans UrlRow claimOrder where
  trans a b c hab hbc := by
    unfold claimOrder at *
    rcases hab with h1 | ⟨h1, h1d⟩ <;> rcases hbc with h2 | ⟨h2, h2d⟩
    · exact Or.inl (lt_trans h2 h1)
    · exact Or.inl (h2 ▸ h1)
    · exact Or.inl (h1 ▸ h2)
    · exact Or.inr ⟨h1.trans h2, le_trans h1d h2d⟩

/-- The rows selected by `get_pending_chunk`'s `SELECT ... ORDER BY ... LIMIT`. -/
def claimSelect (now : Int) (chunkSize : Nat) (db : List UrlRow) : List UrlRow :=
  ((db.filter (isClaimable now)).insertionSort claimOrder).take chunkSize

/-- `get_pending_chunk(chunk_size)`: one atomic transaction (`BEGIN IMMEDIATE`)
that selects up to `chunk_size` claimable rows ordered by
`priority DESC, discovered_at ASC` and marks them
`PROCESSING` with `processed_at = CURRENT_TIMESTAMP`.  Returns the claimed
URLs and the updated table. -/
def get_pending_chunk (now : Int) (chunkSize : Nat) (db : List UrlRow) :
    List String × List UrlRow :=
  let urls := (claimSelect now chunkSize db).map (·.url)
  (urls,
   db.map fun r =>
     if urls.contains r.url then
       { r with status := Status.processing, processed_at := some now }
     else r)

/-- `mark_status(url, status, increment_retry)`: sets `status`, refreshes
`processed_at`, bumps `retry_count` when asked. -/
def mark_status (now : Int) (url : String) (st : Status) (incrementRetry : Bool)
    (db : List UrlRow) : List UrlRow :=
  db.map fun r =>
    if r.url = url then
      { r with
        status := st
        processed_at := some now
        retry_count := if incrementRetry then r.retry_count + 1 else r.retry_count }
    else r

/-- `handle_failure(url)`: reads the row's `retry_count` (0 when the row is
absent); if `retry_count + 1 >= MAX_RETRIES` marks FAILED, else requeues as
PENDING, either way incrementing the retry count. -/
def handle_failure (now : Int) (url : String) (db : List UrlRow) : List UrlRow :=
  let currentRetries := ((db.find? (fun r => r.url = url)).map (·.retry_count)).getD 0
  if MAX_RETRIES ≤ currentRetries + 1 then
    mark_status now url Status.failed true db
  else
    mark_status now url Status.pending true db

/-- One item passed to `add_urls_to_db`: either a bare URL (priority defaults
to `MIN_RELEVANCE_SCORE`) or a `(url, priority)` tuple. -/
def itemPriority (p : Option Int) : Int := p.getD MIN_RELEVANCE_SCORE

/-- One loop iteration of `add_urls_to_db`: state is
`(table, added_count, updated_priority_count)`. -/
def addUrlStep (source_name : String) (now : Int)
    (acc : List UrlRow × Nat × Nat) (item : String × Option Int) :
    List UrlRow × Nat × Nat :=
  let (db, added, updated) := acc
  let url := item.1
  let priority := itemPriority item.2
  if ¬ startsWithL "http".toList url.toList then acc
  else
    match db.find? (fun r => r.url = url) with
    | none =>
      (db ++ [{ url := url, source_name := source_name, status := Status.pending,
                discovered_at := now, processed_at := none,
                retry_count := 0, priority := priority }],
       added + 1, updated)
    | some existing =>
      let shouldUpdatePriority := priority > existing.priority
      let shouldRequeueFailed :=
        existing.status = Status.failed ∧ existing.retry_count < MAX_RETRIES
      if shouldUpdatePriority ∨ shouldRequeueFailed then
        let nextStatus := if shouldRequeueFailed then Status.pending else existing.status
        let nextPriority := if shouldUpdatePriority then priority else existing.priority
        (db.map fun r =>
           if r.url = url then
             { r with source_name := source_name, status := nextStatus,
                      priority := nextPriority }
           else r,
         added, if shouldUpdatePriority then updated + 1 else updated)
      else acc

/-- `add_urls_to_db(urls, source_name)`: inserts new URLs as PENDING (with
`discovered_at` defaulting to now and `processed_at` NULL), requeues FAILED
rows with retries left, raises priority monotonically.  Returns the table
plus `(added_count, updated_priority_count)`. -/
def add_urls_to_db (items : List (String × Option Int)) (source_name : String)
    (now : Int) (db : List UrlRow) : List UrlRow × Nat × Nat :=
  items.foldl (addUrlStep source_name now) (db, 0, 0)

/-! ### `normalize_existing_urls` and `quarantine_suspect_outputs` -/

/-- `_status_priority` (the four schema statuses; the dictionary's default 0
for unknown strings is unreachable in the model). -/
def _status_priority : Status → Nat
  | Status.pending => 4
  | Status.processing => 3
  | Status.failed => 2
  | Status.completed => 1

/-- `_canonicalize_url(url) or url` — the merge key used by
`normalize_existing_urls`. -/
def canonKey (u : String) : String :=
  let c := canonicalize_url u
  if c = "" then u else c

/-- The merge step of `normalize_existing_urls` (lines updating `existing`
from `candidate`).  `discovered_at` is non-null in the model (schema
default), so its truthiness test reduces to the `<` comparison. -/
def mergeRow (existing candidate : UrlRow) : UrlRow :=
  { url := existing.url
    status :=
      if _status_priority existing.status < _status_priority candidate.status then
        candidate.status
      else existing.status
    source_name :=
      if candidate.source_name ≠ "" ∧ existing.source_name = "" then candidate.source_name
      else existing.source_name
    retry_count := max existing.retry_count candidate.retry_count
    priority := max existing.priority candidate.priority
    discovered_at :=
      if candidate.discovered_at < existing.discovered_at then candidate.discovered_at
      else existing.discovered_at
    processed_at :=
      match candidate.processed_at, existing.processed_at with
      | some c, none => some c
      | some c, some e => if e < c then some c else some e
      | none, e => e }

/-- `aggregated[canonical]` insertion/update: a Python dict keyed by the
canonical URL, preserving first-insertion order (the association list always
has one entry per key; an existing entry is merged in place). -/
def insertMerge : List UrlRow → UrlRow → List UrlRow
  | [], cand => [cand]
  | r :: rest, cand =>
    if r.url = cand.url then mergeRow r cand :: rest
    else r :: insertMerge rest cand

/-- The candidate record built for one row (re-keyed by canonical URL). -/
def candidateOf (r : UrlRow) : UrlRow := { r with url := canonKey r.url }

def aggregateRows (rows : List UrlRow) : List UrlRow :=
  rows.foldl (fun acc r => insertMerge acc (candidateOf r)) []

/-- `normalize_existing_urls`: re-canonicalizes every stored URL and merges
colliding rows; when nothing is non-canonical and nothing collides the
table is left untouched. -/
def normalize_existing_urls (db : List UrlRow) : List UrlRow :=
  let hadNonCanonical := db.any fun r => canonKey r.url != r.url
  let aggregated := aggregateRows db
  let hadDuplicates := aggregated.length < db.length
  if ¬ hadNonCanonical ∧ ¬ hadDuplicates then db else aggregated

/-- Table effect of `quarantine_suspect_outputs`: every row whose URL is the
extracted `SOURCE_URL` of a quarantined (suspect, successfully moved) file
is forced to FAILED with `retry_count = MAX_RETRIES` and a fresh
`processed_at`.  The `DATA_DIR` scan, suspicion check and file move are
abstracted into the input list `suspectUrls`. -/
def quarantine_suspect_outputs (now : Int) (suspectUrls : List String)
    (db : List UrlRow) : List UrlRow :=
  db.map fun r =>
    if suspectUrls.contains r.url then
      { r with status := Status.failed, retry_count := MAX_RETRIES, processed_at := some now }
    else r

/-! ### Relevance scorer: `_score_url` and `_rank_candidate_urls` -/

def HIGH_SIGNAL_URL_TOKENS : List String :=
  ["patient", "patients", "story", "stories", "journey", "experience",
   "experiences", "diagnosis", "symptom", "symptoms", "treatment",
   "treatments", "long-covid", "me-cfs", "chronic-pain", "fibromyalgia",
   "dysautonomia"]

def LOW_SIGNAL_URL_TOKENS : List String :=
  ["login", "logout", "register", "signup", "sign-up", "privacy", "terms",
   "cookies", "contact", "about-us", "members", "member", "profile",
   "search", "tag/", "/tags", "/feed", "/rss", "wp-json", "wp-admin",
   "calendar", "whats-new", "dismiss-notice", "lost-password",
   "announcement", "news-in-brief", "/account/", "/help/", "/members/",
   "profile.aspx", "login.aspx", "register.aspx", "post.aspx?f="]

def BINARY_FILE_EXTENSIONS : List String :=
  [".jpg", ".jpeg", ".png", ".gif", ".webp", ".svg", ".pdf",
   ".zip", ".rar", ".7z", ".mp4", ".mp3", ".avi", ".mov",
   ".doc", ".docx", ".ppt", ".pptx", ".xls", ".xlsx"]

/-- A source dictionary, restricted to the fields the scorer, ranker and
coverage arbiter read (absent dictionary keys are `none` / `[]`). -/
structure SourceDef where
  name : String := ""
  url : String := ""
  condition_tags : List String := []
  min_score : Option Int := none
  require_story_like_urls : Option Bool := none
  allow_tokens : List String := []
  deny_tokens : List String := []
  hard_deny_tokens : List String := []
  required_tokens : List String := []
  prefer_tokens : List String := []
deriving DecidableEq, Repr

def endsWithL (suf l : List Char) : Bool := startsWithL suf.reverse l.reverse

/-- `_source_host`: `urlparse(url).netloc.lower()`. -/
def _source_host (url : List Char) : List Char := toLowerList (urlparse url).netloc

/-- `_is_story_like_url`. -/
def _is_story_like_url (url : List Char) (source : SourceDef) : Bool :=
  let url_lower := toLowerList url
  ["/threads/", "/thread/", "/topic/", "/topics/", "/story/", "/stories/",
   "/journey/", "/interview/", "m="].any
      (fun t => containsSub t.toList url_lower)
    || source.prefer_tokens.any fun t => containsSub (toLowerList t.toList) url_lower

/-- `_is_forum_listing_url`. -/
def _is_forum_listing_url (url : List Char) : Bool :=
  let path := toLowerList (urlparse url).path
  ["/forums/", "/forum/", "/categories/"].any fun t => containsSub t.toList path

/-- `_source_min_score`. -/
def _source_min_score (source : SourceDef) : Int :=
  match source.min_score with
  | some v => if 0 < v then v else MIN_RELEVANCE_SCORE
  | none => MIN_RELEVANCE_SCORE

/-- `_source_requires_story_like_urls`. -/
def _source_requires_story_like_urls (source : SourceDef) : Bool :=
  match source.require_story_like_urls with
  | some b => b
  | none => _is_forum_listing_url source.url.toList

/-- `_has_binary_extension`. -/
def _has_binary_extension (url : List Char) : Bool :=
  let path := toLowerList (urlparse url).path
  BINARY_FILE_EXTENSIONS.any fun e => endsWithL e.toList path

/-- `_score_url(url, source)`, translated clause by clause. -/
def _score_url (url : List Char) (source : SourceDef) : Int :=
  let parsed := urlparse url
  let path := toLowerList parsed.path
  let query_lower := toLowerList parsed.query
  let url_lower := toLowerList url
  if source.hard_deny_tokens.any (fun t => containsSub (toLowerList t.toList) url_lower) then
    -100
  else
    let score : Int := if toLowerList parsed.netloc = _source_host source.url.toList then 4 else 0
    if _has_binary_extension url then -100
    else
      let isStory := _is_story_like_url url source
      let score := if isStory then score + 20 else score
      let score :=
        if containsSub "/threads/".toList path || containsSub "/topic/".toList path then
          score + 12
        else score
      let score := if containsSub "m=".toList query_lower then score + 14 else score
      let score :=
        if containsSub "f=".toList query_lower && ! containsSub "m=".toList query_lower then
          score - 8
        else score
      let score :=
        if containsSub "/forums/".toList path || containsSub "/forum/".toList path then
          if isStory then score + 4 else score + 4 - 12
        else score
      let score :=
        if (containsSub "/page/".toList path || containsSub "page-".toList path ||
              containsSub "page=".toList query_lower || containsSub "&p=".toList query_lower)
            && ! isStory then
          score - 10
        else score
      let highHits : Int :=
        ((HIGH_SIGNAL_URL_TOKENS.filter fun t => containsSub t.toList url_lower).length : Int)
      let score := score + min 24 (3 * highHits)
      let lowHits : Int :=
        ((LOW_SIGNAL_URL_TOKENS.filter fun t => containsSub t.toList url_lower).length : Int)
      let score := score - min 40 (8 * lowHits)
      let score :=
        if url = canonList source.url.toList ∧ ¬ isStory = true then score - 2 else score
      let score :=
        score + 4 * ((source.allow_tokens.filter fun t =>
          containsSub (toLowerList t.toList) url_lower).length : Int)
      let score :=
        score - 10 * ((source.deny_tokens.filter fun t =>
          containsSub (toLowerList t.toList) url_lower).length : Int)
      let score :=
        if ["sort", "advancedsearchform", "view", "filter"].any
            (fun m => containsSub m.toList query_lower) then
          score - 8
        else score
      let score :=
        if parsed.query ≠ [] ∧ hasChar '?' url = true ∧
            ¬ (["id=", "page=", "p=", "m="].any fun k => containsSub k.toList query_lower) = true then
          score - 4
        else score
      score

/-- The `(ordering on `-score`, url)` used to sort ranked candidates. -/
def rankRel (a b : String × Int) : Prop :=
  b.2 < a.2 ∨ (a.2 = b.2 ∧ a.1 ≤ b.1)

instance : DecidableRel rankRel := fun a b => by unfold rankRel; infer_instance

instance : IsTotal (String × Int) rankRel where
  total a b := by
    unfold rankRel
    rcases lt_trichotomy a.2 b.2 with h | h | h
    · exact Or.inr (Or.inl h)
    · rcases le_total a.1 b.1 with h2 | h2
      · exact Or.inl (Or.inr ⟨h, h2⟩)
      · exact Or.inr (Or.inr ⟨h.symm, h2⟩)
    · exact Or.inl (Or.inl h)

instance : IsTrans (String × Int) rankRel where
  trans a b c hab hbc := by
    unfold rankRel at *
    rcases hab with h1 | ⟨h1, h1d⟩ <;> rcases hbc with h2 | ⟨h2, h2d⟩
    · exact Or.inl (lt_trans h2 h1)
    · exact Or.inl (h2 ▸ h1)
    · exact Or.inl (h1 ▸ h2)
    · exact Or.inr ⟨h1.trans h2, le_trans h1d h2d⟩

/-- One loop iteration of `_rank_candidate_urls` over `raw_urls`, updating
the `ranked` association list (max score per canonical URL). -/
def rankStep (seed_host : List Char) (required : List String) (require_story : Bool)
    (source : SourceDef) (acc : List (String × Int)) (raw : String) : List (String × Int) :=
  let normalized := canonicalize_url raw
  if normalized = "" then acc
  else if _source_host normalized.toList ≠ seed_host then acc
  else if required ≠ [] ∧
      ¬ required.any (fun t => containsSub t.toList (toLowerList normalized.toList)) = true then
    acc
  else if require_story ∧ ¬ _is_story_like_url normalized.toList source = true then acc
  else
    let score := _score_url normalized.toList source
    match acc.find? (fun p => p.1 = normalized) with
    | none => acc ++ [(normalized, score)]
    | some cur =>
      if cur.2 < score then
        acc.map fun p => if p.1 = normalized then (normalized, score) else p
      else acc

/-- `_rank_candidate_urls(raw_urls, source)`. -/
def _rank_candidate_urls (raw_urls : List String) (source : SourceDef) :
    List (String × Int) :=
  let seed_host := _source_host source.url.toList
  let required :=
    ((source.required_tokens.filter fun t => pyStrip t.toList ≠ []).map fun t =>
      String.mk (toLowerList (pyStrip t.toList)))
  let min_score := _source_min_score source
  let require_story := _source_requires_story_like_urls source
  let ranked := raw_urls.foldl (rankStep seed_host required require_story source) []
  (ranked.filter fun p => min_score ≤ p.2).insertionSort rankRel

/-! ### Coverage arbiter: `_source_deficit_score` and
`_filter_sources_by_condition_quotas`.

`get_condition_coverage()` joins the frontier table with the extraction
service's output files; here a coverage state is abstracted as the finite
map `condition_id -> pages_deficit` that the filter reads
(`coverage.get(tag, {}).get("pages_deficit", 0)`). -/

/-- `_source_condition_tags`. -/
def _source_condition_tags (source : SourceDef) : List String :=
  dedupFirst ((source.condition_tags.filter fun t => pyStrip t.toList ≠ []).map fun t =>
    String.mk (toLowerList (pyStrip t.toList)))

def covDeficit (cov : List (String × Nat)) (tag : String) : Nat :=
  match cov.find? (fun p => p.1 = tag) with
  | some p => p.2
  | none => 0

/-- `_source_deficit_score`. -/
def _source_deficit_score (cov : List (String × Nat)) (source : SourceDef) : Nat :=
  let tags := _source_condition_tags source
  if tags = [] then 0 else (tags.map (covDeficit cov)).foldl max 0

/-- The sort key `(-deficit score, name)` of the selected sources. -/
def selRel (cov : List (String × Nat)) (a b : SourceDef) : Prop :=
  _source_deficit_score cov b < _source_deficit_score cov a ∨
    (_source_deficit_score cov a = _source_deficit_score cov b ∧ a.name ≤ b.name)

instance (cov : List (String × Nat)) : DecidableRel (selRel cov) := fun a b => by
  unfold selRel; infer_instance

instance (cov : List (String × Nat)) : IsTotal SourceDef (selRel cov) where
  total a b := by
    unfold selRel
    rcases lt_trichotomy (_source_deficit_score cov a) (_source_deficit_score cov b) with h | h | h
    · exact Or.inr (Or.inl h)
    · rcases le_total a.name b.name with h2 | h2
      · exact Or.inl (Or.inr ⟨h, h2⟩)
      · exact Or.inr (Or.inr ⟨h.symm, h2⟩)
    · exact Or.inl (Or.inl h)

instance (cov : List (String × Nat)) : IsTrans SourceDef (selRel cov) where
  trans a b c hab hbc := by
    unfold selRel at *
    rcases hab with h1 | ⟨h1, h1d⟩ <;> rcases hbc with h2 | ⟨h2, h2d⟩
    · exact Or.inl (lt_trans h2 h1)
    · exact Or.inl (h2 ▸ h1)
    · exact Or.inl (h1 ▸ h2)
    · exact Or.inr ⟨h1.trans h2, le_trans h1d h2d⟩

/-- One loop iteration of `_filter_sources_by_condition_quotas`. -/
def selectStep (cov : List (String × Nat)) (acc : List SourceDef × List SourceDef)
    (s : SourceDef) : List SourceDef × List SourceDef :=
  let tags := _source_condition_tags s
  if tags = [] then (acc.1 ++ [s], acc.2)
  else if tags.any (fun t => 0 < covDeficit cov t) then (acc.1 ++ [s], acc.2)
  else (acc.1, acc.2 ++ [s])

/-- `_filter_sources_by_condition_quotas(sources)` with the coverage map as
an explicit argument; returns `(selected sorted by (-deficit, name), skipped)`. -/
def _filter_sources_by_condition_quotas (cov : List (String × Nat))
    (sources : List SourceDef) : List SourceDef × List SourceDef :=
  let pair := sources.foldl (selectStep cov) ([], [])
  (pair.1.insertionSort (selRel cov), pair.2)

/-! ### Directory-page detector: `_looks_like_directory_page` -/

def DIRECTORY_CONTENT_MARKERS : List String :=
  ["topics in this forum", "sort by", "new posts", "search forums",
   "install the app", "first page", "last page", "page 1 of"]

/-- Python `str.splitlines()` worker (newline conventions `\n`, `\r\n`, `\r`;
no trailing empty line). -/
def splitLinesAux : List Char → List Char → List (List Char)
  | cur, [] => [cur.reverse]
  | cur, '\r' :: '\n' :: rest =>
    cur.reverse :: (if rest = [] then [] else splitLinesAux [] rest)
  | cur, '\n' :: rest =>
    cur.reverse :: (if rest = [] then [] else splitLinesAux [] rest)
  | cur, '\r' :: rest =>
    cur.reverse :: (if rest = [] then [] else splitLinesAux [] rest)
  | cur, c :: rest => splitLinesAux (c :: cur) rest

/-- Python `str.splitlines()` (`"".splitlines() == []`). -/
def splitLines (l : List Char) : List (List Char) :=
  if l = [] then [] else splitLinesAux [] l

/-- A stripped line counted as "linkish" by the detector. -/
def isLinkishLine (line : List Char) : Bool :=
  startsWithL "- [".toList line || startsWithL "[".toList line || startsWithL "|".toList line

/-- A stripped line counted as "narrative" (only tested when not linkish):
longer than 100 characters and without `https?://`. -/
def isNarrativeLine (line : List Char) : Bool :=
  decide (100 < line.length) &&
    ! (containsSub "http://".toList line || containsSub "https://".toList line)

/-- The non-blank stripped lines of the document. -/
def docLines (content : List Char) : List (List Char) :=
  ((splitLines content).map pyStrip).filter fun l => l ≠ []

/-- The count of linkish lines of the detector's loop. -/
def linkishCount (content : List Char) : Nat :=
  ((docLines content).filter isLinkishLine).length

/-- The count of narrative lines of the detector's loop (the loop `continue`s
on linkish lines before testing the narrative shape). -/
def narrativeCount (content : List Char) : Nat :=
  ((docLines content).filter fun l => ! isLinkishLine l && isNarrativeLine l).length

/-- The `listing_context` condition: URL markers, the HealingWell
`default.aspx?f=…` (without `m=`) listing form, or directory phrases in the
content. -/
def listingContext (content : List Char) (url : List Char) : Bool :=
  let parsed := urlparse url
  let query_lower := toLowerList parsed.query
  let healingwellListing :=
    containsSub "default.aspx".toList (toLowerList parsed.path) &&
      containsSub "f=".toList query_lower && ! containsSub "m=".toList query_lower
  ["/forums/", "/forum/", "/categories/", "/page/", "page-"].any
      (fun t => containsSub t.toList (toLowerList url))
    || healingwellListing
    || DIRECTORY_CONTENT_MARKERS.any fun t => containsSub t.toList (toLowerList content)

/-- `_looks_like_directory_page(markdown_content, url)`.  The float literal
`0.58` is modelled as the exact rational 58/100
(`ratio > 0.58 ↔ 100 * linkish > 58 * lines`). -/
def _looks_like_directory_page (content : List Char) (url : List Char) : Bool :=
  if (docLines content).length < 35 then false
  else
    listingContext content url &&
      decide (58 * (docLines content).length < 100 * linkishCount content) &&
      decide (narrativeCount content < 6)

/-! ## Shared lemmas about the store model -/

theorem find_by_url {db : List UrlRow} {url : String} {row : UrlRow}
    (hmem : row ∈ db) (hurl : row.url = url)
    (hnodup : (db.map (fun r => r.url)).Nodup) :
    db.find? (fun r => r.url = url) = some row := by
  induction db with
  | nil => cases hmem
  | cons a rest ih =>
    simp only [List.map_cons, List.nodup_cons] at hnodup
    rcases List.mem_cons.mp hmem with rfl | hm
    · exact List.find?_cons_of_pos _ (by simp [hurl])
    · have hane : ¬ a.url = url := by
        intro h
        exact hnodup.1 (List.mem_map.mpr ⟨row, hm, hurl.trans h.symm⟩)
      rw [List.find?_cons_of_neg _ (by simp [hane])]
      exact ih hm hnodup.2

theorem row_unique_by_url {db : List UrlRow} {r1 r2 : UrlRow}
    (h1 : r1 ∈ db) (h2 : r2 ∈ db) (hu : r1.url = r2.url)
    (hnodup : (db.map (fun r => r.url)).Nodup) : r1 = r2 := by
  induction db with
  | nil => cases h1
  | cons a rest ih =>
    simp only [List.map_cons, List.nodup_cons] at hnodup
    rcases List.mem_cons.mp h1 with rfl | hm1 <;> rcases List.mem_cons.mp h2 with rfl | hm2
    · rfl
    · exact absurd (hu ▸ List.mem_map.mpr ⟨r2, hm2, rfl⟩) hnodup.1
    · exact absurd (hu ▸ List.mem_map.mpr ⟨r1, hm1, rfl⟩) hnodup.1
    · exact ih hm1 hm2 hnodup.2

/-- Effect of `mark_status` on the row with the given URL. -/
theorem mark_status_at {db : List UrlRow} {url : String} {now : Int} {st : Status}
    {inc : Bool} {r' : UrlRow} (h : r' ∈ mark_status now url st inc db)
    (hu : r'.url = url) {row : UrlRow} (hmem : row ∈ db) (hrow : row.url = url)
    (hnodup : (db.map (fun r => r.url)).Nodup) :
    r'.status = st ∧ r'.processed_at = some now ∧
      r'.retry_count = (if inc then row.retry_count + 1 else row.retry_count) := by
  unfold mark_status at h
  rcases List.mem_map.mp h with ⟨r, hrmem, hr⟩
  by_cases hcase : r.url = url
  · have : r = row := row_unique_by_url hrmem hmem (hcase.trans hrow.symm) hnodup
    subst this
    simp only [if_pos hcase] at hr
    subst hr
    exact ⟨rfl, rfl, rfl⟩
  · simp only [if_neg hcase] at hr
    subst hr
    exact absurd hu hcase

/-! ## C4 — `handle_failure` retry transitions -/

/-- C4: for a stored row, `handle_failure` with `retry_count = MAX_RETRIES - 1`
sets status FAILED and `retry_count = MAX_RETRIES`; with
`retry_count < MAX_RETRIES - 1` it sets status PENDING and increments
`retry_count` by exactly one. -/
theorem c4_handle_failure_transitions (db : List UrlRow) (url : String) (now : Int)
    (row : UrlRow) (hmem : row ∈ db) (hurl : row.url = url)
    (hnodup : (db.map (fun r => r.url)).Nodup) :
    (row.retry_count = MAX_RETRIES - 1 →
      ∀ r' ∈ handle_failure now url db, r'.url = url →
        r'.status = Status.failed ∧ r'.retry_count = MAX_RETRIES) ∧
    (row.retry_count < MAX_RETRIES - 1 →
      ∀ r' ∈ handle_failure now url db, r'.url = url →
        r'.status = Status.pending ∧ r'.retry_count = row.retry_count + 1) := by
  have hfind : db.find? (fun r => r.url = url) = some row := find_by_url hmem hurl hnodup
  constructor
  · intro hretry r' hr' hu'
    unfold handle_failure at hr'
    rw [hfind] at hr'
    simp only [Option.map_some', Option.getD_some] at hr'
    rw [if_pos (by omega)] at hr'
    have := mark_status_at hr' hu' hmem hurl hnodup
    refine ⟨this.1, ?_⟩
    rw [this.2.2]
    simp only [if_pos rfl, hretry]
    rfl
  · intro hretry r' hr' hu'
    unfold handle_failure at hr'
    rw [hfind] at hr'
    simp only [Option.map_some', Option.getD_some] at hr'
    rw [if_neg (by omega)] at hr'
    have := mark_status_at hr' hu' hmem hurl hnodup
    exact ⟨this.1, by rw [this.2.2]; simp⟩

/-- A per-URL table update hits exactly the stored row with that URL. -/
theorem mem_map_urlite {g : UrlRow → UrlRow} {db : List UrlRow} {url : String}
    {r' : UrlRow} (h : r' ∈ db.map (fun r => if r.url = url then g r else r))
    (hu : r'.url = url) {row : UrlRow} (hmem : row ∈ db) (hrow : row.url = url)
    (hnodup : (db.map (fun r => r.url)).Nodup) : r' = g row := by
  rcases List.mem_map.mp h with ⟨r, hrmem, hr⟩
  by_cases hcase : r.url = url
  · have : r = row := row_unique_by_url hrmem hmem (hcase.trans hrow.symm) hnodup
    subst this
    rw [if_pos hcase] at hr
    exact hr.symm
  · rw [if_neg hcase] at hr
    subst hr
    exact absurd hu hcase

/-! ## C5 — `add_urls_to_db` upsert semantics -/

/-- C5: upserting one URL: priority is only raised (strictly higher wins and
counts one priority-update; lower-or-equal is a no-op counting zero), a new
URL is inserted as PENDING and counted as added, and an existing FAILED row
with retries left is reset to PENDING. -/
theorem c5_add_urls_upsert (db : List UrlRow) (url src : String) (p : Int) (now : Int)
    (hhttp : startsWithL "http".toList url.toList = true)
    (hnodup : (db.map (fun r => r.url)).Nodup) :
    (∀ row ∈ db, row.url = url → p ≤ row.priority →
      (add_urls_to_db [(url, some p)] src now db).2.2 = 0 ∧
      ∀ r' ∈ (add_urls_to_db [(url, some p)] src now db).1, r'.url = url →
        r'.priority = row.priority) ∧
    (∀ row ∈ db, row.url = url → row.priority < p →
      (add_urls_to_db [(url, some p)] src now db).2.2 = 1 ∧
      ∀ r' ∈ (add_urls_to_db [(url, some p)] src now db).1, r'.url = url →
        r'.priority = p) ∧
    (url ∉ db.map (fun r => r.url) →
      (add_urls_to_db [(url, some p)] src now db).2.1 = 1 ∧
      ∃ r' ∈ (add_urls_to_db [(url, some p)] src now db).1, r'.url = url ∧
        r'.status = Status.pending ∧ r'.priority = p) ∧
    (∀ row ∈ db, row.url = url → row.status = Status.failed →
      row.retry_count < MAX_RETRIES →
      ∀ r' ∈ (add_urls_to_db [(url, some p)] src now db).1, r'.url = url →
        r'.status = Status.pending) := by
  have hres : add_urls_to_db [(url, some p)] src now db
      = addUrlStep src now (db, 0, 0) (url, some p) := by
    simp [add_urls_to_db]
  refine ⟨?_, ?_, ?_, ?_⟩
  · -- (a) lower-or-equal priority
    intro row hmem hrow hle
    have hfind : db.find? (fun r => r.url = url) = some row := find_by_url hmem hrow hnodup
    rw [hres]
    unfold addUrlStep
    simp only [itemPriority, Option.getD_some, hhttp, if_pos rfl, hfind]
    have hnoupd : ¬ p > row.priority := by omega
    by_cases hreq : row.status = Status.failed ∧ row.retry_count < MAX_RETRIES
    · rw [if_pos (Or.inr hreq)]
      refine ⟨by simp [hnoupd], ?_⟩
      intro r' hr' hu'
      have := mem_map_urlite hr' hu' hmem hrow hnodup
      subst this
      simp [hnoupd]
    · have hcond : ¬ (p > row.priority ∨
          (row.status = Status.failed ∧ row.retry_count < MAX_RETRIES)) := by
        intro h
        rcases h with h | h
        · exact hnoupd h
        · exact hreq h
      rw [if_neg hcond]
      refine ⟨rfl, ?_⟩
      intro r' hr' hu'
      have : r' = row := row_unique_by_url hr' hmem (hu'.trans hrow.symm) hnodup
      rw [this]
  · -- (b) strictly higher priority
    intro row hmem hrow hlt
    have hfind : db.find? (fun r => r.url = url) = some row := find_by_url hmem hrow hnodup
    rw [hres]
    unfold addUrlStep
    simp only [itemPriority, Option.getD_some, hhttp, if_pos rfl, hfind]
    have hupd : p > row.priority := hlt
    rw [if_pos (Or.inl hupd)]
    refine ⟨by simp [hupd], ?_⟩
    intro r' hr' hu'
    have := mem_map_urlite hr' hu' hmem hrow hnodup
    subst this
    simp [hupd]
  · -- (c) new URL
    intro hnew
    have hfind : db.find? (fun r => r.url = url) = none := by
      rw [List.find?_eq_none]
      intro r hr
      simp only [decide_eq_true_eq]
      intro h
      exact hnew (List.mem_map.mpr ⟨r, hr, h⟩)
    rw [hres]
    unfold addUrlStep
    simp only [itemPriority, Option.getD_some, hhttp, if_pos rfl, hfind]
    refine ⟨rfl, ?_⟩
    refine ⟨_, List.mem_append_right _ (List.mem_singleton_self _), rfl, rfl, rfl⟩
  · -- (d) FAILED row with retries left is reset to PENDING
    intro row hmem hrow hfail hretry r' hr' hu'
    have hfind : db.find? (fun r => r.url = url) = some row := find_by_url hmem hrow hnodup
    rw [hres] at hr'
    unfold addUrlStep at hr'
    simp only [itemPriority, Option.getD_some, hhttp, if_pos rfl, hfind] at hr'
    have hreq : row.status = Status.failed ∧ row.retry_count < MAX_RETRIES := ⟨hfail, hretry⟩
    by_cases hupd : p > row.priority
    · rw [if_pos (Or.inl hupd)] at hr'
      have := mem_map_urlite hr' hu' hmem hrow hnodup
      subst this
      simp [hreq]
    · rw [if_pos (Or.inr hreq)] at hr'
      have := mem_map_urlite hr' hu' hmem hrow hnodup
      subst this
      simp [hreq]

/-! ## C2 — `get_pending_chunk` selection contract -/

/-- C2: `get_pending_chunk` returns at most `n` URLs, each from a row that is
PENDING or stale-PROCESSING with retries left; the selected rows are ordered
by priority descending then `discovered_at` ascending; every returned row is
left PROCESSING with a fresh `processed_at`. -/
theorem c2_claim_contract (now : Int) (n : Nat) (db : List UrlRow) :
    (get_pending_chunk now n db).1.length ≤ n ∧
    (∀ u ∈ (get_pending_chunk now n db).1, ∃ r ∈ db, r.url = u ∧
      (r.status = Status.pending ∨ (r.status = Status.processing ∧
        ∃ t, r.processed_at = some t ∧ t < staleCutoff now)) ∧
      r.retry_count < MAX_RETRIES) ∧
    List.Sorted claimOrder (claimSelect now n db) ∧
    (get_pending_chunk now n db).1 = (claimSelect now n db).map (fun r => r.url) ∧
    (∀ r' ∈ (get_pending_chunk now n db).2, r'.url ∈ (get_pending_chunk now n db).1 →
      r'.status = Status.processing ∧ r'.processed_at = some now) := by
  have hmem_sel : ∀ r ∈ claimSelect now n db, r ∈ db ∧ isClaimable now r = true := by
    intro r hr
    have h1 : r ∈ (db.filter (isClaimable now)).insertionSort claimOrder :=
      List.mem_of_mem_take hr
    have h2 : r ∈ db.filter (isClaimable now) :=
      (List.perm_insertionSort claimOrder _).mem_iff.mp h1
    exact ⟨List.mem_of_mem_filter h2, List.of_mem_filter h2⟩
  refine ⟨?_, ?_, ?_, rfl, ?_⟩
  · calc (get_pending_chunk now n db).1.length
        = (claimSelect now n db).length := List.length_map _ _
      _ ≤ n := by
          unfold claimSelect
          exact List.length_take_le _ _
  · intro u hu
    rcases List.mem_map.mp hu with ⟨r, hr, rfl⟩
    rcases hmem_sel r hr with ⟨hdb, hcl⟩
    refine ⟨r, hdb, rfl, ?_⟩
    unfold isClaimable at hcl
    simp only [Bool.and_eq_true, Bool.or_eq_true, decide_eq_true_eq] at hcl
    rcases hcl with ⟨hst, hretry⟩
    refine ⟨?_, hretry⟩
    rcases hst with h | h
    · exact Or.inl h
    · rcases h with ⟨hp, hstale⟩
      refine Or.inr ⟨hp, ?_⟩
      rcases ht : r.processed_at with _ | t
      · rw [ht] at hstale; simp at hstale
      · rw [ht] at hstale
        simp only [decide_eq_true_eq] at hstale
        exact ⟨t, rfl, hstale⟩
  · exact List.Pairwise.sublist (List.take_sublist _ _)
      (List.sorted_insertionSort claimOrder _)
  · intro r' hr' hu'
    unfold get_pending_chunk at hr' hu'
    rcases List.mem_map.mp hr' with ⟨r, _, hfr⟩
    by_cases hc :
        ((claimSelect now n db).map (fun r => r.url)).contains r.url = true
    · rw [if_pos hc] at hfr
      subst hfr
      exact ⟨rfl, rfl⟩
    · rw [if_neg hc] at hfr
      subst hfr
      exact absurd (List.elem_iff.mpr hu') hc

/-! ## C1 — two concurrent `claim(1)` calls on a 2-row store -/

/-- C1: `get_pending_chunk` wraps its select-then-update in a single
`BEGIN IMMEDIATE` transaction, so each call is one atomic step and any
interleaving of the two calls is one of the two serial orders.  The store
`[a, b]`, the claim order (which call runs first) and both timestamps are
universally quantified, so the theorem covers every interleaving: the two
claimed sets are disjoint and together are exactly `{a.url, b.url}`. -/
theorem c1_concurrent_claims_disjoint (a b : UrlRow) (now1 now2 : Int)
    (hab : a.url ≠ b.url)
    (ha : a.status = Status.pending) (hb : b.status = Status.pending)
    (hra : a.retry_count < MAX_RETRIES) (hrb : b.retry_count < MAX_RETRIES)
    (hfresh : now2 ≤ now1 + (PROCESSING_STALE_HOURS : Int) * 3600) :
    (∀ u ∈ (get_pending_chunk now1 1 [a, b]).1,
       u ∉ (get_pending_chunk now2 1 (get_pending_chunk now1 1 [a, b]).2).1) ∧
    ((get_pending_chunk now1 1 [a, b]).1 ++
       (get_pending_chunk now2 1 (get_pending_chunk now1 1 [a, b]).2).1).Perm
      [a.url, b.url] := by
  have hclaimA : isClaimable now1 a = true := by simp [isClaimable, ha, hra]
  have hclaimB : isClaimable now1 b = true := by simp [isClaimable, hb, hrb]
  have hstale : ∀ r : UrlRow,
      isClaimable now2 { r with status := Status.processing, processed_at := some now1 }
        = false := by
    intro r
    have h2 : now2 ≤ now1 + 7200 := by
      have hc : ((PROCESSING_STALE_HOURS : Nat) : Int) = 2 := rfl
      rw [hc] at hfresh
      omega
    have h1 : ¬ (now1 < staleCutoff now2) := by
      unfold staleCutoff
      have hc : ((PROCESSING_STALE_HOURS : Nat) : Int) = 2 := rfl
      rw [hc]
      omega
    simp [isClaimable, h1]
  by_cases hord : claimOrder a b
  · have hsel1 : claimSelect now1 1 [a, b] = [a] := by
      unfold claimSelect
      simp [hclaimA, hclaimB, List.insertionSort, List.orderedInsert, hord]
    have hurls1 : (get_pending_chunk now1 1 [a, b]).1 = [a.url] := by
      simp [get_pending_chunk, hsel1]
    have hdb1 : (get_pending_chunk now1 1 [a, b]).2 =
        [{ a with status := Status.processing, processed_at := some now1 }, b] := by
      simp only [get_pending_chunk, hsel1, List.map_cons, List.map_nil]
      simp [List.contains, hab.symm]
    have hclaimB2 : isClaimable now2 b = true := by simp [isClaimable, hb, hrb]
    have hsel2 : claimSelect now2 1
        [{ a with status := Status.processing, processed_at := some now1 }, b] = [b] := by
      unfold claimSelect
      simp [hstale a, hclaimB2, List.insertionSort, List.orderedInsert]
    have hurls2 : (get_pending_chunk now2 1 (get_pending_chunk now1 1 [a, b]).2).1
        = [b.url] := by
      rw [hdb1]
      simp [get_pending_chunk, hsel2]
    rw [hurls1, hurls2]
    constructor
    · intro u hu
      simp only [List.mem_singleton] at hu
      subst hu
      simp [hab]
    · exact List.Perm.refl _
  · have hord' : claimOrder b a := (IsTotal.total (r := claimOrder) a b).resolve_left hord
    have hsel1 : claimSelect now1 1 [a, b] = [b] := by
      unfold claimSelect
      simp [hclaimA, hclaimB, List.insertionSort, List.orderedInsert, hord]
    have hurls1 : (get_pending_chunk now1 1 [a, b]).1 = [b.url] := by
      simp [get_pending_chunk, hsel1]
    have hdb1 : (get_pending_chunk now1 1 [a, b]).2 =
        [a, { b with status := Status.processing, processed_at := some now1 }] := by
      simp only [get_pending_chunk, hsel1, List.map_cons, List.map_nil]
      simp [List.contains, hab]
    have hclaimA2 : isClaimable now2 a = true := by simp [isClaimable, ha, hra]
    have hsel2 : claimSelect now2 1
        [a, { b with status := Status.processing, processed_at := some now1 }] = [a] := by
      unfold claimSelect
      simp [hstale b, hclaimA2, List.insertionSort, List.orderedInsert]
    have hurls2 : (get_pending_chunk now2 1 (get_pending_chunk now1 1 [a, b]).2).1
        = [a.url] := by
      rw [hdb1]
      simp [get_pending_chunk, hsel2]
    rw [hurls1, hurls2]
    constructor
    · intro u hu
      simp only [List.mem_singleton] at hu
      subst hu
      simp [hab.symm]
    · exact List.Perm.swap _ _ _

/-! ## C9 — directory/listing detector -/

/-- The 70-line demonstration document of the spec: 66 markdown link lines
and a `Sort by` / `topics in this forum` footer. -/
def demoDirectoryDoc : String :=
  String.intercalate "\n"
    (List.replicate 66 "- [Thread](https://example.org/t/1)" ++
     ["Sort by", "topics in this forum", "Threads 100", "Messages 500"])

def demoDirectoryUrl : String :=
  "https://forums.phoenixrising.me/forums/the-patients-story.4/"

set_option maxRecDepth 8000

/-- C9: `_looks_like_directory_page` flags a document iff it has at least 35
non-blank lines, the linkish-line fraction exceeds 0.58, fewer than 6 lines
are narrative-looking, and the URL or content carries listing context; in
particular the 70-line / 66-link-line document fetched from a `/forums/…`
path is flagged. -/
theorem c9_directory_detector :
    (∀ content url : List Char,
      _looks_like_directory_page content url = true ↔
        (35 ≤ (docLines content).length ∧ listingContext content url = true ∧
         58 * (docLines content).length < 100 * linkishCount content ∧
         narrativeCount content < 6)) ∧
    _looks_like_directory_page demoDirectoryDoc.toList demoDirectoryUrl.toList = true ∧
    (docLines demoDirectoryDoc.toList).length = 70 ∧
    linkishCount demoDirectoryDoc.toList = 66 := by
  refine ⟨?_, by decide, by decide, by decide⟩
  intro content url
  unfold _looks_like_directory_page
  by_cases hlen : (docLines content).length < 35
  · rw [if_pos hlen]
    constructor
    · intro h
      cases h
    · intro h
      omega
  · rw [if_neg hlen]
    simp only [Bool.and_eq_true, decide_eq_true_eq]
    constructor
    · intro h
      exact ⟨by omega, h.1.1, h.1.2, h.2⟩
    · intro h
      exact ⟨⟨h.2.1, h.2.2.1⟩, h.2.2.2⟩

/-! ## C8 — coverage-quota source selection -/

/-- The eligibility test of the selection loop as one boolean. -/
def sourceActive (cov : List (String × Nat)) (s : SourceDef) : Bool :=
  decide (_source_condition_tags s = []) ||
    (_source_condition_tags s).any (fun t => 0 < covDeficit cov t)

theorem selectStep_eq (cov : List (String × Nat)) (acc : List SourceDef × List SourceDef)
    (s : SourceDef) :
    selectStep cov acc s =
      if sourceActive cov s then (acc.1 ++ [s], acc.2) else (acc.1, acc.2 ++ [s]) := by
  unfold selectStep sourceActive
  by_cases h1 : _source_condition_tags s = []
  · simp [h1]
  · by_cases h2 : (_source_condition_tags s).any (fun t => 0 < covDeficit cov t) = true
    · simp [h1, h2]
    · simp [h1, h2]

theorem select_foldl_eq (cov : List (String × Nat)) :
    ∀ (sources : List SourceDef) (acc : List SourceDef × List SourceDef),
      sources.foldl (selectStep cov) acc =
        (acc.1 ++ sources.filter (sourceActive cov),
         acc.2 ++ sources.filter (fun s => ! sourceActive cov s)) := by
  intro sources
  induction sources with
  | nil => intro acc; simp
  | cons s rest ih =>
    intro acc
    rw [List.foldl_cons, ih, selectStep_eq]
    by_cases h : sourceActive cov s = true
    · simp [h, List.filter_cons]
    · simp only [Bool.not_eq_true] at h
      simp [h, List.filter_cons]

/-- Demonstration sources and coverage of the spec's concrete example. -/
def demoSrcA : SourceDef :=
  { name := "A", url := "https://example.org/a", condition_tags := ["cond_a"] }

def demoSrcB : SourceDef :=
  { name := "B", url := "https://example.org/b", condition_tags := ["cond_b"] }

def demoCov : List (String × Nat) := [("cond_a", 2), ("cond_b", 0)]

/-- C8: a source with no condition tags is always selected; a tagged source
is selected iff one of its tags has positive pages-deficit; the selected
list is ordered by maximal tag deficit descending, ties by name ascending;
and on the concrete example the result is `([A], [B])`. -/
theorem c8_source_selection (cov : List (String × Nat)) (sources : List SourceDef) :
    (∀ s ∈ sources, _source_condition_tags s = [] →
      s ∈ (_filter_sources_by_condition_quotas cov sources).1) ∧
    (∀ s ∈ sources, _source_condition_tags s ≠ [] →
      (s ∈ (_filter_sources_by_condition_quotas cov sources).1 ↔
        ∃ t ∈ _source_condition_tags s, 0 < covDeficit cov t)) ∧
    List.Sorted (selRel cov) (_filter_sources_by_condition_quotas cov sources).1 ∧
    _filter_sources_by_condition_quotas demoCov [demoSrcA, demoSrcB] =
      ([demoSrcA], [demoSrcB]) := by
  have hpair : (_filter_sources_by_condition_quotas cov sources).1 =
      (sources.filter (sourceActive cov)).insertionSort (selRel cov) := by
    unfold _filter_sources_by_condition_quotas
    rw [select_foldl_eq]
    simp
  have hmem : ∀ s, s ∈ (_filter_sources_by_condition_quotas cov sources).1 ↔
      s ∈ sources.filter (sourceActive cov) := by
    intro s
    rw [hpair]
    exact (List.perm_insertionSort (selRel cov) _).mem_iff
  refine ⟨?_, ?_, ?_, by decide⟩
  · intro s hs htags
    rw [hmem]
    refine List.mem_filter.mpr ⟨hs, ?_⟩
    unfold sourceActive
    simp [htags]
  · intro s hs htags
    rw [hmem]
    constructor
    · intro h
      have := (List.mem_filter.mp h).2
      unfold sourceActive at this
      simp only [Bool.or_eq_true, decide_eq_true_eq, List.any_eq_true] at this
      rcases this with h | h
      · exact absurd h htags
      · exact h
    · intro h
      refine List.mem_filter.mpr ⟨hs, ?_⟩
      unfold sourceActive
      simp only [Bool.or_eq_true, decide_eq_true_eq, List.any_eq_true]
      exact Or.inr h
  · rw [hpair]
    exact List.sorted_insertionSort (selRel cov) _

/-! ## C10 — ranked candidate URLs are one-pass canonicalizations -/

theorem rank_fold_mem (seed_host : List Char) (required : List String)
    (require_story : Bool) (source : SourceDef) :
    ∀ (rest : List String) (acc : List (String × Int)) (q : String × Int),
      q ∈ rest.foldl (rankStep seed_host required require_story source) acc →
      q.1 ∈ acc.map Prod.fst ∨
        ∃ raw ∈ rest, q.1 = canonicalize_url raw ∧ canonicalize_url raw ≠ "" := by
  intro rest
  induction rest with
  | nil =>
    intro acc q hq
    exact Or.inl (List.mem_map.mpr ⟨q, hq, rfl⟩)
  | cons raw rest' ih =>
    intro acc q hq
    rw [List.foldl_cons] at hq
    rcases ih _ q hq with hacc | ⟨r, hr, he⟩
    · -- q's key comes from `rankStep … acc raw`
      unfold rankStep at hacc
      by_cases h0 : canonicalize_url raw = ""
      · rw [if_pos h0] at hacc
        exact Or.inl hacc
      · rw [if_neg h0] at hacc
        by_cases h1 : _source_host (canonicalize_url raw).toList ≠ seed_host
        · rw [if_pos h1] at hacc
          exact Or.inl hacc
        · rw [if_neg h1] at hacc
          by_cases h2 : required ≠ [] ∧
              ¬ required.any (fun t =>
                containsSub t.toList (toLowerList (canonicalize_url raw).toList)) = true
          · rw [if_pos h2] at hacc
            exact Or.inl hacc
          · rw [if_neg h2] at hacc
            by_cases h3 : require_story ∧
                ¬ _is_story_like_url (canonicalize_url raw).toList source = true
            · rw [if_pos h3] at hacc
              exact Or.inl hacc
            · rw [if_neg h3] at hacc
              rcases hfind : acc.find? (fun p => p.1 = canonicalize_url raw)
                  with _ | cur
              · rw [hfind] at hacc
                simp only [List.map_append, List.map_cons, List.map_nil,
                  List.mem_append, List.mem_singleton] at hacc
                rcases hacc with h | h
                · exact Or.inl (List.mem_map.mpr (by
                    rcases List.mem_map.mp h with ⟨x, hx, he⟩
                    exact ⟨x, hx, he⟩))
                · exact Or.inr ⟨raw, List.mem_cons_self _ _, h, h0⟩
              · rw [hfind] at hacc
                simp only [] at hacc
                by_cases hlt : cur.2 < _score_url (canonicalize_url raw).toList source
                · rw [if_pos hlt] at hacc
                  rw [List.map_map] at hacc
                  have hcomp : (Prod.fst ∘ fun p : String × Int =>
                      if p.1 = canonicalize_url raw
                      then (canonicalize_url raw,
                            _score_url (canonicalize_url raw).toList source)
                      else p) = Prod.fst := by
                    funext p
                    by_cases hcp : p.1 = canonicalize_url raw
                    · simp [hcp]
                    · simp [hcp]
                  rw [hcomp] at hacc
                  exact Or.inl hacc
                · rw [if_neg hlt] at hacc
                  exact Or.inl hacc
    · exact Or.inr ⟨r, List.mem_cons_of_mem _ hr, he⟩

/-- C10 (amended): every URL in `_rank_candidate_urls`' output is the
canonicalization of one of the raw input URLs (and non-empty) — i.e. the
output is canonical *up to one application* of `_canonicalize_url`, which
need not be a fixed point. -/
theorem c10_ranked_urls_one_pass_canonical (raw_urls : List String)
    (source : SourceDef) :
    ∀ p ∈ _rank_candidate_urls raw_urls source,
      ∃ raw ∈ raw_urls, p.1 = canonicalize_url raw ∧ canonicalize_url raw ≠ "" := by
  intro p hp
  unfold _rank_candidate_urls at hp
  have h1 := (List.perm_insertionSort rankRel _).mem_iff.mp hp
  have h2 := List.mem_of_mem_filter h1
  rcases rank_fold_mem _ _ _ _ raw_urls [] p h2 with h | ⟨raw, hraw, he, hne⟩
  · simp at h
  · exact ⟨raw, hraw, he, hne⟩

/-- The source of the C10 counterexample (a plain seed, no token rules). -/
def c10src : SourceDef := { url := "https://h/" }

/-- C10 counterexample: the ranked output contains
`https://h/threads/t/post-1`, which `_canonicalize_url` maps further to
`https://h/threads/t` — the output is not a set of fixed points. -/
theorem c10_counterexample :
    (_rank_candidate_urls ["https://h/threads/t/post-1/latest"] c10src).map Prod.fst
        = ["https://h/threads/t/post-1"] ∧
    canonicalize_url "https://h/threads/t/post-1" ≠ "https://h/threads/t/post-1" := by
  decide

/-! ## C7 — `normalize_existing_urls` merge semantics -/

def lookupUrl (acc : List UrlRow) (u : String) : Option UrlRow :=
  acc.find? (fun r => r.url = u)

theorem mergeRow_url (e c : UrlRow) : (mergeRow e c).url = e.url := rfl

theorem lookupUrl_insertMerge_same (acc : List UrlRow) (c : UrlRow) :
    lookupUrl (insertMerge acc c) c.url =
      some (match lookupUrl acc c.url with
            | some e => mergeRow e c
            | none => c) := by
  induction acc with
  | nil =>
    simp [insertMerge, lookupUrl, List.find?]
  | cons r rest ih =>
    by_cases h : r.url = c.url
    · unfold insertMerge
      rw [if_pos h]
      unfold lookupUrl
      rw [List.find?_cons_of_pos _ (by simp [mergeRow_url, h]),
          List.find?_cons_of_pos _ (by simp [h])]
    · unfold insertMerge
      rw [if_neg h]
      unfold lookupUrl
      rw [List.find?_cons_of_neg _ (by simp [h]),
          List.find?_cons_of_neg _ (by simp [h])]
      exact ih

theorem lookupUrl_insertMerge_ne (acc : List UrlRow) (c : UrlRow) (u : String)
    (h : u ≠ c.url) :
    lookupUrl (insertMerge acc c) u = lookupUrl acc u := by
  induction acc with
  | nil =>
    simp [insertMerge, lookupUrl, List.find?, Ne.symm h]
  | cons r rest ih =>
    by_cases hr : r.url = c.url
    · unfold insertMerge
      rw [if_pos hr]
      unfold lookupUrl
      rw [List.find?_cons_of_neg _ (by simp [mergeRow_url, hr, Ne.symm h]),
          List.find?_cons_of_neg _ (by simp [hr, Ne.symm h])]
    · unfold insertMerge
      rw [if_neg hr]
      by_cases hu : r.url = u
      · unfold lookupUrl
        rw [List.find?_cons_of_pos _ (by simp [hu]),
            List.find?_cons_of_pos _ (by simp [hu])]
      · unfold lookupUrl
        rw [List.find?_cons_of_neg _ (by simp [hu]),
            List.find?_cons_of_neg _ (by simp [hu])]
        exact ih

/-- Folding the merge over the candidates of one canonical key, seeded by
the first candidate (Python's first dict insertion). -/
def foldMerge (c : UrlRow) (cs : List UrlRow) : UrlRow := cs.foldl mergeRow c

/-- The value a left-fold of `insertMerge` leaves under one key, as a
function of that key's candidate sequence. -/
def combineOpt : Option UrlRow → List UrlRow → Option UrlRow
  | o, [] => o
  | some e, c :: cs => combineOpt (some (mergeRow e c)) cs
  | none, c :: cs => combineOpt (some c) cs

theorem combineOpt_some (cs : List UrlRow) :
    ∀ e, combineOpt (some e) cs = some (foldMerge e cs) := by
  induction cs with
  | nil => intro e; rfl
  | cons c cs ih =>
    intro e
    show combineOpt (some (mergeRow e c)) cs = _
    rw [ih]
    rfl

theorem agg_lookup (key : String) :
    ∀ (rows : List UrlRow) (acc : List UrlRow),
      lookupUrl (rows.foldl (fun a r => insertMerge a (candidateOf r)) acc) key =
        combineOpt (lookupUrl acc key)
          ((rows.filter (fun r => canonKey r.url = key)).map candidateOf) := by
  intro rows
  induction rows with
  | nil => intro acc; simp [combineOpt]
  | cons r rs ih =>
    intro acc
    rw [List.foldl_cons, ih, List.filter_cons]
    by_cases hk : canonKey r.url = key
    · rw [if_pos (by simp [hk])]
      have hcu : (candidateOf r).url = key := hk
      have hsame := lookupUrl_insertMerge_same acc (candidateOf r)
      rw [hcu] at hsame
      rw [hsame, List.map_cons]
      cases hx : lookupUrl acc key
      · rfl
      · rfl
    · rw [if_neg (by simp [hk])]
      have hne : key ≠ (candidateOf r).url := by
        intro h
        exact hk h.symm
      rw [lookupUrl_insertMerge_ne acc (candidateOf r) key hne]

theorem candidateOf_status (r : UrlRow) : (candidateOf r).status = r.status := rfl
theorem candidateOf_retry (r : UrlRow) : (candidateOf r).retry_count = r.retry_count := rfl
theorem candidateOf_priority (r : UrlRow) : (candidateOf r).priority = r.priority := rfl
theorem candidateOf_discovered (r : UrlRow) :
    (candidateOf r).discovered_at = r.discovered_at := rfl
theorem candidateOf_processed (r : UrlRow) :
    (candidateOf r).processed_at = r.processed_at := rfl

theorem mergeRow_retry (e c : UrlRow) :
    (mergeRow e c).retry_count = max e.retry_count c.retry_count := rfl

theorem mergeRow_priority (e c : UrlRow) :
    (mergeRow e c).priority = max e.priority c.priority := rfl

theorem mergeRow_status_ge_left (e c : UrlRow) :
    _status_priority e.status ≤ _status_priority (mergeRow e c).status := by
  unfold mergeRow
  dsimp only
  split
  · omega
  · exact le_refl _

theorem mergeRow_status_ge_right (e c : UrlRow) :
    _status_priority c.status ≤ _status_priority (mergeRow e c).status := by
  unfold mergeRow
  dsimp only
  split
  · exact le_refl _
  · omega

theorem mergeRow_status_mem (e c : UrlRow) :
    (mergeRow e c).status = e.status ∨ (mergeRow e c).status = c.status := by
  unfold mergeRow
  dsimp only
  split
  · exact Or.inr rfl
  · exact Or.inl rfl

theorem mergeRow_discovered_le_left (e c : UrlRow) :
    (mergeRow e c).discovered_at ≤ e.discovered_at := by
  unfold mergeRow
  dsimp only
  split <;> omega

theorem mergeRow_discovered_le_right (e c : UrlRow) :
    (mergeRow e c).discovered_at ≤ c.discovered_at := by
  unfold mergeRow
  dsimp only
  split <;> omega

theorem mergeRow_discovered_mem (e c : UrlRow) :
    (mergeRow e c).discovered_at = e.discovered_at ∨
      (mergeRow e c).discovered_at = c.discovered_at := by
  unfold mergeRow
  dsimp only
  split
  · exact Or.inr rfl
  · exact Or.inl rfl

theorem mergeRow_processed_eq (e c : UrlRow) :
    (mergeRow e c).processed_at =
      (match c.processed_at, e.processed_at with
       | some cv, none => some cv
       | some cv, some ev => if ev < cv then some cv else some ev
       | none, ev => ev) := rfl

theorem mergeRow_processed_ub (e c : UrlRow) (t : Int) :
    (e.processed_at = some t ∨ c.processed_at = some t) →
      ∃ t', (mergeRow e c).processed_at = some t' ∧ t ≤ t' := by
  intro h
  have hp := mergeRow_processed_eq e c
  rcases hc : c.processed_at with _ | tc <;> rcases he : e.processed_at with _ | te <;>
    rw [hc, he] at hp
  · rcases h with h | h
    · rw [he] at h; cases h
    · rw [hc] at h; cases h
  · have hp2 : (mergeRow e c).processed_at = some te := hp
    refine ⟨te, hp2, ?_⟩
    rcases h with h | h
    · rw [he] at h
      injection h with h
      omega
    · rw [hc] at h; cases h
  · have hp2 : (mergeRow e c).processed_at = some tc := hp
    refine ⟨tc, hp2, ?_⟩
    rcases h with h | h
    · rw [he] at h; cases h
    · rw [hc] at h
      injection h with h
      omega
  · have hp2 : (mergeRow e c).processed_at = if te < tc then some tc else some te := hp
    by_cases hlt : te < tc
    · rw [if_pos hlt] at hp2
      refine ⟨tc, hp2, ?_⟩
      rcases h with h | h
      · rw [he] at h; injection h with h; omega
      · rw [hc] at h; injection h with h; omega
    · rw [if_neg hlt] at hp2
      refine ⟨te, hp2, ?_⟩
      rcases h with h | h
      · rw [he] at h; injection h with h; omega
      · rw [hc] at h; injection h with h; omega

theorem mergeRow_processed_mem (e c : UrlRow) :
    (mergeRow e c).processed_at = e.processed_at ∨
      (mergeRow e c).processed_at = c.processed_at := by
  have hp := mergeRow_processed_eq e c
  rcases hc : c.processed_at with _ | tc <;> rcases he : e.processed_at with _ | te <;>
    rw [hc, he] at hp
  · have hp2 : (mergeRow e c).processed_at = none := hp
    exact Or.inl hp2
  · have hp2 : (mergeRow e c).processed_at = some te := hp
    exact Or.inl hp2
  · have hp2 : (mergeRow e c).processed_at = some tc := hp
    exact Or.inr hp2
  · have hp2 : (mergeRow e c).processed_at = if te < tc then some tc else some te := hp
    by_cases hlt : te < tc
    · rw [if_pos hlt] at hp2
      exact Or.inr hp2
    · rw [if_neg hlt] at hp2
      exact Or.inl hp2

theorem foldMerge_url (cs : List UrlRow) : ∀ c, (foldMerge c cs).url = c.url := by
  induction cs with
  | nil => intro c; rfl
  | cons c2 cs ih =>
    intro c
    show (foldMerge (mergeRow c c2) cs).url = c.url
    rw [ih]
    rfl

theorem foldMerge_retry_ge (cs : List UrlRow) :
    ∀ c, ∀ x ∈ c :: cs, x.retry_count ≤ (foldMerge c cs).retry_count := by
  induction cs with
  | nil =>
    intro c x hx
    rcases List.mem_singleton.mp hx with rfl
    exact le_refl _
  | cons c2 cs ih =>
    intro c x hx
    have hstep : ∀ y ∈ mergeRow c c2 :: cs,
        y.retry_count ≤ (foldMerge (mergeRow c c2) cs).retry_count := ih (mergeRow c c2)
    have hm : (mergeRow c c2) ∈ mergeRow c c2 :: cs := List.mem_cons_self _ _
    rcases List.mem_cons.mp hx with rfl | hx2
    · calc x.retry_count ≤ (mergeRow x c2).retry_count := by
            rw [mergeRow_retry]; omega
        _ ≤ _ := hstep _ hm
    · rcases List.mem_cons.mp hx2 with rfl | hx3
      · calc x.retry_count ≤ (mergeRow c x).retry_count := by
              rw [mergeRow_retry]; omega
          _ ≤ _ := hstep _ hm
      · exact hstep x (List.mem_cons_of_mem _ hx3)

theorem foldMerge_retry_mem (cs : List UrlRow) :
    ∀ c, (foldMerge c cs).retry_count ∈ (c :: cs).map (fun r => r.retry_count) := by
  induction cs with
  | nil => intro c; simp [foldMerge]
  | cons c2 cs ih =>
    intro c
    have hthis := ih (mergeRow c c2)
    show (foldMerge (mergeRow c c2) cs).retry_count ∈ _
    simp only [List.map_cons, List.mem_cons] at hthis ⊢
    rcases hthis with h | h
    · rw [h, mergeRow_retry]
      rcases le_total c.retry_count c2.retry_count with hle | hle
      · right; left; exact max_eq_right hle
      · left; exact max_eq_left hle
    · right; right; exact h

theorem foldMerge_priority_ge (cs : List UrlRow) :
    ∀ c, ∀ x ∈ c :: cs, x.priority ≤ (foldMerge c cs).priority := by
  induction cs with
  | nil =>
    intro c x hx
    rcases List.mem_singleton.mp hx with rfl
    exact le_refl _
  | cons c2 cs ih =>
    intro c x hx
    have hstep := ih (mergeRow c c2)
    have hm : (mergeRow c c2) ∈ mergeRow c c2 :: cs := List.mem_cons_self _ _
    rcases List.mem_cons.mp hx with rfl | hx2
    · calc x.priority ≤ (mergeRow x c2).priority := by
            rw [mergeRow_priority]; exact le_max_left _ _
        _ ≤ _ := hstep _ hm
    · rcases List.mem_cons.mp hx2 with rfl | hx3
      · calc x.priority ≤ (mergeRow c x).priority := by
              rw [mergeRow_priority]; exact le_max_right _ _
          _ ≤ _ := hstep _ hm
      · exact hstep x (List.mem_cons_of_mem _ hx3)

theorem foldMerge_priority_mem (cs : List UrlRow) :
    ∀ c, (foldMerge c cs).priority ∈ (c :: cs).map (fun r => r.priority) := by
  induction cs with
  | nil => intro c; simp [foldMerge]
  | cons c2 cs ih =>
    intro c
    have hthis := ih (mergeRow c c2)
    show (foldMerge (mergeRow c c2) cs).priority ∈ _
    simp only [List.map_cons, List.mem_cons] at hthis ⊢
    rcases hthis with h | h
    · rw [h, mergeRow_priority]
      rcases le_total c.priority c2.priority with hle | hle
      · right; left; exact max_eq_right hle
      · left; exact max_eq_left hle
    · right; right; exact h

theorem foldMerge_status_ge (cs : List UrlRow) :
    ∀ c, ∀ x ∈ c :: cs,
      _status_priority x.status ≤ _status_priority (foldMerge c cs).status := by
  induction cs with
  | nil =>
    intro c x hx
    rcases List.mem_singleton.mp hx with rfl
    exact le_refl _
  | cons c2 cs ih =>
    intro c x hx
    have hstep := ih (mergeRow c c2)
    have hm : (mergeRow c c2) ∈ mergeRow c c2 :: cs := List.mem_cons_self _ _
    rcases List.mem_cons.mp hx with rfl | hx2
    · exact le_trans (mergeRow_status_ge_left x c2) (hstep _ hm)
    · rcases List.mem_cons.mp hx2 with rfl | hx3
      · exact le_trans (mergeRow_status_ge_right c x) (hstep _ hm)
      · exact hstep x (List.mem_cons_of_mem _ hx3)

theorem foldMerge_status_mem (cs : List UrlRow) :
    ∀ c, ∃ x ∈ c :: cs, (foldMerge c cs).status = x.status := by
  induction cs with
  | nil => intro c; exact ⟨c, List.mem_singleton_self _, rfl⟩
  | cons c2 cs ih =>
    intro c
    rcases ih (mergeRow c c2) with ⟨x, hx, he⟩
    have hfold : (foldMerge c (c2 :: cs)).status
        = (foldMerge (mergeRow c c2) cs).status := rfl
    rcases List.mem_cons.mp hx with rfl | hx2
    · rcases mergeRow_status_mem c c2 with h | h
      · exact ⟨c, List.mem_cons_self _ _, by rw [hfold, he, h]⟩
      · exact ⟨c2, List.mem_cons_of_mem _ (List.mem_cons_self _ _), by rw [hfold, he, h]⟩
    · exact ⟨x, List.mem_cons_of_mem _ (List.mem_cons_of_mem _ hx2), he⟩

theorem foldMerge_discovered_le (cs : List UrlRow) :
    ∀ c, ∀ x ∈ c :: cs, (foldMerge c cs).discovered_at ≤ x.discovered_at := by
  induction cs with
  | nil =>
    intro c x hx
    rcases List.mem_singleton.mp hx with rfl
    exact le_refl _
  | cons c2 cs ih =>
    intro c x hx
    have hstep := ih (mergeRow c c2)
    have hm : (mergeRow c c2) ∈ mergeRow c c2 :: cs := List.mem_cons_self _ _
    rcases List.mem_cons.mp hx with rfl | hx2
    · exact le_trans (hstep _ hm) (mergeRow_discovered_le_left x c2)
    · rcases List.mem_cons.mp hx2 with rfl | hx3
      · exact le_trans (hstep _ hm) (mergeRow_discovered_le_right c x)
      · exact hstep x (List.mem_cons_of_mem _ hx3)

theorem foldMerge_discovered_mem (cs : List UrlRow) :
    ∀ c, ∃ x ∈ c :: cs, (foldMerge c cs).discovered_at = x.discovered_at := by
  induction cs with
  | nil => intro c; exact ⟨c, List.mem_singleton_self _, rfl⟩
  | cons c2 cs ih =>
    intro c
    rcases ih (mergeRow c c2) with ⟨x, hx, he⟩
    have hfold : (foldMerge c (c2 :: cs)).discovered_at
        = (foldMerge (mergeRow c c2) cs).discovered_at := rfl
    rcases List.mem_cons.mp hx with rfl | hx2
    · rcases mergeRow_discovered_mem c c2 with h | h
      · exact ⟨c, List.mem_cons_self _ _, by rw [hfold, he, h]⟩
      · exact ⟨c2, List.mem_cons_of_mem _ (List.mem_cons_self _ _), by rw [hfold, he, h]⟩
    · exact ⟨x, List.mem_cons_of_mem _ (List.mem_cons_of_mem _ hx2), he⟩

theorem foldMerge_processed_ub (cs : List UrlRow) :
    ∀ c, ∀ x ∈ c :: cs, ∀ t, x.processed_at = some t →
      ∃ t', (foldMerge c cs).processed_at = some t' ∧ t ≤ t' := by
  induction cs with
  | nil =>
    intro c x hx t ht
    rcases List.mem_singleton.mp hx with rfl
    exact ⟨t, ht, le_refl _⟩
  | cons c2 cs ih =>
    intro c x hx t ht
    have hstep := ih (mergeRow c c2)
    have hm : (mergeRow c c2) ∈ mergeRow c c2 :: cs := List.mem_cons_self _ _
    rcases List.mem_cons.mp hx with rfl | hx2
    · rcases mergeRow_processed_ub x c2 t (Or.inl ht) with ⟨t1, ht1, hle1⟩
      rcases hstep _ hm t1 ht1 with ⟨t2, ht2, hle2⟩
      exact ⟨t2, ht2, le_trans hle1 hle2⟩
    · rcases List.mem_cons.mp hx2 with rfl | hx3
      · rcases mergeRow_processed_ub c x t (Or.inr ht) with ⟨t1, ht1, hle1⟩
        rcases hstep _ hm t1 ht1 with ⟨t2, ht2, hle2⟩
        exact ⟨t2, ht2, le_trans hle1 hle2⟩
      · exact hstep x (List.mem_cons_of_mem _ hx3) t ht

theorem foldMerge_processed_mem (cs : List UrlRow) :
    ∀ c, (foldMerge c cs).processed_at = none ∨
      ∃ x ∈ c :: cs, (foldMerge c cs).processed_at = x.processed_at := by
  induction cs with
  | nil => intro c; exact Or.inr ⟨c, List.mem_singleton_self _, rfl⟩
  | cons c2 cs ih =>
    intro c
    rcases ih (mergeRow c c2) with h | ⟨x, hx, he⟩
    · exact Or.inl h
    · have hfold : (foldMerge c (c2 :: cs)).processed_at
          = (foldMerge (mergeRow c c2) cs).processed_at := rfl
      rcases List.mem_cons.mp hx with rfl | hx2
      · rcases mergeRow_processed_mem c c2 with h | h
        · exact Or.inr ⟨c, List.mem_cons_self _ _, by rw [hfold, he, h]⟩
        · exact Or.inr ⟨c2, List.mem_cons_of_mem _ (List.mem_cons_self _ _),
            by rw [hfold, he, h]⟩
      · exact Or.inr ⟨x, List.mem_cons_of_mem _ (List.mem_cons_of_mem _ hx2), he⟩

theorem lookupUrl_some {acc : List UrlRow} {u : String} {v : UrlRow}
    (h : lookupUrl acc u = some v) : v ∈ acc ∧ v.url = u := by
  refine ⟨List.mem_of_find?_eq_some h, ?_⟩
  have := List.find?_some h
  simpa using this

theorem insertMerge_keys (acc : List UrlRow) (c : UrlRow) :
    (insertMerge acc c).map (fun r => r.url) =
      if c.url ∈ acc.map (fun r => r.url) then acc.map (fun r => r.url)
      else acc.map (fun r => r.url) ++ [c.url] := by
  induction acc with
  | nil => simp [insertMerge]
  | cons r rest ih =>
    by_cases h : r.url = c.url
    · unfold insertMerge
      rw [if_pos h]
      simp [mergeRow_url, h]
    · unfold insertMerge
      rw [if_neg h]
      have hne : ¬ c.url = r.url := fun he => h he.symm
      simp only [List.map_cons, List.mem_cons, hne, false_or]
      rw [ih]
      by_cases hm : c.url ∈ rest.map (fun r => r.url)
      · rw [if_pos hm, if_pos hm]
      · rw [if_neg hm, if_neg hm]
        simp

theorem insertMerge_nodup (acc : List UrlRow) (c : UrlRow)
    (h : (acc.map (fun r => r.url)).Nodup) :
    ((insertMerge acc c).map (fun r => r.url)).Nodup := by
  rw [insertMerge_keys]
  by_cases hm : c.url ∈ acc.map (fun r => r.url)
  · rw [if_pos hm]; exact h
  · rw [if_neg hm]
    simp [List.nodup_append, h, hm]

theorem agg_keys_nodup :
    ∀ (rows : List UrlRow) (acc : List UrlRow),
      (acc.map (fun r => r.url)).Nodup →
      (((rows.foldl (fun a r => insertMerge a (candidateOf r)) acc)).map
        (fun r => r.url)).Nodup := by
  intro rows
  induction rows with
  | nil => intro acc h; exact h
  | cons r rs ih =>
    intro acc h
    rw [List.foldl_cons]
    exact ih _ (insertMerge_nodup _ _ h)

theorem filter_eq_singleton_of_mem {acc : List UrlRow} {key : String} {v : UrlRow}
    (hn : (acc.map (fun r => r.url)).Nodup) (hv : v ∈ acc) (hu : v.url = key) :
    acc.filter (fun r => r.url = key) = [v] := by
  induction acc with
  | nil => cases hv
  | cons a rest ih =>
    simp only [List.map_cons, List.nodup_cons] at hn
    rcases List.mem_cons.mp hv with rfl | hm
    · rw [List.filter_cons, if_pos (by simp [hu])]
      have : rest.filter (fun r => r.url = key) = [] := by
        rw [List.filter_eq_nil]
        intro r hr
        simp only [decide_eq_true_eq]
        intro he
        exact hn.1 (List.mem_map.mpr ⟨r, hr, (he.trans hu.symm)⟩)
      rw [this]
    · have hane : ¬ a.url = key := by
        intro he
        exact hn.1 (List.mem_map.mpr ⟨v, hm, hu.trans he.symm⟩)
      rw [List.filter_cons, if_neg (by simp [hane])]
      exact ih hn.2 hm

theorem insertMerge_length (acc : List UrlRow) (c : UrlRow) :
    (insertMerge acc c).length =
      if c.url ∈ acc.map (fun r => r.url) then acc.length else acc.length + 1 := by
  have h1 : (insertMerge acc c).length = ((insertMerge acc c).map (fun r => r.url)).length :=
    (List.length_map _ _).symm
  rw [h1, insertMerge_keys]
  by_cases hm : c.url ∈ acc.map (fun r => r.url)
  · rw [if_pos hm, if_pos hm, List.length_map]
  · rw [if_neg hm, if_neg hm]
    simp

theorem insertMerge_keys_superset (acc : List UrlRow) (c : UrlRow) {u : String}
    (h : u ∈ acc.map (fun r => r.url)) :
    u ∈ (insertMerge acc c).map (fun r => r.url) := by
  rw [insertMerge_keys]
  by_cases hm : c.url ∈ acc.map (fun r => r.url)
  · rw [if_pos hm]; exact h
  · rw [if_neg hm]; exact List.mem_append_left _ h

theorem insertMerge_key_mem (acc : List UrlRow) (c : UrlRow) :
    c.url ∈ (insertMerge acc c).map (fun r => r.url) := by
  rw [insertMerge_keys]
  by_cases hm : c.url ∈ acc.map (fun r => r.url)
  · rw [if_pos hm]; exact hm
  · rw [if_neg hm]; exact List.mem_append_right _ (List.mem_singleton_self _)

theorem agg_length_le :
    ∀ (rows : List UrlRow) (acc : List UrlRow),
      (rows.foldl (fun a r => insertMerge a (candidateOf r)) acc).length ≤
        acc.length + rows.length := by
  intro rows
  induction rows with
  | nil => intro acc; simp
  | cons r rs ih =>
    intro acc
    rw [List.foldl_cons]
    calc (rs.foldl (fun a r => insertMerge a (candidateOf r))
            (insertMerge acc (candidateOf r))).length
        ≤ (insertMerge acc (candidateOf r)).length + rs.length := ih _
      _ ≤ acc.length + 1 + rs.length := by
          rw [insertMerge_length]
          split
          · omega
          · omega
      _ = acc.length + (r :: rs).length := by simp; omega

theorem agg_length_lt_of_dup :
    ∀ (rows : List UrlRow) (acc : List UrlRow),
      (¬ (rows.map (fun r => canonKey r.url)).Nodup ∨
        ∃ r ∈ rows, canonKey r.url ∈ acc.map (fun r => r.url)) →
      (rows.foldl (fun a r => insertMerge a (candidateOf r)) acc).length <
        acc.length + rows.length := by
  intro rows
  induction rows with
  | nil =>
    intro acc h
    rcases h with h | ⟨r, hr, _⟩
    · exact absurd List.nodup_nil h
    · cases hr
  | cons r rs ih =>
    intro acc h
    rw [List.foldl_cons]
    have hlen : (insertMerge acc (candidateOf r)).length ≤ acc.length + 1 := by
      rw [insertMerge_length]
      split
      · omega
      · omega
    rcases h with h | ⟨r0, hr0, hmem⟩
    · rw [List.map_cons, List.nodup_cons] at h
      push_neg at h
      by_cases hk : canonKey r.url ∈ rs.map (fun r => canonKey r.url)
      · rcases List.mem_map.mp hk with ⟨r', hr', he⟩
        have : (rs.foldl (fun a r => insertMerge a (candidateOf r))
            (insertMerge acc (candidateOf r))).length <
              (insertMerge acc (candidateOf r)).length + rs.length := by
          refine ih _ (Or.inr ⟨r', hr', ?_⟩)
          rw [he]
          have : (candidateOf r).url = canonKey r.url := rfl
          rw [← this]
          exact insertMerge_key_mem acc (candidateOf r)
        calc _ < (insertMerge acc (candidateOf r)).length + rs.length := this
          _ ≤ acc.length + 1 + rs.length := by omega
          _ = acc.length + (r :: rs).length := by simp; omega
      · have hnd : ¬ (rs.map (fun r => canonKey r.url)).Nodup := h hk
        have := ih (insertMerge acc (candidateOf r)) (Or.inl hnd)
        calc _ < (insertMerge acc (candidateOf r)).length + rs.length := this
          _ ≤ acc.length + 1 + rs.length := by omega
          _ = acc.length + (r :: rs).length := by simp; omega
    · rcases List.mem_cons.mp hr0 with rfl | hr0'
      · have hsame : (insertMerge acc (candidateOf r0)).length = acc.length := by
          rw [insertMerge_length]
          rw [if_pos (show (candidateOf r0).url ∈ acc.map (fun r => r.url) from hmem)]
        have := agg_length_le rs (insertMerge acc (candidateOf r0))
        calc _ ≤ (insertMerge acc (candidateOf r0)).length + rs.length := this
          _ = acc.length + rs.length := by omega
          _ < acc.length + (r0 :: rs).length := by simp
      · have := ih (insertMerge acc (candidateOf r))
          (Or.inr ⟨r0, hr0', insertMerge_keys_superset _ _ hmem⟩)
        calc _ < (insertMerge acc (candidateOf r)).length + rs.length := this
          _ ≤ acc.length + 1 + rs.length := by omega
          _ = acc.length + (r :: rs).length := by simp; omega

/-- C7: for every canonical key with at least one colliding stored row,
`normalize_existing_urls` leaves exactly one row under that key, whose
status is the group's maximum under the ranking
PENDING=4 > PROCESSING=3 > FAILED=2 > COMPLETED=1 (so COMPLETED never wins
against any other status), whose retry count and priority are the group
maxima, whose `discovered_at` is the earliest and whose `processed_at` is
the latest in the group. -/
theorem c7_normalize_merge (db : List UrlRow) (key : String)
    (hne : db.filter (fun r => canonKey r.url = key) ≠ []) :
    ∃ v,
      (normalize_existing_urls db).filter (fun r => r.url = key) = [v] ∧
      (∀ g ∈ db.filter (fun r => canonKey r.url = key),
         _status_priority g.status ≤ _status_priority v.status) ∧
      (∃ g ∈ db.filter (fun r => canonKey r.url = key), v.status = g.status) ∧
      (∀ g ∈ db.filter (fun r => canonKey r.url = key),
         g.retry_count ≤ v.retry_count) ∧
      (∃ g ∈ db.filter (fun r => canonKey r.url = key),
         v.retry_count = g.retry_count) ∧
      (∀ g ∈ db.filter (fun r => canonKey r.url = key), g.priority ≤ v.priority) ∧
      (∃ g ∈ db.filter (fun r => canonKey r.url = key), v.priority = g.priority) ∧
      (∀ g ∈ db.filter (fun r => canonKey r.url = key),
         v.discovered_at ≤ g.discovered_at) ∧
      (∃ g ∈ db.filter (fun r => canonKey r.url = key),
         v.discovered_at = g.discovered_at) ∧
      (∀ g ∈ db.filter (fun r => canonKey r.url = key), ∀ t,
         g.processed_at = some t → ∃ t', v.processed_at = some t' ∧ t ≤ t') ∧
      (v.processed_at = none ∨
        ∃ g ∈ db.filter (fun r => canonKey r.url = key),
          v.processed_at = g.processed_at) := by
  have hnorm : normalize_existing_urls db =
      if ¬ (db.any fun r => canonKey r.url != r.url) = true ∧
         ¬ ((aggregateRows db).length < db.length) then db
      else aggregateRows db := rfl
  by_cases hcond : ¬ (db.any fun r => canonKey r.url != r.url) = true ∧
      ¬ ((aggregateRows db).length < db.length)
  · -- early-return branch: the table is already canonical and duplicate-free
    have hid : ∀ r ∈ db, canonKey r.url = r.url := by
      intro r hr
      by_contra hne2
      exact hcond.1 (List.any_eq_true.mpr ⟨r, hr, by simp [bne_iff_ne]; exact hne2⟩)
    have hkeysnd : (db.map (fun r => r.url)).Nodup := by
      by_contra hnd
      have hnd2 : ¬ (db.map (fun r => canonKey r.url)).Nodup := by
        rw [List.map_congr_left hid]
        exact hnd
      have := agg_length_lt_of_dup db [] (Or.inl hnd2)
      simp only [List.length_nil, Nat.zero_add] at this
      exact hcond.2 this
    have hgrp : db.filter (fun r => canonKey r.url = key) =
        db.filter (fun r => r.url = key) := by
      apply List.filter_congr
      intro r hr
      rw [hid r hr]
    rcases List.exists_mem_of_ne_nil _ hne with ⟨v, hv⟩
    have hvdb : v ∈ db := List.mem_of_mem_filter hv
    have hvkey : v.url = key := by
      have := List.of_mem_filter hv
      simp only [decide_eq_true_eq] at this
      rw [← hid v hvdb]
      exact this
    have hv' : v ∈ db.filter (fun r => r.url = key) := hgrp ▸ hv
    have hfilter : db.filter (fun r => r.url = key) = [v] :=
      filter_eq_singleton_of_mem hkeysnd hvdb hvkey
    have hall : ∀ g ∈ db.filter (fun r => canonKey r.url = key), g = v := by
      intro g hg
      have : g ∈ [v] := hfilter ▸ (hgrp ▸ hg)
      exact List.mem_singleton.mp this
    refine ⟨v, ?_, ?_, ⟨v, hv, rfl⟩, ?_, ⟨v, hv, rfl⟩, ?_, ⟨v, hv, rfl⟩, ?_,
      ⟨v, hv, rfl⟩, ?_, Or.inr ⟨v, hv, rfl⟩⟩
    · rw [hnorm, if_pos hcond]
      exact hfilter
    · intro g hg; rw [hall g hg]
    · intro g hg; rw [hall g hg]
    · intro g hg; rw [hall g hg]
    · intro g hg; rw [hall g hg]
    · intro g hg t ht
      rw [hall g hg] at ht
      exact ⟨t, ht, le_refl _⟩
  · -- aggregation branch
    rcases hg : db.filter (fun r => canonKey r.url = key) with _ | ⟨g0, gs⟩
    · exact absurd hg hne
    have hlk : lookupUrl (aggregateRows db) key =
        combineOpt none ((db.filter (fun r => canonKey r.url = key)).map candidateOf) := by
      have := agg_lookup key db []
      simpa [aggregateRows, lookupUrl, List.find?] using this
    rw [hg, List.map_cons] at hlk
    have hlk2 : lookupUrl (aggregateRows db) key =
        some (foldMerge (candidateOf g0) (gs.map candidateOf)) := by
      rw [hlk]
      show combineOpt (some (candidateOf g0)) (gs.map candidateOf) = _
      exact combineOpt_some _ _
    rcases lookupUrl_some hlk2 with ⟨hvmem, hvkey⟩
    have hnodup : ((aggregateRows db).map (fun r => r.url)).Nodup :=
      agg_keys_nodup db [] (by simp)
    have hfilter : (aggregateRows db).filter (fun r => r.url = key) =
        [foldMerge (candidateOf g0) (gs.map candidateOf)] :=
      filter_eq_singleton_of_mem hnodup hvmem hvkey
    have hcand : ∀ g ∈ db.filter (fun r => canonKey r.url = key),
        candidateOf g ∈ candidateOf g0 :: gs.map candidateOf := by
      intro g hgm
      rw [hg] at hgm
      rcases List.mem_cons.mp hgm with rfl | hgm'
      · exact List.mem_cons_self _ _
      · exact List.mem_cons_of_mem _ (List.mem_map.mpr ⟨g, hgm', rfl⟩)
    have hmapeq : (candidateOf g0 :: gs.map candidateOf) =
        (db.filter (fun r => canonKey r.url = key)).map candidateOf := by
      rw [hg, List.map_cons]
    refine ⟨foldMerge (candidateOf g0) (gs.map candidateOf), ?_, ?_, ?_, ?_, ?_,
      ?_, ?_, ?_, ?_, ?_, ?_⟩
    · rw [hnorm, if_neg hcond]
      exact hfilter
    · intro g hgm
      exact foldMerge_status_ge _ _ (candidateOf g) (hcand g hgm)
    · rcases foldMerge_status_mem (gs.map candidateOf) (candidateOf g0) with ⟨x, hx, he⟩
      rw [hmapeq] at hx
      rcases List.mem_map.mp hx with ⟨g, hgm, rfl⟩
      exact ⟨g, hgm, he⟩
    · intro g hgm
      exact foldMerge_retry_ge _ _ (candidateOf g) (hcand g hgm)
    · have := foldMerge_retry_mem (gs.map candidateOf) (candidateOf g0)
      rw [show ((candidateOf g0 :: gs.map candidateOf).map fun r => r.retry_count)
          = ((db.filter (fun r => canonKey r.url = key)).map fun r => r.retry_count) by
        rw [hmapeq, List.map_map]; rfl] at this
      rcases List.mem_map.mp this with ⟨g, hgm, he⟩
      exact ⟨g, hgm, he.symm⟩
    · intro g hgm
      exact foldMerge_priority_ge _ _ (candidateOf g) (hcand g hgm)
    · have := foldMerge_priority_mem (gs.map candidateOf) (candidateOf g0)
      rw [show ((candidateOf g0 :: gs.map candidateOf).map fun r => r.priority)
          = ((db.filter (fun r => canonKey r.url = key)).map fun r => r.priority) by
        rw [hmapeq, List.map_map]; rfl] at this
      rcases List.mem_map.mp this with ⟨g, hgm, he⟩
      exact ⟨g, hgm, he.symm⟩
    · intro g hgm
      exact foldMerge_discovered_le _ _ (candidateOf g) (hcand g hgm)
    · rcases foldMerge_discovered_mem (gs.map candidateOf) (candidateOf g0)
        with ⟨x, hx, he⟩
      rw [hmapeq] at hx
      rcases List.mem_map.mp hx with ⟨g, hgm, rfl⟩
      exact ⟨g, hgm, he⟩
    · intro g hgm t ht
      exact foldMerge_processed_ub _ _ (candidateOf g) (hcand g hgm) t ht
    · rcases foldMerge_processed_mem (gs.map candidateOf) (candidateOf g0) with h | ⟨x, hx, he⟩
      · exact Or.inl h
      · rw [hmapeq] at hx
        rcases List.mem_map.mp hx with ⟨g, hgm, rfl⟩
        exact Or.inr ⟨g, hgm, he⟩

/-! ## C6 — retry/priority monotonicity across store operations -/

theorem mark_status_mono (now : Int) (url : String) (st : Status) (inc : Bool)
    {db : List UrlRow} {r : UrlRow} (h : r ∈ db) :
    ∃ r' ∈ mark_status now url st inc db, r'.url = r.url ∧
      r.retry_count ≤ r'.retry_count ∧ r.priority ≤ r'.priority := by
  refine ⟨_, List.mem_map_of_mem _ h, ?_⟩
  by_cases hc : r.url = url
  · rw [if_pos hc]
    refine ⟨rfl, ?_, le_refl _⟩
    split
    · exact Nat.le_succ _
    · exact le_refl _
  · rw [if_neg hc]
    exact ⟨rfl, le_refl _, le_refl _⟩

theorem get_pending_chunk_mono (now : Int) (n : Nat) {db : List UrlRow} {r : UrlRow}
    (h : r ∈ db) :
    ∃ r' ∈ (get_pending_chunk now n db).2, r'.url = r.url ∧
      r.retry_count ≤ r'.retry_count ∧ r.priority ≤ r'.priority := by
  refine ⟨_, List.mem_map_of_mem _ h, ?_⟩
  split
  · exact ⟨rfl, le_refl _, le_refl _⟩
  · exact ⟨rfl, le_refl _, le_refl _⟩

theorem handle_failure_mono (now : Int) (url : String) {db : List UrlRow} {r : UrlRow}
    (h : r ∈ db) :
    ∃ r' ∈ handle_failure now url db, r'.url = r.url ∧
      r.retry_count ≤ r'.retry_count ∧ r.priority ≤ r'.priority := by
  have hrfl : handle_failure now url db =
      if MAX_RETRIES ≤
          ((db.find? (fun r => r.url = url)).map (fun x => x.retry_count)).getD 0 + 1
      then mark_status now url Status.failed true db
      else mark_status now url Status.pending true db := rfl
  rw [hrfl]
  split
  · exact mark_status_mono _ _ _ _ h
  · exact mark_status_mono _ _ _ _ h

theorem quarantine_mono (now : Int) (sus : List String) {db : List UrlRow} {r : UrlRow}
    (h : r ∈ db) (hcap : r.retry_count ≤ MAX_RETRIES) :
    ∃ r' ∈ quarantine_suspect_outputs now sus db, r'.url = r.url ∧
      r.retry_count ≤ r'.retry_count ∧ r.priority ≤ r'.priority := by
  refine ⟨_, List.mem_map_of_mem _ h, ?_⟩
  split
  · exact ⟨rfl, hcap, le_refl _⟩
  · exact ⟨rfl, le_refl _, le_refl _⟩

theorem addUrlStep_keys (src : String) (now : Int)
    (acc : List UrlRow × Nat × Nat) (item : String × Option Int)
    (h : (acc.1.map (fun r => r.url)).Nodup) :
    (((addUrlStep src now acc item).1).map (fun r => r.url)).Nodup := by
  obtain ⟨adb, aad, aup⟩ := acc
  unfold addUrlStep
  simp only []
  split
  · exact h
  · rcases hfind : adb.find? (fun r => r.url = item.1) with _ | existing
    · simp only [hfind]
      rw [List.map_append]
      simp only [List.map_cons, List.map_nil]
      rw [List.nodup_append]
      refine ⟨h, List.nodup_singleton _, ?_⟩
      intro u hu
      simp only [List.mem_singleton]
      intro he
      subst he
      rcases List.mem_map.mp hu with ⟨r0, hr0, he0⟩
      rw [List.find?_eq_none] at hfind
      have := hfind r0 hr0
      simp only [decide_eq_true_eq] at this
      exact this he0
    · simp only [hfind]
      split
      · rw [List.map_map]
        have : ((fun r => r.url) ∘ fun r : UrlRow =>
            if r.url = item.1 then
              { r with source_name := src,
                       status := if existing.status = Status.failed ∧
                           existing.retry_count < MAX_RETRIES then Status.pending
                         else existing.status,
                       priority := if itemPriority item.2 > existing.priority
                         then itemPriority item.2 else existing.priority }
            else r) = fun r => r.url := by
          funext r0
          by_cases hc : r0.url = item.1
          · simp [hc]
          · simp [hc]
        rw [this]
        exact h
      · exact h

theorem addUrlStep_mono (src : String) (now : Int)
    (acc : List UrlRow × Nat × Nat) (item : String × Option Int) {r : UrlRow}
    (hn : (acc.1.map (fun r => r.url)).Nodup) (h : r ∈ acc.1) :
    ∃ r' ∈ (addUrlStep src now acc item).1, r'.url = r.url ∧
      r.retry_count ≤ r'.retry_count ∧ r.priority ≤ r'.priority := by
  obtain ⟨adb, aad, aup⟩ := acc
  unfold addUrlStep
  simp only [] at hn h ⊢
  split
  · exact ⟨r, h, rfl, le_refl _, le_refl _⟩
  · rcases hfind : adb.find? (fun r => r.url = item.1) with _ | existing
    · simp only [hfind]
      exact ⟨r, List.mem_append_left _ h, rfl, le_refl _, le_refl _⟩
    · simp only [hfind]
      split
      · refine ⟨_, List.mem_map_of_mem _ h, ?_⟩
        by_cases hc : r.url = item.1
        · rw [if_pos hc]
          refine ⟨rfl, le_refl _, ?_⟩
          have hex : existing ∈ adb ∧ existing.url = item.1 := by
            refine ⟨List.mem_of_find?_eq_some hfind, ?_⟩
            have := List.find?_some hfind
            simpa using this
          have hre : r = existing :=
            row_unique_by_url h hex.1 (hc.trans hex.2.symm) hn
          subst hre
          show r.priority ≤
            if itemPriority item.2 > r.priority then itemPriority item.2 else r.priority
          split
          · omega
          · exact le_refl _
        · rw [if_neg hc]
          exact ⟨rfl, le_refl _, le_refl _⟩
      · exact ⟨r, h, rfl, le_refl _, le_refl _⟩

theorem add_urls_mono (src : String) (now : Int) :
    ∀ (items : List (String × Option Int)) (acc : List UrlRow × Nat × Nat) (r : UrlRow),
      (acc.1.map (fun r => r.url)).Nodup → r ∈ acc.1 →
      ∃ r' ∈ (items.foldl (addUrlStep src now) acc).1, r'.url = r.url ∧
        r.retry_count ≤ r'.retry_count ∧ r.priority ≤ r'.priority := by
  intro items
  induction items with
  | nil => intro acc r _ h; exact ⟨r, h, rfl, le_refl _, le_refl _⟩
  | cons it rest ih =>
    intro acc r hn h
    rw [List.foldl_cons]
    rcases addUrlStep_mono src now acc it hn h with ⟨r1, hr1, hu1, hret1, hpri1⟩
    rcases ih (addUrlStep src now acc it) r1 (addUrlStep_keys src now acc it hn) hr1
      with ⟨r', hr', hu', hret', hpri'⟩
    exact ⟨r', hr', hu'.trans hu1, le_trans hret1 hret', le_trans hpri1 hpri'⟩

theorem normalize_mono (db : List UrlRow) (r : UrlRow) (h : r ∈ db) :
    ∃ r' ∈ normalize_existing_urls db, r'.url = canonKey r.url ∧
      r.retry_count ≤ r'.retry_count ∧ r.priority ≤ r'.priority := by
  have hnorm : normalize_existing_urls db =
      if ¬ (db.any fun r => canonKey r.url != r.url) = true ∧
         ¬ ((aggregateRows db).length < db.length) then db
      else aggregateRows db := rfl
  by_cases hcond : ¬ (db.any fun r => canonKey r.url != r.url) = true ∧
      ¬ ((aggregateRows db).length < db.length)
  · rw [hnorm, if_pos hcond]
    have hid : canonKey r.url = r.url := by
      by_contra hne2
      exact hcond.1 (List.any_eq_true.mpr ⟨r, h, by simp [bne_iff_ne]; exact hne2⟩)
    exact ⟨r, h, hid.symm, le_refl _, le_refl _⟩
  · rw [hnorm, if_neg hcond]
    have hmem : r ∈ db.filter (fun x => canonKey x.url = canonKey r.url) :=
      List.mem_filter.mpr ⟨h, by simp⟩
    rcases hg : db.filter (fun x => canonKey x.url = canonKey r.url) with _ | ⟨g0, gs⟩
    · rw [hg] at hmem; cases hmem
    have hlk : lookupUrl (aggregateRows db) (canonKey r.url) =
        combineOpt none
          ((db.filter (fun x => canonKey x.url = canonKey r.url)).map candidateOf) := by
      have := agg_lookup (canonKey r.url) db []
      simpa [aggregateRows, lookupUrl, List.find?] using this
    rw [hg, List.map_cons] at hlk
    have hlk2 : lookupUrl (aggregateRows db) (canonKey r.url) =
        some (foldMerge (candidateOf g0) (gs.map candidateOf)) := by
      rw [hlk]
      show combineOpt (some (candidateOf g0)) (gs.map candidateOf) = _
      exact combineOpt_some _ _
    rcases lookupUrl_some hlk2 with ⟨hvmem, hvkey⟩
    have hcand : candidateOf r ∈ candidateOf g0 :: gs.map candidateOf := by
      rw [hg] at hmem
      rcases List.mem_cons.mp hmem with rfl | hm'
      · exact List.mem_cons_self _ _
      · exact List.mem_cons_of_mem _ (List.mem_map.mpr ⟨r, hm', rfl⟩)
    exact ⟨foldMerge (candidateOf g0) (gs.map candidateOf), hvmem, hvkey,
      foldMerge_retry_ge _ _ (candidateOf r) hcand,
      foldMerge_priority_ge _ _ (candidateOf r) hcand⟩

/-- C6 (amended): across every store operation, no row's accumulated
`retry_count` or `priority` is lost: each operation leaves a row — at the
same URL for per-row operations, at the URL's canonical key for
`normalize_existing_urls` — whose `retry_count` and `priority` are at least
the old row's.  `add_urls_to_db` assumes the table's primary-key invariant
(distinct URLs); `quarantine_suspect_outputs` clamps `retry_count` to
`MAX_RETRIES`, so its row is covered for rows at or below the cap. -/
theorem c6_retry_priority_never_lost :
    (∀ (items : List (String × Option Int)) (src : String) (now : Int)
       (db : List UrlRow) (r : UrlRow),
       (db.map (fun r => r.url)).Nodup → r ∈ db →
       ∃ r' ∈ (add_urls_to_db items src now db).1, r'.url = r.url ∧
         r.retry_count ≤ r'.retry_count ∧ r.priority ≤ r'.priority) ∧
    (∀ (now : Int) (n : Nat) (db : List UrlRow) (r : UrlRow), r ∈ db →
       ∃ r' ∈ (get_pending_chunk now n db).2, r'.url = r.url ∧
         r.retry_count ≤ r'.retry_count ∧ r.priority ≤ r'.priority) ∧
    (∀ (now : Int) (url : String) (st : Status) (inc : Bool)
       (db : List UrlRow) (r : UrlRow), r ∈ db →
       ∃ r' ∈ mark_status now url st inc db, r'.url = r.url ∧
         r.retry_count ≤ r'.retry_count ∧ r.priority ≤ r'.priority) ∧
    (∀ (now : Int) (url : String) (db : List UrlRow) (r : UrlRow), r ∈ db →
       ∃ r' ∈ handle_failure now url db, r'.url = r.url ∧
         r.retry_count ≤ r'.retry_count ∧ r.priority ≤ r'.priority) ∧
    (∀ (db : List UrlRow) (r : UrlRow), r ∈ db →
       ∃ r' ∈ normalize_existing_urls db, r'.url = canonKey r.url ∧
         r.retry_count ≤ r'.retry_count ∧ r.priority ≤ r'.priority) ∧
    (∀ (now : Int) (sus : List String) (db : List UrlRow) (r : UrlRow), r ∈ db →
       r.retry_count ≤ MAX_RETRIES →
       ∃ r' ∈ quarantine_suspect_outputs now sus db, r'.url = r.url ∧
         r.retry_count ≤ r'.retry_count ∧ r.priority ≤ r'.priority) := by
  refine ⟨?_, ?_, ?_, ?_, ?_, ?_⟩
  · intro items src now db r hn h
    exact add_urls_mono src now items (db, 0, 0) r hn h
  · intro now n db r h
    exact get_pending_chunk_mono now n h
  · intro now url st inc db r h
    exact mark_status_mono now url st inc h
  · intro now url db r h
    exact handle_failure_mono now url h
  · intro db r h
    exact normalize_mono db r h
  · intro now sus db r h hcap
    exact quarantine_mono now sus h hcap

/-- Rows of the C6 counterexample: the second row's canonicalization
collides onto the first row's URL key. -/
def c6row1 : UrlRow :=
  { url := "https://h/a/post-1", source_name := "s", status := Status.pending,
    discovered_at := 0, processed_at := none, retry_count := 1, priority := 9 }

def c6row2 : UrlRow :=
  { url := "https://h/a/post-1/latest", source_name := "s", status := Status.pending,
    discovered_at := 1, processed_at := none, retry_count := 0, priority := 1 }

/-- C6 counterexample: `normalize_existing_urls` re-keys
`https://h/a/post-1` (whose own canonical form is `https://h/a`) and hands
that key to the canonicalization of `https://h/a/post-1/latest`, so at the
fixed URL key `https://h/a/post-1` the stored `retry_count` drops from 1 to
0 and the stored `priority` drops from 9 to 1. -/
theorem c6_counterexample :
    ((normalize_existing_urls [c6row1, c6row2]).find?
        (fun r => r.url = "https://h/a/post-1")).map
        (fun r => (r.retry_count, r.priority)) = some (0, 1) ∧
    c6row1.url = "https://h/a/post-1" ∧ c6row1.retry_count = 1 ∧
    c6row1.priority = 9 := by
  decide

/-! ## C3 — counterexample to idempotence of `_canonicalize_url` -/

/-- C3 counterexample: the pagination-suffix regexes run once in a fixed
order, so stripping `/latest` can expose a `/post-<n>` suffix that only a
second application removes: `_canonicalize_url` is not idempotent. -/
theorem c3_counterexample :
    canonicalize_url (canonicalize_url "https://h/a/post-1/latest") ≠
      canonicalize_url "https://h/a/post-1/latest" ∧
    canonicalize_url "https://h/a/post-1/latest" = "https://h/a/post-1" ∧
    canonicalize_url "https://h/a/post-1" = "https://h/a" := by
  decide

/-! ## C3 — conditional idempotence of `_canonicalize_url`

The counterexamples above show `_canonicalize_url` is not idempotent; the
amended claim proves idempotence whenever the first output is stable under
the three mechanisms that break it: it carries no stray whitespace, its
path is fixed by the four pagination-suffix substitutions, and its path
holds no semicolon (so no params re-splitting happens).  Everything else —
percent-encoding round-trips, query re-parsing, re-parsing the assembled
URL, the tracking/page-key filters — is proved stable unconditionally. -/

/-- Characters `urlsplit` never removes (not tab / CR / LF). -/
def noU (c : Char) : Bool := !(c == '\t' || c == '\r' || c == '\n')

/-- Characters `quote_plus` may emit. -/
def qpOK (c : Char) : Bool := isSafeChar c || c == '+' || c == '%'

theorem safe_toNat_lt {c : Char} (h : isSafeChar c = true) : c.toNat < 128 := by
  unfold isSafeChar at h
  simp only [Bool.or_eq_true, beq_iff_eq] at h
  rcases h with ((((h | h) | h) | h) | h)
  · simp only [Char.isAlphanum, Char.isAlpha, Char.isDigit, Char.isUpper, Char.isLower,
      Bool.or_eq_true, Bool.and_eq_true, decide_eq_true_eq] at h
    rcases h with (⟨h1, h2⟩ | ⟨h1, h2⟩) | ⟨h1, h2⟩ <;>
    · first
      | (have a2 : c.val.toNat ≤ (90 : UInt32).toNat := h2
         have a3 : (90 : UInt32).toNat = 90 := rfl
         rw [a3] at a2; simp only [Char.toNat]; omega)
      | (have a2 : c.val.toNat ≤ (122 : UInt32).toNat := h2
         have a3 : (122 : UInt32).toNat = 122 := rfl
         rw [a3] at a2; simp only [Char.toNat]; omega)
      | (have a2 : c.val.toNat ≤ (57 : UInt32).toNat := h2
         have a3 : (57 : UInt32).toNat = 57 := rfl
         rw [a3] at a2; simp only [Char.toNat]; omega)
  all_goals (subst h; decide)

theorem qpOK_ne {c : Char} (h : qpOK c = true) {d : Char}
    (hd : qpOK d = false) : c ≠ d := by
  intro he; subst he; rw [h] at hd; cases hd

theorem char_toNat_lt (c : Char) : c.toNat < 1114112 := by
  have h := c.valid
  rcases h with h | ⟨h1, h2⟩
  · have : c.val.toNat < 55296 := h
    simp only [Char.toNat]
    omega
  · have : c.val.toNat < 1114112 := h2
    simp only [Char.toNat]
    omega

theorem utf8Encode_lt {c : Char} {b : Nat} (h : b ∈ utf8Encode c) : b < 256 := by
  have hv := char_toNat_lt c
  simp only [utf8Encode] at h
  split at h
  · simp only [List.mem_singleton] at h; omega
  · split at h
    · simp only [List.mem_cons, List.mem_singleton, List.not_mem_nil, or_false] at h
      rcases h with h | h <;> omega
    · split at h
      · simp only [List.mem_cons, List.mem_singleton, List.not_mem_nil, or_false] at h
        rcases h with h | h | h <;> omega
      · simp only [List.mem_cons, List.mem_singleton, List.not_mem_nil, or_false] at h
        rcases h with h | h | h | h <;> omega

theorem hexDigitUpper_safe {n : Nat} (h : n < 16) :
    isSafeChar (hexDigitUpper n) = true := by
  interval_cases n <;> decide

theorem hexVal_hexDigitUpper {n : Nat} (h : n < 16) :
    hexVal (hexDigitUpper n) = some n := by
  interval_cases n <;> decide

theorem mem_catMap {f : α → List β} {l : List α} {c : β} (h : c ∈ catMap f l) :
    ∃ a ∈ l, c ∈ f a := by
  induction l with
  | nil => cases h
  | cons a l ih =>
    unfold catMap at h
    rcases List.mem_append.mp h with h | h
    · exact ⟨a, List.mem_cons_self a l, h⟩
    · rcases ih h with ⟨a2, ha2, hc⟩
      exact ⟨a2, List.mem_cons_of_mem a ha2, hc⟩

theorem pctEncByte_chars {b : Nat} (hb : b < 256) :
    ∀ c ∈ pctEncByte b, qpOK c = true := by
  intro c hc
  unfold pctEncByte at hc
  simp only [List.mem_cons, List.mem_singleton, List.not_mem_nil, or_false] at hc
  rcases hc with rfl | rfl | rfl
  · decide
  · simp [qpOK, hexDigitUpper_safe (show b / 16 < 16 by omega)]
  · simp [qpOK, hexDigitUpper_safe (show b % 16 < 16 by omega)]

theorem qp_chars {s : List Char} : ∀ c ∈ quote_plus s, qpOK c = true := by
  induction s with
  | nil => intro c hc; cases hc
  | cons a s ih =>
    intro c hc
    unfold quote_plus catMap at hc
    rcases List.mem_append.mp hc with h | h
    · by_cases hs : isSafeChar a = true
      · rw [if_pos hs] at h
        rcases List.mem_singleton.mp h with rfl
        simp [qpOK, hs]
      · rw [if_neg hs] at h
        by_cases hsp : a = ' '
        · rw [if_pos hsp] at h
          rcases List.mem_singleton.mp h with rfl
          decide
        · rw [if_neg hsp] at h
          rcases mem_catMap h with ⟨b, hb, hcb⟩
          exact pctEncByte_chars (utf8Encode_lt hb) c hcb
    · exact ih c h

theorem urlencode_chars : ∀ (l : List (List Char × List Char)),
    ∀ c ∈ urlencode l, qpOK c = true ∨ c = '=' ∨ c = '&'
  | [] => by intro c hc; cases hc
  | [kv] => by
    intro c hc
    simp only [urlencode] at hc
    rcases List.mem_append.mp hc with h | h
    · exact Or.inl (qp_chars c h)
    · rcases List.mem_cons.mp h with rfl | h
      · exact Or.inr (Or.inl rfl)
      · exact Or.inl (qp_chars c h)
  | kv :: kv2 :: rest => by
    intro c hc
    simp only [urlencode] at hc
    rcases List.mem_append.mp hc with h | h
    · rcases List.mem_append.mp h with h | h
      · exact Or.inl (qp_chars c h)
      · rcases List.mem_cons.mp h with rfl | h
        · exact Or.inr (Or.inl rfl)
        · exact Or.inl (qp_chars c h)
    · rcases List.mem_cons.mp h with rfl | h
      · exact Or.inr (Or.inr rfl)
      · exact urlencode_chars (kv2 :: rest) c h

theorem safe_ne {c : Char} (h : isSafeChar c = true) {d : Char}
    (hd : isSafeChar d = false) : c ≠ d := by
  intro he; subst he; rw [h] at hd; cases hd

theorem utf8Decode_one {b : Nat} (bs : List Nat) (h : b < 128) :
    utf8Decode (b :: bs) = Char.ofNat b :: utf8Decode bs := by
  match bs with
  | [] =>
    conv_lhs => rw [utf8Decode]
    rw [if_pos h]
    rfl
  | [b2] =>
    conv_lhs => rw [utf8Decode]
    rw [if_pos h]
  | [b2, b3] =>
    conv_lhs => rw [utf8Decode]
    rw [if_pos h]
  | b2 :: b3 :: b4 :: rest =>
    conv_lhs => rw [utf8Decode]
    rw [if_pos h]

theorem utf8Decode_two {b1 b2 : Nat} (bs : List Nat) (h1 : 194 ≤ b1) (h1b : b1 < 224)
    (h2 : 128 ≤ b2) (h2b : b2 < 192) :
    utf8Decode (b1 :: b2 :: bs)
      = Char.ofNat ((b1 - 192) * 64 + (b2 - 128)) :: utf8Decode bs := by
  match bs with
  | [] =>
    conv_lhs => rw [utf8Decode]
    rw [if_neg (by omega), if_pos (by omega)]
    rfl
  | [b3] =>
    conv_lhs => rw [utf8Decode]
    rw [if_neg (by omega), if_pos (by omega)]
  | b3 :: b4 :: rest =>
    conv_lhs => rw [utf8Decode]
    rw [if_neg (by omega), if_pos (by omega)]

theorem utf8Decode_three {b1 b2 b3 : Nat} (bs : List Nat) (h1 : 224 ≤ b1) (h1b : b1 < 240)
    (h2 : 128 ≤ b2) (h2b : b2 < 192) (h3 : 128 ≤ b3) (h3b : b3 < 192) :
    utf8Decode (b1 :: b2 :: b3 :: bs)
      = Char.ofNat ((b1 - 224) * 4096 + (b2 - 128) * 64 + (b3 - 128)) :: utf8Decode bs := by
  match bs with
  | [] =>
    conv_lhs => rw [utf8Decode]
    rw [if_neg (by omega), if_neg (by omega), if_pos (by omega)]
    rfl
  | b4 :: rest =>
    conv_lhs => rw [utf8Decode]
    rw [if_neg (by omega), if_neg (by omega), if_pos (by omega)]

theorem utf8Decode_four {b1 b2 b3 b4 : Nat} (bs : List Nat) (h1 : 240 ≤ b1) (h1b : b1 < 245)
    (h2 : 128 ≤ b2) (h2b : b2 < 192) (h3 : 128 ≤ b3) (h3b : b3 < 192)
    (h4 : 128 ≤ b4) (h4b : b4 < 192) :
    utf8Decode (b1 :: b2 :: b3 :: b4 :: bs)
      = Char.ofNat ((b1 - 240) * 262144 + (b2 - 128) * 4096 + (b3 - 128) * 64 + (b4 - 128)) ::
          utf8Decode bs := by
  conv_lhs => rw [utf8Decode]
  rw [if_neg (by omega), if_neg (by omega), if_neg (by omega), if_pos (by omega)]

theorem utf8Decode_encode (c : Char) (bs : List Nat) :
    utf8Decode (utf8Encode c ++ bs) = c :: utf8Decode bs := by
  have hv := char_toNat_lt c
  by_cases h1 : c.toNat < 128
  · have he : utf8Encode c = [c.toNat] := by simp [utf8Encode, h1]
    rw [he, List.singleton_append, utf8Decode_one bs h1, Char.ofNat_toNat]
  · by_cases h2 : c.toNat < 2048
    · have he : utf8Encode c = [192 + c.toNat / 64, 128 + c.toNat % 64] := by
        simp [utf8Encode, h1, h2]
      rw [he]
      show utf8Decode ((192 + c.toNat / 64) :: (128 + c.toNat % 64) :: bs)
        = c :: utf8Decode bs
      rw [utf8Decode_two bs (by omega) (by omega) (by omega) (by omega)]
      have harg : (192 + c.toNat / 64 - 192) * 64 + (128 + c.toNat % 64 - 128)
          = c.toNat := by omega
      rw [harg, Char.ofNat_toNat]
    · by_cases h3 : c.toNat < 65536
      · have he : utf8Encode c
            = [224 + c.toNat / 4096, 128 + c.toNat / 64 % 64, 128 + c.toNat % 64] := by
          simp [utf8Encode, h1, h2, h3]
        rw [he]
        show utf8Decode ((224 + c.toNat / 4096) :: (128 + c.toNat / 64 % 64) ::
            (128 + c.toNat % 64) :: bs) = c :: utf8Decode bs
        rw [utf8Decode_three bs (by omega) (by omega) (by omega) (by omega)
          (by omega) (by omega)]
        have harg : (224 + c.toNat / 4096 - 224) * 4096
            + (128 + c.toNat / 64 % 64 - 128) * 64 + (128 + c.toNat % 64 - 128)
            = c.toNat := by omega
        rw [harg, Char.ofNat_toNat]
      · have he : utf8Encode c
            = [240 + c.toNat / 262144, 128 + c.toNat / 4096 % 64,
               128 + c.toNat / 64 % 64, 128 + c.toNat % 64] := by
          simp [utf8Encode, h1, h2, h3]
        rw [he]
        show utf8Decode ((240 + c.toNat / 262144) :: (128 + c.toNat / 4096 % 64) ::
            (128 + c.toNat / 64 % 64) :: (128 + c.toNat % 64) :: bs)
          = c :: utf8Decode bs
        rw [utf8Decode_four bs (by omega) (by omega) (by omega) (by omega)
          (by omega) (by omega) (by omega) (by omega)]
        have harg : (240 + c.toNat / 262144 - 240) * 262144
            + (128 + c.toNat / 4096 % 64 - 128) * 4096
            + (128 + c.toNat / 64 % 64 - 128) * 64 + (128 + c.toNat % 64 - 128)
            = c.toNat := by omega
        rw [harg, Char.ofNat_toNat]

theorem utf8Decode_catMap (s : List Char) :
    utf8Decode (catMap utf8Encode s) = s := by
  induction s with
  | nil => rfl
  | cons a s ih =>
    show utf8Decode (utf8Encode a ++ catMap utf8Encode s) = a :: s
    rw [utf8Decode_encode, ih]

theorem plusToSpace_append (a b : List Char) :
    plusToSpace (a ++ b) = plusToSpace a ++ plusToSpace b := List.map_append _ a b

theorem plusToSpace_pct {b : Nat} (hb : b < 256) :
    plusToSpace (pctEncByte b) = pctEncByte b := by
  unfold plusToSpace pctEncByte
  simp only [List.map_cons, List.map_nil]
  rw [if_neg (by decide),
    if_neg (safe_ne (hexDigitUpper_safe (show b / 16 < 16 by omega)) (by decide)),
    if_neg (safe_ne (hexDigitUpper_safe (show b % 16 < 16 by omega)) (by decide))]

theorem plusToSpace_catMap_pct {bs : List Nat} (h : ∀ b ∈ bs, b < 256) :
    plusToSpace (catMap pctEncByte bs) = catMap pctEncByte bs := by
  induction bs with
  | nil => rfl
  | cons b bs ih =>
    show plusToSpace (pctEncByte b ++ catMap pctEncByte bs) = _
    rw [plusToSpace_append, plusToSpace_pct (h b (List.mem_cons_self b bs)),
      ih (fun x hx => h x (List.mem_cons_of_mem b hx))]
    rfl

theorem unquoteAux_ascii {c : Char} (rest : List Char) (acc : List Nat)
    (hpc : ¬ c = '%') (ha : c.toNat < 128) :
    unquoteAux (c :: rest) acc = unquoteAux rest (c.toNat :: acc) := by
  match rest with
  | [] =>
    rw [unquoteAux.eq_3 acc c [] (by intro _ _ _ h; cases h), if_neg hpc, if_pos ha]
  | [c1] =>
    rw [unquoteAux.eq_3 acc c [c1] (by intro _ _ _ h; simp at h), if_neg hpc, if_pos ha]
  | c1 :: c2 :: rest2 =>
    rw [unquoteAux.eq_2, if_neg hpc, if_pos ha]

theorem unquoteAux_pcthex {c1 c2 : Char} {h1 h2 : Nat} (rest : List Char) (acc : List Nat)
    (hv1 : hexVal c1 = some h1) (hv2 : hexVal c2 = some h2) :
    unquoteAux ('%' :: c1 :: c2 :: rest) acc = unquoteAux rest ((16 * h1 + h2) :: acc) := by
  rw [unquoteAux.eq_2, if_pos rfl, hv1, hv2]

theorem unquoteAux_pct (bs : List Nat) (t : List Char) (acc : List Nat)
    (h : ∀ b ∈ bs, b < 256) :
    unquoteAux (catMap pctEncByte bs ++ t) acc = unquoteAux t (bs.reverse ++ acc) := by
  induction bs generalizing acc with
  | nil => rfl
  | cons b bs ih =>
    have hb : b < 256 := h b (List.mem_cons_self b bs)
    show unquoteAux ((pctEncByte b ++ catMap pctEncByte bs) ++ t) acc = _
    rw [List.append_assoc]
    show unquoteAux ('%' :: hexDigitUpper (b / 16) :: hexDigitUpper (b % 16) ::
        (catMap pctEncByte bs ++ t)) acc = _
    rw [unquoteAux_pcthex _ _ (hexVal_hexDigitUpper (show b / 16 < 16 by omega))
      (hexVal_hexDigitUpper (show b % 16 < 16 by omega))]
    have harg : 16 * (b / 16) + b % 16 = b := by omega
    rw [harg, ih (b :: acc) (fun x hx => h x (List.mem_cons_of_mem b hx)),
      List.reverse_cons, List.append_assoc]
    rfl

theorem unquoteAux_qp (s : List Char) (acc : List Nat) :
    unquoteAux (plusToSpace (quote_plus s)) acc
      = utf8Decode (acc.reverse ++ catMap utf8Encode s) := by
  induction s generalizing acc with
  | nil =>
    show unquoteAux [] acc = utf8Decode (acc.reverse ++ [])
    rw [List.append_nil]
    rfl
  | cons a s ih =>
    have hstep : quote_plus (a :: s)
        = (if isSafeChar a = true then [a]
           else if a = ' ' then ['+']
           else catMap pctEncByte (utf8Encode a)) ++ quote_plus s := rfl
    by_cases hs : isSafeChar a = true
    · rw [hstep, if_pos hs, List.singleton_append]
      have hna : ¬ a = '+' := safe_ne hs (by decide)
      have hnp : ¬ a = '%' := safe_ne hs (by decide)
      show unquoteAux ((if a = '+' then ' ' else a) :: plusToSpace (quote_plus s)) acc = _
      rw [if_neg hna, unquoteAux_ascii _ _ hnp (safe_toNat_lt hs), ih (a.toNat :: acc)]
      have henc : utf8Encode a = [a.toNat] := by
        simp [utf8Encode, safe_toNat_lt hs]
      have hcm : catMap utf8Encode (a :: s) = utf8Encode a ++ catMap utf8Encode s := rfl
      rw [hcm, henc]
      congr 1
      rw [List.reverse_cons, List.append_assoc]
    · by_cases hsp : a = ' '
      · subst hsp
        rw [hstep, if_neg hs, if_pos rfl, List.singleton_append]
        show unquoteAux ((if '+' = '+' then ' ' else '+') :: plusToSpace (quote_plus s)) acc = _
        rw [if_pos rfl, unquoteAux_ascii _ _ (by decide) (by decide),
          ih ((' ').toNat :: acc)]
        have hcm : catMap utf8Encode (' ' :: s)
            = utf8Encode ' ' ++ catMap utf8Encode s := rfl
        have henc : utf8Encode ' ' = [(' ').toNat] := by decide
        rw [hcm, henc]
        congr 1
        rw [List.reverse_cons, List.append_assoc]
      · rw [hstep, if_neg hs, if_neg hsp, plusToSpace_append,
          plusToSpace_catMap_pct (fun b hb => utf8Encode_lt hb),
          unquoteAux_pct _ _ _ (fun b hb => utf8Encode_lt hb),
          ih ((utf8Encode a).reverse ++ acc)]
        have hcm : catMap utf8Encode (a :: s)
            = utf8Encode a ++ catMap utf8Encode s := rfl
        rw [hcm]
        congr 1
        rw [List.reverse_append, List.reverse_reverse, List.append_assoc]

theorem unq_ptS_qp (s : List Char) : unquote (plusToSpace (quote_plus s)) = s := by
  unfold unquote
  rw [unquoteAux_qp]
  show utf8Decode ([] ++ catMap utf8Encode s) = s
  rw [List.nil_append, utf8Decode_catMap]

theorem splitOnSep_no (sep : Char) (A : List Char) (h : ∀ c ∈ A, ¬ c = sep) :
    splitOnSep sep A = [A] := by
  induction A with
  | nil => rfl
  | cons c rest ih =>
    unfold splitOnSep
    rw [if_neg (h c (List.mem_cons_self c rest)),
      ih (fun x hx => h x (List.mem_cons_of_mem c hx))]

theorem splitOnSep_append (sep : Char) (A B : List Char) (h : ∀ c ∈ A, ¬ c = sep) :
    splitOnSep sep (A ++ sep :: B) = A :: splitOnSep sep B := by
  induction A with
  | nil =>
    show splitOnSep sep (sep :: B) = [] :: splitOnSep sep B
    conv_lhs => unfold splitOnSep
    rw [if_pos rfl]
  | cons c rest ih =>
    show splitOnSep sep (c :: (rest ++ sep :: B)) = _
    conv_lhs => unfold splitOnSep
    rw [if_neg (h c (List.mem_cons_self c rest)),
      ih (fun x hx => h x (List.mem_cons_of_mem c hx))]

theorem splitEq_append (A B : List Char) (h : ∀ c ∈ A, ¬ c = '=') :
    splitEq (A ++ '=' :: B) = (A, B) := by
  induction A with
  | nil =>
    show splitEq ('=' :: B) = ([], B)
    unfold splitEq
    rw [if_pos rfl]
  | cons c rest ih =>
    show splitEq (c :: (rest ++ '=' :: B)) = _
    unfold splitEq
    rw [if_neg (h c (List.mem_cons_self c rest)),
      ih (fun x hx => h x (List.mem_cons_of_mem c hx))]

theorem qp_ne_amp {k : List Char} : ∀ c ∈ quote_plus k, ¬ c = '&' :=
  fun c hc => qpOK_ne (qp_chars c hc) (by decide)

theorem qp_ne_eqs {k : List Char} : ∀ c ∈ quote_plus k, ¬ c = '=' :=
  fun c hc => qpOK_ne (qp_chars c hc) (by decide)

theorem parse_qsl_single (k v : List Char) :
    parse_qsl (quote_plus k ++ '=' :: quote_plus v) = [(k, v)] := by
  unfold parse_qsl
  rw [splitOnSep_no '&' _ (by
    intro c hc
    rcases List.mem_append.mp hc with h | h
    · exact qp_ne_amp c h
    · rcases List.mem_cons.mp h with rfl | h
      · decide
      · exact qp_ne_amp c h)]
  rw [List.filterMap_cons, List.filterMap_nil]
  dsimp only
  rw [if_neg (by simp), splitEq_append _ _ qp_ne_eqs, unq_ptS_qp, unq_ptS_qp]

theorem parse_qsl_urlencode : ∀ (l : List (List Char × List Char)),
    parse_qsl (urlencode l) = l
  | [] => rfl
  | [kv] => by
    simp only [urlencode]
    exact parse_qsl_single kv.1 kv.2
  | kv :: kv2 :: rest => by
    simp only [urlencode]
    unfold parse_qsl
    rw [splitOnSep_append '&' _ _ (by
      intro c hc
      rcases List.mem_append.mp hc with h | h
      · exact qp_ne_amp c h
      · rcases List.mem_cons.mp h with rfl | h
        · decide
        · exact qp_ne_amp c h)]
    rw [List.filterMap_cons]
    dsimp only
    rw [if_neg (by simp), splitEq_append _ _ qp_ne_eqs, unq_ptS_qp, unq_ptS_qp]
    have hr := parse_qsl_urlencode (kv2 :: rest)
    unfold parse_qsl at hr
    rw [hr]

theorem spanNot_cons_pos {p : Char → Bool} {c : Char} (t : List Char) (h : p c = true) :
    spanNot p (c :: t) = ([], c :: t) := by
  conv_lhs => unfold spanNot
  rw [if_pos h]

theorem spanNot_cons_neg {p : Char → Bool} {c : Char} (t : List Char) (h : p c = false) :
    spanNot p (c :: t) = (c :: (spanNot p t).1, (spanNot p t).2) := by
  conv_lhs => unfold spanNot
  rw [if_neg (by simp [h])]

theorem spanNot_eq_append (p : Char → Bool) (l : List Char) :
    (spanNot p l).1 ++ (spanNot p l).2 = l := by
  induction l with
  | nil => rfl
  | cons c rest ih =>
    cases hpc : p c
    · rw [spanNot_cons_neg rest hpc]
      show c :: ((spanNot p rest).1 ++ (spanNot p rest).2) = c :: rest
      rw [ih]
    · rw [spanNot_cons_pos rest hpc]
      rfl

theorem spanNot_fst_all (p : Char → Bool) (l : List Char) :
    ∀ c ∈ (spanNot p l).1, p c = false := by
  induction l with
  | nil => intro c hc; cases hc
  | cons a rest ih =>
    intro c hc
    cases hpa : p a
    · rw [spanNot_cons_neg rest hpa] at hc
      rcases List.mem_cons.mp hc with rfl | hc2
      · exact hpa
      · exact ih c hc2
    · rw [spanNot_cons_pos rest hpa] at hc
      cases hc

theorem spanNot_snd_shape (p : Char → Bool) (l : List Char) :
    (spanNot p l).2 = [] ∨ ∃ c t, (spanNot p l).2 = c :: t ∧ p c = true := by
  induction l with
  | nil => left; rfl
  | cons a rest ih =>
    cases hpa : p a
    · rw [spanNot_cons_neg rest hpa]
      exact ih
    · rw [spanNot_cons_pos rest hpa]
      exact Or.inr ⟨a, rest, rfl, hpa⟩

theorem spanNot_append_all (p : Char → Bool) (A B : List Char)
    (h : ∀ c ∈ A, p c = false) :
    spanNot p (A ++ B) = (A ++ (spanNot p B).1, (spanNot p B).2) := by
  induction A with
  | nil => simp
  | cons a rest ih =>
    show spanNot p (a :: (rest ++ B)) = _
    rw [spanNot_cons_neg _ (h a (List.mem_cons_self a rest)),
      ih (fun x hx => h x (List.mem_cons_of_mem a hx))]
    rfl

theorem spanNot_fst_mem {p : Char → Bool} {l : List Char} {c : Char}
    (h : c ∈ (spanNot p l).1) : c ∈ l := by
  rw [← spanNot_eq_append p l]
  exact List.mem_append_left _ h

theorem spanNot_snd_mem {p : Char → Bool} {l : List Char} {c : Char}
    (h : c ∈ (spanNot p l).2) : c ∈ l := by
  rw [← spanNot_eq_append p l]
  exact List.mem_append_right _ h

theorem spanNot_all_none (p : Char → Bool) (A : List Char)
    (h : ∀ c ∈ A, p c = false) : spanNot p A = (A, []) := by
  have h2 := spanNot_append_all p A [] h
  have h0 : spanNot p ([] : List Char) = ([], []) := rfl
  rw [h0, List.append_nil] at h2
  simpa using h2

theorem splitAtFirst_eq (x : Char) (l : List Char) :
    splitAtFirst x l
      = ((spanNot (fun c => c = x) l).1, (spanNot (fun c => c = x) l).2.tail) := by
  unfold splitAtFirst
  dsimp only
  rcases hsp : (spanNot (fun c => decide (c = x)) l).2 with _ | ⟨d, t⟩ <;> rfl

theorem splitAtFirst_append (x : Char) (A B : List Char) (h : ∀ c ∈ A, ¬ c = x) :
    splitAtFirst x (A ++ x :: B) = (A, B) := by
  rw [splitAtFirst_eq,
    spanNot_append_all _ _ _ (by intro c hc; simp [h c hc]),
    spanNot_cons_pos _ (by simp)]
  simp

theorem splitAtFirst_no (x : Char) (A : List Char) (h : ∀ c ∈ A, ¬ c = x) :
    splitAtFirst x A = (A, []) := by
  rw [splitAtFirst_eq, spanNot_all_none _ _ (by intro c hc; simp [h c hc])]
  rfl

theorem splitAtFirst_fst_mem {x : Char} {l : List Char} {c : Char}
    (h : c ∈ (splitAtFirst x l).1) : c ∈ l := by
  rw [splitAtFirst_eq] at h
  exact spanNot_fst_mem h

theorem splitAtFirst_snd_mem {x : Char} {l : List Char} {c : Char}
    (h : c ∈ (splitAtFirst x l).2) : c ∈ l := by
  rw [splitAtFirst_eq] at h
  exact spanNot_snd_mem (List.mem_of_mem_tail h)

theorem splitAtFirst_fst_all (x : Char) (l : List Char) :
    ∀ c ∈ (splitAtFirst x l).1, ¬ c = x := by
  intro c hc
  rw [splitAtFirst_eq] at hc
  have := spanNot_fst_all (fun c => c = x) l c hc
  simpa using this

theorem splitAtFirst_cons_ne (x c : Char) (t : List Char) (h : ¬ c = x) :
    splitAtFirst x (c :: t)
      = (c :: (splitAtFirst x t).1, (splitAtFirst x t).2) := by
  rw [splitAtFirst_eq, splitAtFirst_eq, spanNot_cons_neg _ (by simp [h])]

theorem mem_removeUnsafe_noU {l : List Char} {c : Char} (h : c ∈ removeUnsafe l) :
    noU c = true :=
  List.of_mem_filter h

theorem removeUnsafe_all {l : List Char} (h : ∀ c ∈ l, noU c = true) :
    removeUnsafe l = l :=
  List.filter_eq_self.mpr h

theorem removeUnsafe_sub {l : List Char} {c : Char} (h : c ∈ removeUnsafe l) : c ∈ l :=
  List.mem_of_mem_filter h

theorem splitScheme_http (T : List Char) :
    splitScheme ("http".toList ++ ':' :: T) = ("http".toList, T) := by
  show splitScheme ('h' :: 't' :: 't' :: 'p' :: ':' :: T) = ('h' :: 't' :: 't' :: 'p' :: [], T)
  unfold splitScheme
  rw [spanNot_cons_neg _ (by decide), spanNot_cons_neg _ (by decide),
    spanNot_cons_neg _ (by decide), spanNot_cons_neg _ (by decide),
    spanNot_cons_pos _ (by decide)]
  rfl

theorem splitScheme_https (T : List Char) :
    splitScheme ("https".toList ++ ':' :: T) = ("https".toList, T) := by
  show splitScheme ('h' :: 't' :: 't' :: 'p' :: 's' :: ':' :: T)
    = ('h' :: 't' :: 't' :: 'p' :: 's' :: [], T)
  unfold splitScheme
  rw [spanNot_cons_neg _ (by decide), spanNot_cons_neg _ (by decide),
    spanNot_cons_neg _ (by decide), spanNot_cons_neg _ (by decide),
    spanNot_cons_neg _ (by decide), spanNot_cons_pos _ (by decide)]
  rfl

theorem splitAtFirst_cons_eq (x : Char) (t : List Char) :
    splitAtFirst x (x :: t) = ([], t) := by
  rw [splitAtFirst_eq, spanNot_cons_pos _ (by simp)]
  rfl

theorem splitScheme_snd_cases (l : List Char) :
    (splitScheme l).2 = l ∨
      ∃ d t, (spanNot (fun c => c = ':') l).2 = d :: t ∧ (splitScheme l).2 = t := by
  unfold splitScheme
  dsimp only
  rcases hsp : (spanNot (fun c => decide (c = ':')) l).2 with _ | ⟨d, t⟩
  · left; rfl
  · rcases hs1 : (spanNot (fun c => decide (c = ':')) l).1 with _ | ⟨c0, rest⟩
    · left; rfl
    · dsimp only
      by_cases hcond : (c0.isAlpha && rest.all isSchemeChar) = true
      · rw [if_pos hcond]
        right
        exact ⟨d, t, rfl, rfl⟩
      · rw [if_neg hcond]
        left
        rfl

theorem splitScheme_snd_mem {l : List Char} {c : Char}
    (h : c ∈ (splitScheme l).2) : c ∈ l := by
  rcases splitScheme_snd_cases l with h1 | ⟨d, t, hsp, h1⟩
  · rw [h1] at h
    exact h
  · rw [h1] at h
    refine spanNot_snd_mem (p := fun c => c = ':') (l := l) ?_
    rw [hsp]
    exact List.mem_cons_of_mem d h

theorem urlsplit_eq (u : List Char) :
    urlsplit u =
      ⟨(splitScheme (removeUnsafe u)).1,
       (if startsWithL "//".toList (splitScheme (removeUnsafe u)).2 = true then
          ((spanNot isNetlocStop ((splitScheme (removeUnsafe u)).2.drop 2)).1,
           (spanNot isNetlocStop ((splitScheme (removeUnsafe u)).2.drop 2)).2)
        else ([], (splitScheme (removeUnsafe u)).2)).1,
       (splitAtFirst '?' (splitAtFirst '#'
         (if startsWithL "//".toList (splitScheme (removeUnsafe u)).2 = true then
            ((spanNot isNetlocStop ((splitScheme (removeUnsafe u)).2.drop 2)).1,
             (spanNot isNetlocStop ((splitScheme (removeUnsafe u)).2.drop 2)).2)
          else ([], (splitScheme (removeUnsafe u)).2)).2).1).1,
       (splitAtFirst '?' (splitAtFirst '#'
         (if startsWithL "//".toList (splitScheme (removeUnsafe u)).2 = true then
            ((spanNot isNetlocStop ((splitScheme (removeUnsafe u)).2.drop 2)).1,
             (spanNot isNetlocStop ((splitScheme (removeUnsafe u)).2.drop 2)).2)
          else ([], (splitScheme (removeUnsafe u)).2)).2).1).2,
       (splitAtFirst '#'
         (if startsWithL "//".toList (splitScheme (removeUnsafe u)).2 = true then
            ((spanNot isNetlocStop ((splitScheme (removeUnsafe u)).2.drop 2)).1,
             (spanNot isNetlocStop ((splitScheme (removeUnsafe u)).2.drop 2)).2)
          else ([], (splitScheme (removeUnsafe u)).2)).2).2⟩ := rfl

theorem urlsplit_netloc_stopfree (u : List Char) :
    ∀ c ∈ (urlsplit u).netloc, isNetlocStop c = false := by
  intro c hc
  rw [urlsplit_eq] at hc
  dsimp only at hc
  by_cases hss : startsWithL "//".toList (splitScheme (removeUnsafe u)).2 = true
  · rw [if_pos hss] at hc
    exact spanNot_fst_all _ _ c hc
  · rw [if_neg hss] at hc
    cases hc

theorem urlsplit_netloc_mem (u : List Char) :
    ∀ c ∈ (urlsplit u).netloc, c ∈ removeUnsafe u := by
  intro c hc
  rw [urlsplit_eq] at hc
  dsimp only at hc
  by_cases hss : startsWithL "//".toList (splitScheme (removeUnsafe u)).2 = true
  · rw [if_pos hss] at hc
    exact splitScheme_snd_mem (List.drop_subset 2 _ (spanNot_fst_mem hc))
  · rw [if_neg hss] at hc
    cases hc

theorem urlsplit_path_mem (u : List Char) :
    ∀ c ∈ (urlsplit u).path, c ∈ removeUnsafe u := by
  intro c hc
  rw [urlsplit_eq] at hc
  dsimp only at hc
  by_cases hss : startsWithL "//".toList (splitScheme (removeUnsafe u)).2 = true
  · rw [if_pos hss] at hc
    exact splitScheme_snd_mem (List.drop_subset 2 _
      (spanNot_snd_mem (splitAtFirst_fst_mem (splitAtFirst_fst_mem hc))))
  · rw [if_neg hss] at hc
    exact splitScheme_snd_mem (splitAtFirst_fst_mem (splitAtFirst_fst_mem hc))

theorem urlsplit_path_noq (u : List Char) :
    ∀ c ∈ (urlsplit u).path, ¬ c = '?' := by
  intro c hc
  rw [urlsplit_eq] at hc
  dsimp only at hc
  exact splitAtFirst_fst_all '?' _ c hc

theorem urlsplit_path_nohash (u : List Char) :
    ∀ c ∈ (urlsplit u).path, ¬ c = '#' := by
  intro c hc
  rw [urlsplit_eq] at hc
  dsimp only at hc
  exact splitAtFirst_fst_all '#' _ c (splitAtFirst_fst_mem hc)

theorem urlsplit_path_shape (u : List Char) (hn : (urlsplit u).netloc ≠ []) :
    (urlsplit u).path = [] ∨ ∃ t, (urlsplit u).path = '/' :: t := by
  by_cases hss : startsWithL "//".toList (splitScheme (removeUnsafe u)).2 = true
  · have hpath : (urlsplit u).path
        = (splitAtFirst '?' (splitAtFirst '#'
            (spanNot isNetlocStop ((splitScheme (removeUnsafe u)).2.drop 2)).2).1).1 := by
      rw [urlsplit_eq]
      dsimp only
      rw [if_pos hss]
    rcases spanNot_snd_shape isNetlocStop ((splitScheme (removeUnsafe u)).2.drop 2)
      with hB | ⟨d, t, hB, hd⟩
    · rw [hpath, hB]
      left
      rfl
    · have hd3 : d = '/' ∨ d = '?' ∨ d = '#' := by
        unfold isNetlocStop at hd
        simp only [Bool.or_eq_true, beq_iff_eq] at hd
        tauto
      rcases hd3 with rfl | rfl | rfl
      · rw [hpath, hB, splitAtFirst_cons_ne _ _ _ (by decide),
          splitAtFirst_cons_ne _ _ _ (by decide)]
        exact Or.inr ⟨_, rfl⟩
      · rw [hpath, hB, splitAtFirst_cons_ne _ _ _ (by decide)]
        rw [show splitAtFirst '?' ('?' :: (splitAtFirst '#' t).1)
            = ([], (splitAtFirst '#' t).1) from splitAtFirst_cons_eq '?' _]
        left
        rfl
      · rw [hpath, hB, splitAtFirst_cons_eq]
        left
        rfl
  · exfalso
    apply hn
    rw [urlsplit_eq]
    dsimp only
    rw [if_neg hss]

theorem startsWith_slashes (R : List Char) :
    startsWithL "//".toList ('/' :: '/' :: R) = true := by
  show startsWithL ('/' :: '/' :: []) ('/' :: '/' :: R) = true
  simp [startsWithL]

theorem urlsplit_recover (S N P Q : List Char)
    (hS : S = "http".toList ∨ S = "https".toList)
    (hNs : ∀ c ∈ N, isNetlocStop c = false)
    (hNu : ∀ c ∈ N, noU c = true)
    (hP : P = [] ∨ ∃ t, P = '/' :: t)
    (hPh : ∀ c ∈ P, ¬ c = '#')
    (hPq : ∀ c ∈ P, ¬ c = '?')
    (hPu : ∀ c ∈ P, noU c = true)
    (hQh : ∀ c ∈ Q, ¬ c = '#')
    (hQu : ∀ c ∈ Q, noU c = true) :
    urlsplit (S ++ ':' :: '/' :: '/' :: (N ++ P ++ (if Q = [] then [] else '?' :: Q)))
      = ⟨S, N, P, Q, []⟩ := by
  have hSchars : ∀ c ∈ S, noU c = true ∧ ¬ c = ':' := by
    rcases hS with rfl | rfl <;> decide
  have hQoptu : ∀ c ∈ (if Q = [] then [] else '?' :: Q), noU c = true := by
    by_cases hq : Q = []
    · rw [if_pos hq]
      intro c hc
      cases hc
    · rw [if_neg hq]
      intro c hc
      rcases List.mem_cons.mp hc with rfl | hc2
      · decide
      · exact hQu c hc2
  have hyu : removeUnsafe
      (S ++ ':' :: '/' :: '/' :: (N ++ P ++ (if Q = [] then [] else '?' :: Q)))
      = S ++ ':' :: '/' :: '/' :: (N ++ P ++ (if Q = [] then [] else '?' :: Q)) := by
    apply removeUnsafe_all
    intro c hc
    rcases List.mem_append.mp hc with h | h
    · exact (hSchars c h).1
    · rcases List.mem_cons.mp h with rfl | h
      · decide
      · rcases List.mem_cons.mp h with rfl | h
        · decide
        · rcases List.mem_cons.mp h with rfl | h
          · decide
          · rcases List.mem_append.mp h with h | h
            · rcases List.mem_append.mp h with h | h
              · exact hNu c h
              · exact hPu c h
            · exact hQoptu c h
  have hsch : splitScheme
      (S ++ ':' :: '/' :: '/' :: (N ++ P ++ (if Q = [] then [] else '?' :: Q)))
      = (S, '/' :: '/' :: (N ++ P ++ (if Q = [] then [] else '?' :: Q))) := by
    rcases hS with rfl | rfl
    · exact splitScheme_http _
    · exact splitScheme_https _
  rw [urlsplit_eq, hyu, hsch]
  dsimp only
  rw [if_pos (startsWith_slashes _)]
  have hdrop : List.drop 2 ('/' :: '/' :: (N ++ P ++ (if Q = [] then [] else '?' :: Q)))
      = N ++ P ++ (if Q = [] then [] else '?' :: Q) := rfl
  rw [hdrop, List.append_assoc,
    spanNot_append_all isNetlocStop N (P ++ (if Q = [] then [] else '?' :: Q)) hNs]
  rcases hP with rfl | ⟨t, rfl⟩
  · by_cases hq : Q = []
    · subst hq
      rw [if_pos rfl]
      have h0 : spanNot isNetlocStop (([] : List Char) ++ []) = ([], []) := rfl
      rw [h0]
      simp
      exact ⟨rfl, rfl, rfl⟩
    · rw [if_neg hq]
      have h1 : ([] : List Char) ++ '?' :: Q = '?' :: Q := rfl
      rw [h1, spanNot_cons_pos _ (by decide)]
      rw [show splitAtFirst '#' ('?' :: Q) = ('?' :: Q, []) from splitAtFirst_no _ _ (by
        intro c hc
        rcases List.mem_cons.mp hc with rfl | hc2
        · decide
        · exact hQh c hc2)]
      rw [show splitAtFirst '?' ('?' :: Q) = ([], Q) from splitAtFirst_cons_eq '?' Q]
      simp
  · have h2 : ('/' :: t) ++ (if Q = [] then [] else '?' :: Q)
        = '/' :: (t ++ (if Q = [] then [] else '?' :: Q)) := rfl
    rw [h2, spanNot_cons_pos _ (by decide)]
    have hPQh : ∀ c ∈ '/' :: (t ++ (if Q = [] then [] else '?' :: Q)), ¬ c = '#' := by
      intro c hc
      rcases List.mem_cons.mp hc with rfl | hc2
      · decide
      · rcases List.mem_append.mp hc2 with h | h
        · exact hPh c (List.mem_cons_of_mem '/' h)
        · by_cases hq : Q = []
          · rw [if_pos hq] at h
            cases h
          · rw [if_neg hq] at h
            rcases List.mem_cons.mp h with rfl | h3
            · decide
            · exact hQh c h3
    rw [show splitAtFirst '#' ('/' :: (t ++ (if Q = [] then [] else '?' :: Q)))
        = ('/' :: (t ++ (if Q = [] then [] else '?' :: Q)), []) from
      splitAtFirst_no _ _ hPQh]
    by_cases hq : Q = []
    · subst hq
      rw [if_pos rfl]
      rw [show splitAtFirst '?' ('/' :: (t ++ ([] : List Char))) = ('/' :: (t ++ []), []) from
        splitAtFirst_no _ _ (by
          intro c hc
          rcases List.mem_cons.mp hc with rfl | hc2
          · decide
          · rw [List.append_nil] at hc2
            exact hPq c (List.mem_cons_of_mem '/' hc2))]
      simp
    · rw [if_neg hq]
      have h3 : '/' :: (t ++ '?' :: Q) = ('/' :: t) ++ '?' :: Q := rfl
      rw [h3, splitAtFirst_append '?' ('/' :: t) Q hPq]
      simp

theorem char_toNat_mk (n : Nat) (h : n.isValidChar) : (Char.ofNat n).toNat = n := by
  unfold Char.ofNat
  rw [dif_pos h]
  rfl

theorem rev_sfx_pfx {x p : List Char} (h : x <:+ p.reverse) : x.reverse <+: p := by
  rcases h with ⟨s, hs⟩
  refine ⟨s.reverse, ?_⟩
  have hp : p = (s ++ x).reverse := by rw [hs, List.reverse_reverse]
  rw [hp, List.reverse_append]

theorem subSuffixLitDigits_pfx (lit p : List Char) : subSuffixLitDigits lit p <+: p := by
  unfold subSuffixLitDigits
  dsimp only
  split <;> split
  all_goals first
    | exact List.prefix_refl _
    | (refine rev_sfx_pfx (List.IsSuffix.trans (List.drop_suffix _ _) ?_)
       refine List.IsSuffix.trans ⟨(spanNot _ _).1, spanNot_eq_append _ _⟩ ?_
       first
         | exact List.tail_suffix _
         | exact List.suffix_refl _)

theorem subSuffixLit_pfx (lit p : List Char) : subSuffixLit lit p <+: p := by
  unfold subSuffixLit
  dsimp only
  split <;> split
  all_goals first
    | exact List.prefix_refl _
    | (refine rev_sfx_pfx (List.IsSuffix.trans (List.drop_suffix _ _) ?_)
       first
         | exact List.tail_suffix _
         | exact List.suffix_refl _)

theorem rstripSlash_pfx (l : List Char) : rstripSlash l <+: l :=
  rev_sfx_pfx (List.dropWhile_suffix _)

theorem rstripSlash_idem (l : List Char) :
    rstripSlash (rstripSlash l) = rstripSlash l := by
  unfold rstripSlash
  rw [List.reverse_reverse, List.dropWhile_idempotent]

theorem splitParams_fst_pfx (p : List Char) : (splitParams p).1 <+: p := by
  unfold splitParams
  dsimp only
  split
  · set s1 := (spanNot (fun c => decide (c = '/')) p.reverse).1 with hs1
    set s2 := (spanNot (fun c => decide (c = '/')) p.reverse).2 with hs2
    set t1 := (spanNot (fun c => decide (c = ';')) s1.reverse).1 with ht1
    rcases hsp : (spanNot (fun c => decide (c = ';')) s1.reverse).2 with _ | ⟨d, aft⟩
    · dsimp only
      exact List.prefix_refl _
    · dsimp only
      refine ⟨d :: aft, ?_⟩
      have hF1 : s1 ++ s2 = p.reverse := spanNot_eq_append _ _
      have hF2 : t1 ++ (d :: aft) = s1.reverse := by
        rw [← hsp]
        exact spanNot_eq_append _ _
      conv_rhs => rw [← List.reverse_reverse p, ← hF1, List.reverse_append]
      rw [← hF2]
      simp [List.append_assoc]
  · rcases hsp : (spanNot (fun c => decide (c = ';')) p).2 with _ | ⟨d, aft⟩
    · dsimp only
      exact List.prefix_refl _
    · dsimp only
      refine ⟨d :: aft, ?_⟩
      rw [← hsp]
      exact spanNot_eq_append _ _

theorem splitParams_snd_mem (p : List Char) :
    ∀ c ∈ (splitParams p).2, c ∈ p := by
  intro c hc
  unfold splitParams at hc
  dsimp only at hc
  revert hc
  split
  · set s1 := (spanNot (fun c => decide (c = '/')) p.reverse).1 with hs1
    rcases hsp : (spanNot (fun c => decide (c = ';')) s1.reverse).2 with _ | ⟨d, aft⟩
    · dsimp only
      intro hc
      cases hc
    · dsimp only
      intro hc
      have h1 : c ∈ (spanNot (fun c => decide (c = ';')) s1.reverse).2 := by
        rw [hsp]
        exact List.mem_cons_of_mem d hc
      have h2 : c ∈ s1.reverse := spanNot_snd_mem h1
      have h3 : c ∈ p.reverse := spanNot_fst_mem (List.mem_reverse.mp h2)
      exact List.mem_reverse.mp h3
  · rcases hsp : (spanNot (fun c => decide (c = ';')) p).2 with _ | ⟨d, aft⟩
    · dsimp only
      intro hc
      cases hc
    · dsimp only
      intro hc
      refine spanNot_snd_mem (p := fun c => decide (c = ';')) (l := p) ?_
      rw [hsp]
      exact List.mem_cons_of_mem d hc

theorem pfx_mem {A B : List Char} (h : A <+: B) {c : Char} (hc : c ∈ A) : c ∈ B :=
  h.sublist.subset hc

theorem pfx_shape {A B : List Char} (h : A <+: B)
    (hB : B = [] ∨ ∃ t, B = '/' :: t) : A = [] ∨ ∃ t, A = '/' :: t := by
  rcases hB with rfl | ⟨t, rfl⟩
  · left
    exact List.prefix_nil.mp h
  · rcases A with _ | ⟨a, A2⟩
    · left
      rfl
    · right
      rcases h with ⟨s, hs⟩
      have hs2 : a :: (A2 ++ s) = '/' :: t := hs
      have ha : a = '/' := by injection hs2
      exact ⟨A2, by rw [ha]⟩

theorem startsWithL_append {pat A : List Char} (B : List Char)
    (h : startsWithL pat A = true) : startsWithL pat (A ++ B) = true := by
  induction pat generalizing A with
  | nil => rfl
  | cons x xs ih =>
    cases A with
    | nil => cases h
    | cons a A2 =>
      have h2 : (decide (x = a) && startsWithL xs A2) = true := h
      simp only [Bool.and_eq_true] at h2
      rcases h2 with ⟨hxa, h3⟩
      show (decide (x = a) && startsWithL xs (A2 ++ B)) = true
      rw [hxa, ih h3]
      rfl

theorem containsSub_nil_pat (l : List Char) : containsSub [] l = true := by
  cases l <;> rfl

theorem containsSub_append {pat A : List Char} (B : List Char)
    (h : containsSub pat A = true) : containsSub pat (A ++ B) = true := by
  induction A with
  | nil =>
    cases pat with
    | nil => exact containsSub_nil_pat B
    | cons x xs => cases h
  | cons a A2 ih =>
    have h2 : (startsWithL pat (a :: A2) || containsSub pat A2) = true := h
    show (startsWithL pat (a :: A2 ++ B) || containsSub pat (A2 ++ B)) = true
    simp only [Bool.or_eq_true] at h2
    rcases h2 with h3 | h3
    · rw [show a :: A2 ++ B = (a :: A2) ++ B from rfl, startsWithL_append B h3]
      rfl
    · rw [ih h3]
      simp

theorem threadsPathCond_pfx {A B : List Char} (h : A <+: B)
    (ht : threadsPathCond A = true) : threadsPathCond B = true := by
  rcases h with ⟨s, rfl⟩
  unfold threadsPathCond at ht ⊢
  simp only [Bool.or_eq_true] at ht ⊢
  rcases ht with (h1 | h1) | h1
  · exact Or.inl (Or.inl (containsSub_append s h1))
  · exact Or.inl (Or.inr (containsSub_append s h1))
  · exact Or.inr (containsSub_append s h1)

theorem lowerChar_idem (c : Char) : lowerChar (lowerChar c) = lowerChar c := by
  unfold lowerChar
  by_cases h : 65 ≤ c.toNat ∧ c.toNat ≤ 90
  · rw [if_pos h]
    have hv : (c.toNat + 32).isValidChar := by
      left
      show c.toNat + 32 < 55296
      omega
    rw [if_neg (by rw [char_toNat_mk _ hv]; omega)]
  · rw [if_neg h, if_neg h]

theorem toLowerList_idem (l : List Char) : toLowerList (toLowerList l) = toLowerList l := by
  unfold toLowerList
  rw [List.map_map]
  exact List.map_congr_left (fun c _ => lowerChar_idem c)


theorem lowerChar_ne_low {c : Char} {d : Char} (hc : 65 ≤ c.toNat ∧ c.toNat ≤ 90)
    (hd : d.toNat < 97 ∨ 122 < d.toNat) : ¬ (lowerChar c = d) := by
  unfold lowerChar
  rw [if_pos hc]
  intro he
  have hv : (c.toNat + 32).isValidChar := Or.inl (by omega)
  have ht := char_toNat_mk _ hv
  rw [he] at ht
  omega

theorem lowerChar_stopfree {c : Char} (h : isNetlocStop c = false) :
    isNetlocStop (lowerChar c) = false := by
  by_cases hc : 65 ≤ c.toNat ∧ c.toNat ≤ 90
  · have h1 := lowerChar_ne_low (d := '/') hc (by decide)
    have h2 := lowerChar_ne_low (d := '?') hc (by decide)
    have h3 := lowerChar_ne_low (d := '#') hc (by decide)
    unfold isNetlocStop
    simp [h1, h2, h3]
  · unfold lowerChar
    rw [if_neg hc]
    exact h

theorem lowerChar_noU2 {c : Char} (h : noU c = true) : noU (lowerChar c) = true := by
  by_cases hc : 65 ≤ c.toNat ∧ c.toNat ≤ 90
  · have h1 := lowerChar_ne_low (d := '\t') hc (by decide)
    have h2 := lowerChar_ne_low (d := '\r') hc (by decide)
    have h3 := lowerChar_ne_low (d := '\n') hc (by decide)
    unfold noU
    simp [h1, h2, h3]
  · unfold lowerChar
    rw [if_neg hc]
    exact h

theorem urlparse_eq (u : List Char) :
    urlparse u = ⟨(urlsplit u).scheme, (urlsplit u).netloc,
      (if (usesParams (urlsplit u).scheme && hasChar ';' (urlsplit u).path) = true then
        splitParams (urlsplit u).path else ((urlsplit u).path, [])).1,
      (if (usesParams (urlsplit u).scheme && hasChar ';' (urlsplit u).path) = true then
        splitParams (urlsplit u).path else ((urlsplit u).path, [])).2,
      (urlsplit u).query, (urlsplit u).fragment⟩ := rfl

theorem urlparse_path_pfx (u : List Char) : (urlparse u).path <+: (urlsplit u).path := by
  rw [urlparse_eq]
  try dsimp only
  split
  · exact splitParams_fst_pfx _
  · exact List.prefix_refl _

theorem urlparse_params_mem (u : List Char) :
    ∀ c ∈ (urlparse u).params, c ∈ (urlsplit u).path := by
  intro c hc
  rw [urlparse_eq] at hc
  try dsimp only at hc
  revert hc
  split
  · intro hc
    exact splitParams_snd_mem _ c hc
  · intro hc
    cases hc

theorem urlparse_of_no_semi (u : List Char) (h : hasChar ';' (urlsplit u).path = false) :
    urlparse u = ⟨(urlsplit u).scheme, (urlsplit u).netloc, (urlsplit u).path, [],
      (urlsplit u).query, (urlsplit u).fragment⟩ := by
  rw [urlparse_eq]
  try dsimp only
  rw [if_neg (by rw [h]; simp)]

/-- The path-with-params component `urlunparse` rebuilds. -/
def unpU0 (P5 PR : List Char) : List Char :=
  if PR ≠ [] then P5 ++ ';' :: PR else P5

/-- The netloc-suffix component of a `urlunparse` output. -/
def unpP (P5 PR : List Char) : List Char :=
  if unpU0 P5 PR ≠ [] ∧ ¬ startsWithL "/".toList (unpU0 P5 PR) = true
  then '/' :: unpU0 P5 PR else unpU0 P5 PR

theorem startsWith_slash_shape {l : List Char}
    (h : startsWithL "/".toList l = true) : ∃ t, l = '/' :: t := by
  cases l with
  | nil => cases h
  | cons c t =>
    have h2 : (decide ('/' = c) && startsWithL [] t) = true := h
    simp only [Bool.and_eq_true, decide_eq_true_eq] at h2
    exact ⟨t, by rw [← h2.1]⟩

theorem unpP_shape (P5 PR : List Char) :
    unpP P5 PR = [] ∨ ∃ t, unpP P5 PR = '/' :: t := by
  unfold unpP
  split
  · exact Or.inr ⟨_, rfl⟩
  · rename_i hcond
    by_cases h0 : unpU0 P5 PR = []
    · exact Or.inl h0
    · right
      refine startsWith_slash_shape (l := unpU0 P5 PR) ?_
      by_contra hsw
      exact hcond ⟨h0, hsw⟩

theorem unpP_mem {P5 PR : List Char} {c : Char} (h : c ∈ unpP P5 PR) :
    c = '/' ∨ c = ';' ∨ c ∈ P5 ∨ c ∈ PR := by
  have hu : ∀ d ∈ unpU0 P5 PR, d = ';' ∨ d ∈ P5 ∨ d ∈ PR := by
    intro d hd
    unfold unpU0 at hd
    revert hd
    split
    · intro hd
      rcases List.mem_append.mp hd with h1 | h1
      · exact Or.inr (Or.inl h1)
      · rcases List.mem_cons.mp h1 with rfl | h2
        · exact Or.inl rfl
        · exact Or.inr (Or.inr h2)
    · intro hd
      exact Or.inr (Or.inl hd)
  unfold unpP at h
  revert h
  split
  · intro h
    rcases List.mem_cons.mp h with rfl | h2
    · exact Or.inl rfl
    · rcases hu c h2 with h3 | h3 | h3
      · exact Or.inr (Or.inl h3)
      · exact Or.inr (Or.inr (Or.inl h3))
      · exact Or.inr (Or.inr (Or.inr h3))
  · intro h
    rcases hu c h with h3 | h3 | h3
    · exact Or.inr (Or.inl h3)
    · exact Or.inr (Or.inr (Or.inl h3))
    · exact Or.inr (Or.inr (Or.inr h3))

theorem unpP_of_no_params {P5 : List Char}
    (hP5 : P5 = [] ∨ ∃ t, P5 = '/' :: t) : unpP P5 [] = P5 := by
  have hu : unpU0 P5 [] = P5 := by
    unfold unpU0
    rw [if_neg (by simp)]
  unfold unpP
  rw [hu]
  rcases hP5 with rfl | ⟨t, rfl⟩
  · rw [if_neg (by simp)]
  · rw [if_neg (by
      intro hcontra
      exact hcontra.2 (by
        show startsWithL ('/' :: []) ('/' :: t) = true
        simp [startsWithL]))]

theorem mem_unpU0_left {P5 PR : List Char} {c : Char} (h : c ∈ P5) :
    c ∈ unpU0 P5 PR := by
  unfold unpU0
  split
  · exact List.mem_append_left _ h
  · exact h

theorem mem_unpP_of_unpU0 {P5 PR : List Char} {c : Char} (h : c ∈ unpU0 P5 PR) :
    c ∈ unpP P5 PR := by
  unfold unpP
  split
  · exact List.mem_cons_of_mem _ h
  · exact h

theorem urlunparse_exp (S N P5 PR Q : List Char) (hS : S ≠ []) (hN : N ≠ []) :
    urlunparse ⟨S, N, P5, PR, Q, []⟩
      = S ++ ':' :: '/' :: '/' :: (N ++ unpP P5 PR ++ (if Q = [] then [] else '?' :: Q)) := by
  unfold urlunparse unpP unpU0
  dsimp only
  rw [if_pos (Or.inl hN), if_pos hS]
  by_cases hq : Q = []
  · subst hq
    rw [if_neg (by simp), if_neg (by simp), if_pos rfl]
    simp [List.append_assoc]
  · rw [if_neg (by simp), if_pos hq, if_neg hq]
    simp [List.append_assoc]

theorem qpOK_noU {c : Char} (h : qpOK c = true) : noU c = true := by
  have h1 := qpOK_ne h (show qpOK '\t' = false by decide)
  have h2 := qpOK_ne h (show qpOK '\r' = false by decide)
  have h3 := qpOK_ne h (show qpOK '\n' = false by decide)
  unfold noU
  simp [h1, h2, h3]

theorem urlencode_nohash {l : List (List Char × List Char)} :
    ∀ c ∈ urlencode l, ¬ c = '#' := by
  intro c hc
  rcases urlencode_chars l c hc with h | h | h
  · exact qpOK_ne h (show qpOK '#' = false by decide)
  · subst h; decide
  · subst h; decide

theorem urlencode_noq {l : List (List Char × List Char)} :
    ∀ c ∈ urlencode l, ¬ c = '?' := by
  intro c hc
  rcases urlencode_chars l c hc with h | h | h
  · exact qpOK_ne h (show qpOK '?' = false by decide)
  · subst h; decide
  · subst h; decide

theorem urlencode_noU {l : List (List Char × List Char)} :
    ∀ c ∈ urlencode l, noU c = true := by
  intro c hc
  rcases urlencode_chars l c hc with h | h | h
  · exact qpOK_noU h
  · subst h; decide
  · subst h; decide

theorem hasChar_true_of_mem {sep : Char} {l : List Char} (h : sep ∈ l) :
    hasChar sep l = true := by
  unfold hasChar
  simp only [List.any_eq_true, decide_eq_true_eq]
  exact ⟨sep, h, rfl⟩

theorem toLowerList_ne_nil {l : List Char} (h : l ≠ []) : toLowerList l ≠ [] := by
  unfold toLowerList
  intro he
  exact h (List.map_eq_nil.mp he)

set_option maxHeartbeats 1600000 in
/-- C3 (amended): `_canonicalize_url` is idempotent on every input whose
canonical form is stable under the three failure mechanisms: the output
carries no leading/trailing whitespace (`hA`), the four pagination-suffix
substitutions fix the re-parsed path (`hB`), and the re-parsed path holds
no semicolon, so no params re-splitting can occur (`hD`).  Everything
else — percent-encoding round-trips, query re-parsing and re-encoding,
re-parsing of the assembled URL, the tracking-key and page-key filters,
scheme/netloc lower-casing and the trailing-slash strip — is proved
stable unconditionally. -/
theorem c3_canonicalize_idempotent_amended (x : List Char)
    (hA : pyStrip (canonList x) = canonList x)
    (hB : subPageSlashSuffix (subPageDashSuffix (subLatestSuffix (subPostSuffix
            (urlparse (canonList x)).path))) = (urlparse (canonList x)).path)
    (hD : hasChar ';' (urlsplit (canonList x)).path = false) :
    canonList (canonList x) = canonList x := by
  by_cases hy0 : canonList x = []
  · rw [hy0]
    rfl
  have hxc : canonList x = canonCore (pyStrip x) := by
    by_cases hpx : pyStrip x = []
    · exfalso
      apply hy0
      unfold canonList
      rw [if_pos hpx]
    · unfold canonList
      rw [if_neg hpx]
  set parsed := urlparse (pyStrip x) with hparsed
  have hguard : ¬ (¬ (toLowerList parsed.scheme = "http".toList ∨
      toLowerList parsed.scheme = "https".toList) ∨ parsed.netloc = []) := by
    intro hg
    apply hy0
    rw [hxc]
    unfold canonCore
    rw [if_pos hg]
  obtain ⟨hsch2, hnet⟩ := not_or.mp hguard
  have hsch : toLowerList parsed.scheme = "http".toList ∨
      toLowerList parsed.scheme = "https".toList := not_not.mp hsch2
  set p4 := subPageSlashSuffix (subPageDashSuffix (subLatestSuffix
    (subPostSuffix parsed.path))) with hp4
  set queryPairs := parse_qsl parsed.query with hqp
  set kept1 := queryPairs.filter (fun kv => ! isTrackingKey kv.1) with hk1
  set kept2 := (if threadsPathCond p4 then kept1.filter (fun kv => ! isPageKey kv.1)
    else kept1) with hk2
  set kept3 := (if kept2.any (fun kv => toLowerList kv.1 == "m".toList) then
    kept2.filter (fun kv => ! isPageKey kv.1) else kept2) with hk3
  set p5 := (if p4 ≠ [] ∧ p4 ≠ "/".toList then rstripSlash p4 else p4) with hp5
  have hyurl : canonList x = urlunparse ⟨toLowerList parsed.scheme,
      toLowerList parsed.netloc, p5, parsed.params, urlencode kept3, []⟩ := by
    rw [hxc]
    conv_lhs => unfold canonCore
    rw [if_neg hguard]
  -- facts about the assembled components
  have hSne : toLowerList parsed.scheme ≠ [] := by
    rcases hsch with h | h <;> rw [h] <;> decide
  have hNne : toLowerList parsed.netloc ≠ [] := toLowerList_ne_nil hnet
  have hyexp : canonList x = toLowerList parsed.scheme ++ ':' :: '/' :: '/' ::
      (toLowerList parsed.netloc ++ unpP p5 parsed.params ++
        (if urlencode kept3 = [] then [] else '?' :: urlencode kept3)) := by
    rw [hyurl]
    exact urlunparse_exp _ _ _ _ _ hSne hNne
  have hNs : ∀ c ∈ toLowerList parsed.netloc, isNetlocStop c = false := by
    intro c hc
    rcases List.mem_map.mp hc with ⟨d, hd, rfl⟩
    exact lowerChar_stopfree (urlsplit_netloc_stopfree (pyStrip x) d hd)
  have hNu : ∀ c ∈ toLowerList parsed.netloc, noU c = true := by
    intro c hc
    rcases List.mem_map.mp hc with ⟨d, hd, rfl⟩
    exact lowerChar_noU2 (mem_removeUnsafe_noU (urlsplit_netloc_mem (pyStrip x) d hd))
  have hp4pfx : p4 <+: parsed.path := by
    rw [hp4]
    exact List.IsPrefix.trans (subSuffixLitDigits_pfx _ _)
      (List.IsPrefix.trans (subSuffixLitDigits_pfx _ _)
        (List.IsPrefix.trans (subSuffixLit_pfx _ _) (subSuffixLitDigits_pfx _ _)))
  have hp5pfx4 : p5 <+: p4 := by
    rw [hp5]
    split
    · exact rstripSlash_pfx _
    · exact List.prefix_refl _
  have hp5path : p5 <+: (urlsplit (pyStrip x)).path :=
    List.IsPrefix.trans (List.IsPrefix.trans hp5pfx4 hp4pfx) (urlparse_path_pfx _)
  have hPmem : ∀ c ∈ unpP p5 parsed.params, c = '/' ∨ c = ';' ∨
      c ∈ (urlsplit (pyStrip x)).path := by
    intro c hc
    rcases unpP_mem hc with h | h | h | h
    · exact Or.inl h
    · exact Or.inr (Or.inl h)
    · exact Or.inr (Or.inr (pfx_mem hp5path h))
    · exact Or.inr (Or.inr (urlparse_params_mem _ c h))
  have hPh : ∀ c ∈ unpP p5 parsed.params, ¬ c = '#' := by
    intro c hc
    rcases hPmem c hc with rfl | rfl | h
    · decide
    · decide
    · exact urlsplit_path_nohash _ c h
  have hPq : ∀ c ∈ unpP p5 parsed.params, ¬ c = '?' := by
    intro c hc
    rcases hPmem c hc with rfl | rfl | h
    · decide
    · decide
    · exact urlsplit_path_noq _ c h
  have hPu : ∀ c ∈ unpP p5 parsed.params, noU c = true := by
    intro c hc
    rcases hPmem c hc with rfl | rfl | h
    · decide
    · decide
    · exact mem_removeUnsafe_noU (urlsplit_path_mem _ c h)
  have hsplity : urlsplit (canonList x) = ⟨toLowerList parsed.scheme,
      toLowerList parsed.netloc, unpP p5 parsed.params, urlencode kept3, []⟩ := by
    rw [hyexp]
    exact urlsplit_recover _ _ _ _ hsch hNs hNu (unpP_shape _ _) hPh hPq hPu
      urlencode_nohash urlencode_noU
  have hDP : hasChar ';' (unpP p5 parsed.params) = false := by
    have h1 := hD
    rw [hsplity] at h1
    exact h1
  have hparams : parsed.params = [] := by
    by_contra hne
    have hmem : ';' ∈ unpP p5 parsed.params := by
      refine mem_unpP_of_unpU0 ?_
      unfold unpU0
      rw [if_pos hne]
      exact List.mem_append_right _ (List.mem_cons_self _ _)
    rw [hasChar_true_of_mem hmem] at hDP
    cases hDP
  have hp5shape : p5 = [] ∨ ∃ t, p5 = '/' :: t := by
    refine pfx_shape hp5path (urlsplit_path_shape (pyStrip x) ?_)
    exact hnet
  have hPp5 : unpP p5 parsed.params = p5 := by
    rw [hparams]
    exact unpP_of_no_params hp5shape
  rw [hPp5] at hsplity
  -- the second application
  have hy2 : canonList (canonList x) = canonCore (canonList x) := by
    have hstep : canonList (canonList x)
        = if pyStrip (canonList x) = [] then [] else canonCore (pyStrip (canonList x)) := rfl
    rw [hstep, hA, if_neg hy0]
  have hDsplit : hasChar ';' (urlsplit (canonList x)).path = false := hD
  have hup2 : urlparse (canonList x) = ⟨toLowerList parsed.scheme,
      toLowerList parsed.netloc, p5, [], urlencode kept3, []⟩ := by
    rw [urlparse_of_no_semi _ hDsplit, hsplity]
  have hSlow : toLowerList (toLowerList parsed.scheme) = toLowerList parsed.scheme := by
    rcases hsch with h | h <;> rw [h] <;> decide
  have hNlow : toLowerList (toLowerList parsed.netloc) = toLowerList parsed.netloc :=
    toLowerList_idem _
  have hguard2 : ¬ (¬ (toLowerList (urlparse (canonList x)).scheme = "http".toList ∨
      toLowerList (urlparse (canonList x)).scheme = "https".toList) ∨
      (urlparse (canonList x)).netloc = []) := by
    rw [hup2]
    intro hg
    rcases hg with hg | hg
    · apply hg
      show toLowerList (toLowerList parsed.scheme) = "http".toList ∨
        toLowerList (toLowerList parsed.scheme) = "https".toList
      rw [hSlow]
      exact hsch
    · exact hNne hg
  -- the path of the second parse is fixed by the substitutions
  have hpath3 : (urlparse (canonList x)).path = p5 := by rw [hup2]
  have hB2 : subPageSlashSuffix (subPageDashSuffix (subLatestSuffix (subPostSuffix p5)))
      = p5 := by
    have h1 := hB
    rw [hpath3] at h1
    exact h1
  -- the query pairs of the second parse are kept3 again
  have hqp2 : parse_qsl (urlencode kept3) = kept3 := parse_qsl_urlencode kept3
  -- kept3 passes all three filters unchanged
  have hk21 : ∀ kv ∈ kept2, kv ∈ kept1 := by
    intro kv hkv
    rw [hk2] at hkv
    revert hkv
    split
    · exact fun hkv => List.mem_of_mem_filter hkv
    · exact fun hkv => hkv
  have hk32 : ∀ kv ∈ kept3, kv ∈ kept2 := by
    intro kv hkv
    rw [hk3] at hkv
    revert hkv
    split
    · exact fun hkv => List.mem_of_mem_filter hkv
    · exact fun hkv => hkv
  have hktrack : kept3.filter (fun kv => ! isTrackingKey kv.1) = kept3 :=
    List.filter_eq_self.mpr (fun kv hkv => by
      have h1 : kv ∈ kept1 := hk21 kv (hk32 kv hkv)
      rw [hk1] at h1
      exact List.of_mem_filter (p := fun kv : List Char × List Char => ! isTrackingKey kv.1) h1)
  have hkthreads : (if threadsPathCond p5 then
      kept3.filter (fun kv => ! isPageKey kv.1) else kept3) = kept3 := by
    split
    · rename_i htc
      have htc4 : threadsPathCond p4 = true := threadsPathCond_pfx hp5pfx4 htc
      have hpagefree : ∀ kv ∈ kept3, (! isPageKey kv.1) = true := by
        intro kv hkv
        have h2 : kv ∈ kept2 := hk32 kv hkv
        rw [hk2, if_pos htc4] at h2
        exact List.of_mem_filter (p := fun kv : List Char × List Char => ! isPageKey kv.1) h2
      exact List.filter_eq_self.mpr hpagefree
    · rfl
  have hkm : (if kept3.any (fun kv => toLowerList kv.1 == "m".toList) then
      kept3.filter (fun kv => ! isPageKey kv.1) else kept3) = kept3 := by
    split
    · rename_i hm
      by_cases hm2 : kept2.any (fun kv => toLowerList kv.1 == "m".toList) = true
      · have hpagefree : ∀ kv ∈ kept3, (! isPageKey kv.1) = true := by
          intro kv hkv
          have h2 : kv ∈ kept3 := hkv
          rw [hk3, if_pos hm2] at h2
          exact List.of_mem_filter (p := fun kv : List Char × List Char => ! isPageKey kv.1) h2
        exact List.filter_eq_self.mpr hpagefree
      · exfalso
        apply hm2
        have hke : kept3 = kept2 := by
          rw [hk3, if_neg hm2]
        rw [← hke]
        exact hm
    · rfl
  -- the rstrip of the second pass is a no-op
  have hrstrip : (if p5 ≠ [] ∧ p5 ≠ "/".toList then rstripSlash p5 else p5) = p5 := by
    split
    · rename_i hcond
      rw [hp5]
      by_cases hg : p4 ≠ [] ∧ p4 ≠ "/".toList
      · rw [if_pos hg]
        exact rstripSlash_idem p4
      · exfalso
        rw [hp5, if_neg hg] at hcond
        rcases not_and_or.mp hg with h1 | h1
        · exact hcond.1 (not_not.mp h1)
        · exact hcond.2 (not_not.mp h1)
    · rfl
  -- assemble the second application
  rw [hy2]
  conv_lhs => unfold canonCore
  rw [if_neg hguard2, hup2]
  dsimp only
  rw [hB2, hqp2, hktrack, hkthreads, hkm, hrstrip, hSlow, hNlow, hyurl, hparams]

/-! ## Witnesses -/

def wRowA : UrlRow :=
  { url := "https://h/a", source_name := "s", status := Status.pending,
    discovered_at := 0, processed_at := none, retry_count := 0, priority := 5 }

def wRowB : UrlRow :=
  { url := "https://h/b", source_name := "s", status := Status.pending,
    discovered_at := 1, processed_at := none, retry_count := 0, priority := 3 }

theorem c1_witness :
    (wRowA.url ≠ wRowB.url ∧ wRowA.status = Status.pending ∧
      wRowB.status = Status.pending ∧ wRowA.retry_count < MAX_RETRIES ∧
      wRowB.retry_count < MAX_RETRIES ∧
      (1001 : Int) ≤ 1000 + (PROCESSING_STALE_HOURS : Int) * 3600) ∧
    ((∀ u ∈ (get_pending_chunk 1000 1 [wRowA, wRowB]).1,
        u ∉ (get_pending_chunk 1001 1 (get_pending_chunk 1000 1 [wRowA, wRowB]).2).1) ∧
      ((get_pending_chunk 1000 1 [wRowA, wRowB]).1 ++
        (get_pending_chunk 1001 1 (get_pending_chunk 1000 1 [wRowA, wRowB]).2).1).Perm
        [wRowA.url, wRowB.url]) :=
  ⟨⟨by decide, by decide, by decide, by decide, by decide, by decide⟩,
   c1_concurrent_claims_disjoint wRowA wRowB 1000 1001 (by decide) (by decide)
     (by decide) (by decide) (by decide) (by decide)⟩

theorem c2_witness :
    (get_pending_chunk 1000 2 [wRowA, wRowB]).1.length ≤ 2 ∧
    (∀ u ∈ (get_pending_chunk 1000 2 [wRowA, wRowB]).1, ∃ r ∈ [wRowA, wRowB],
      r.url = u ∧
      (r.status = Status.pending ∨ (r.status = Status.processing ∧
        ∃ t, r.processed_at = some t ∧ t < staleCutoff 1000)) ∧
      r.retry_count < MAX_RETRIES) ∧
    (∀ r' ∈ (get_pending_chunk 1000 2 [wRowA, wRowB]).2,
      r'.url ∈ (get_pending_chunk 1000 2 [wRowA, wRowB]).1 →
      r'.status = Status.processing ∧ r'.processed_at = some 1000) :=
  ⟨(c2_claim_contract 1000 2 [wRowA, wRowB]).1,
   (c2_claim_contract 1000 2 [wRowA, wRowB]).2.1,
   (c2_claim_contract 1000 2 [wRowA, wRowB]).2.2.2.2⟩

def wRow4 : UrlRow :=
  { url := "https://h/a", source_name := "s", status := Status.pending,
    discovered_at := 0, processed_at := none, retry_count := 2, priority := 5 }

theorem c4_witness :
    (wRow4 ∈ [wRow4, wRowB] ∧ wRow4.url = "https://h/a" ∧
      (([wRow4, wRowB].map (fun r => r.url)).Nodup)) ∧
    ((wRow4.retry_count = MAX_RETRIES - 1 →
       ∀ r' ∈ handle_failure 50 "https://h/a" [wRow4, wRowB], r'.url = "https://h/a" →
         r'.status = Status.failed ∧ r'.retry_count = MAX_RETRIES) ∧
     (wRow4.retry_count < MAX_RETRIES - 1 →
       ∀ r' ∈ handle_failure 50 "https://h/a" [wRow4, wRowB], r'.url = "https://h/a" →
         r'.status = Status.pending ∧ r'.retry_count = wRow4.retry_count + 1)) :=
  ⟨⟨by decide, by decide, by decide⟩,
   c4_handle_failure_transitions [wRow4, wRowB] "https://h/a" 50 wRow4
     (by decide) (by decide) (by decide)⟩

theorem c5_witness :
    (startsWithL "http".toList "https://h/a".toList = true ∧
      (([wRowA, wRowB].map (fun r => r.url)).Nodup)) ∧
    (∀ row ∈ [wRowA, wRowB], row.url = "https://h/a" → row.priority < 20 →
      (add_urls_to_db [("https://h/a", some 20)] "s2" 60 [wRowA, wRowB]).2.2 = 1 ∧
      ∀ r' ∈ (add_urls_to_db [("https://h/a", some 20)] "s2" 60 [wRowA, wRowB]).1,
        r'.url = "https://h/a" → r'.priority = 20) :=
  ⟨⟨by decide, by decide⟩,
   (c5_add_urls_upsert [wRowA, wRowB] "https://h/a" "s2" 20 60
     (by decide) (by decide)).2.1⟩

theorem c6_witness :
    (wRowA ∈ [wRowA, wRowB] ∧ wRowA.retry_count ≤ MAX_RETRIES) ∧
    (∃ r' ∈ quarantine_suspect_outputs 70 ["https://h/a"] [wRowA, wRowB],
      r'.url = wRowA.url ∧ wRowA.retry_count ≤ r'.retry_count ∧
        wRowA.priority ≤ r'.priority) :=
  ⟨⟨by decide, by decide⟩,
   c6_retry_priority_never_lost.2.2.2.2.2 70 ["https://h/a"] [wRowA, wRowB] wRowA
     (by decide) (by decide)⟩

def c7row1 : UrlRow :=
  { url := "https://example.org/threads/story.1/", source_name := "source-a",
    status := Status.completed, discovered_at := 0, processed_at := some 3,
    retry_count := 0, priority := 5 }

def c7row2 : UrlRow :=
  { url := "https://example.org/threads/story.1", source_name := "source-a",
    status := Status.failed, discovered_at := 1, processed_at := some 9,
    retry_count := 2, priority := 9 }

theorem c7_witness :
    ([c7row1, c7row2].filter
        (fun r => canonKey r.url = "https://example.org/threads/story.1") ≠ []) ∧
    (∃ v, (normalize_existing_urls [c7row1, c7row2]).filter
        (fun r => r.url = "https://example.org/threads/story.1") = [v] ∧
      (∀ g ∈ [c7row1, c7row2].filter
          (fun r => canonKey r.url = "https://example.org/threads/story.1"),
        _status_priority g.status ≤ _status_priority v.status) ∧
      (∃ g ∈ [c7row1, c7row2].filter
          (fun r => canonKey r.url = "https://example.org/threads/story.1"),
        v.status = g.status) ∧
      (∀ g ∈ [c7row1, c7row2].filter
          (fun r => canonKey r.url = "https://example.org/threads/story.1"),
        g.retry_count ≤ v.retry_count) ∧
      (∃ g ∈ [c7row1, c7row2].filter
          (fun r => canonKey r.url = "https://example.org/threads/story.1"),
        v.retry_count = g.retry_count) ∧
      (∀ g ∈ [c7row1, c7row2].filter
          (fun r => canonKey r.url = "https://example.org/threads/story.1"),
        g.priority ≤ v.priority) ∧
      (∃ g ∈ [c7row1, c7row2].filter
          (fun r => canonKey r.url = "https://example.org/threads/story.1"),
        v.priority = g.priority) ∧
      (∀ g ∈ [c7row1, c7row2].filter
          (fun r => canonKey r.url = "https://example.org/threads/story.1"),
        v.discovered_at ≤ g.discovered_at) ∧
      (∃ g ∈ [c7row1, c7row2].filter
          (fun r => canonKey r.url = "https://example.org/threads/story.1"),
        v.discovered_at = g.discovered_at) ∧
      (∀ g ∈ [c7row1, c7row2].filter
          (fun r => canonKey r.url = "https://example.org/threads/story.1"), ∀ t,
        g.processed_at = some t → ∃ t', v.processed_at = some t' ∧ t ≤ t') ∧
      (v.processed_at = none ∨
        ∃ g ∈ [c7row1, c7row2].filter
          (fun r => canonKey r.url = "https://example.org/threads/story.1"),
          v.processed_at = g.processed_at)) :=
  ⟨by decide,
   c7_normalize_merge [c7row1, c7row2] "https://example.org/threads/story.1"
     (by decide)⟩

theorem c8_witness :
    (demoSrcA ∈ [demoSrcA, demoSrcB] ∧ _source_condition_tags demoSrcA ≠ []) ∧
    (demoSrcA ∈ (_filter_sources_by_condition_quotas demoCov [demoSrcA, demoSrcB]).1 ↔
      ∃ t ∈ _source_condition_tags demoSrcA, 0 < covDeficit demoCov t) :=
  ⟨⟨by decide, by decide⟩,
   (c8_source_selection demoCov [demoSrcA, demoSrcB]).2.1 demoSrcA
     (by decide) (by decide)⟩

theorem c9_witness :
    _looks_like_directory_page demoDirectoryDoc.toList demoDirectoryUrl.toList = true ∧
    (35 ≤ (docLines demoDirectoryDoc.toList).length ∧
      listingContext demoDirectoryDoc.toList demoDirectoryUrl.toList = true ∧
      58 * (docLines demoDirectoryDoc.toList).length <
        100 * linkishCount demoDirectoryDoc.toList ∧
      narrativeCount demoDirectoryDoc.toList < 6) :=
  ⟨c9_directory_detector.2.1,
   (c9_directory_detector.1 demoDirectoryDoc.toList demoDirectoryUrl.toList).mp
     c9_directory_detector.2.1⟩

theorem c10_witness :
    (("https://h/threads/t/post-1", (36 : Int)) ∈
      _rank_candidate_urls ["https://h/threads/t/post-1/latest"] c10src) ∧
    (∃ raw ∈ ["https://h/threads/t/post-1/latest"],
      ("https://h/threads/t/post-1", (36 : Int)).1 = canonicalize_url raw ∧
        canonicalize_url raw ≠ "") :=
  ⟨by decide,
   c10_ranked_urls_one_pass_canonical ["https://h/threads/t/post-1/latest"] c10src
     ("https://h/threads/t/post-1", 36) (by decide)⟩

theorem c3_witness :
    (pyStrip (canonList "https://H/threads/t?p=2&a=b%20c".toList)
        = canonList "https://H/threads/t?p=2&a=b%20c".toList ∧
      subPageSlashSuffix (subPageDashSuffix (subLatestSuffix (subPostSuffix
        (urlparse (canonList "https://H/threads/t?p=2&a=b%20c".toList)).path)))
        = (urlparse (canonList "https://H/threads/t?p=2&a=b%20c".toList)).path ∧
      hasChar ';' (urlsplit (canonList "https://H/threads/t?p=2&a=b%20c".toList)).path
        = false) ∧
    canonList (canonList "https://H/threads/t?p=2&a=b%20c".toList)
      = canonList "https://H/threads/t?p=2&a=b%20c".toList :=
  ⟨⟨by decide, by decide, by decide⟩,
   c3_canonicalize_idempotent_amended "https://H/threads/t?p=2&a=b%20c".toList
     (by decide) (by decide) (by decide)⟩

end Crawl
